import Mathlib

/-!
# stec::FixedPoint (src/code/fixed-point/fixed_point.hpp)

A shallow embedding of the class template `FixedPoint<T, Precision>` and of the C++
arithmetic it relies on.

Modelling conventions

* An exact base type `T` is an `IntTy`: a width of 8 to 64 bits and a signedness.  Values
  are mathematical integers (`Int`); every conversion to an integer type is `IntTy.wrap`,
  reduction modulo `2 ^ bits` into the range of the type.
* Binary operators on integers follow the usual arithmetic conversions: both operands are
  promoted (`IntTy.promote`, with a 32 bit `int`), converted to the common type
  (`commonTy`) and the result has that type (`arith`, `cmp`).
* A floating-point value is an `Fp`: a finite rational, an infinity or a NaN.  The formats
  `float` and `double` are `binary32` and `binary64`; every conversion to a format and
  every arithmetic operation rounds the exact result to the nearest representable number,
  a tie going to the even significand (`FpFormat.round`), with gradual underflow and with
  overflow to an infinity.  The two zeros are not distinguished, and expressions are
  evaluated in the precision of their type.
* `std::pow` is `stdPow`: the exact power, rounded to `double`.
* A conversion from a floating type to an integer type discards the fractional part
  (`truncQ`) and then wraps (`IntTy.ofFp`).
* Template parameters are explicit arguments; every overload of an operator has a
  definition of its own, named after the operator and the kind of its right-hand side.
* Signed overflow, a division by zero and the conversion of a NaN, an infinity or an
  out-of-range floating value to an integer type are undefined in C++; the definitions
  are total there (wrapping, `Int.tdiv _ 0 = 0`, `0` for a NaN or an infinity), and the
  theorems on `FixedPoint` state the representability they rely on as hypotheses, so that
  none of them speaks about such an input.
-/

namespace stec

/-! ## Integer types -/

/-- An exact C++ integer type (`int8_t` to `uint64_t`): its width in bits and whether it
is signed. -/
structure IntTy where
  bits : Nat
  signed : Bool
  hbits : 8 ≤ bits
  hmax : bits ≤ 64

namespace IntTy

/-- The number of values of the type, `2 ^ bits`. -/
def modulus (T : IntTy) : Int := ((2 ^ T.bits : Nat) : Int)

/-- The offset of a signed type, `2 ^ (bits - 1)`. -/
def half (T : IntTy) : Int := ((2 ^ (T.bits - 1) : Nat) : Int)

/-- Lowest value: `std::numeric_limits<T>::min()`. -/
def minVal (T : IntTy) : Int := if T.signed then -T.half else 0

/-- Greatest value: `std::numeric_limits<T>::max()`. -/
def maxVal (T : IntTy) : Int := if T.signed then T.half - 1 else T.modulus - 1

/-- The integer `x` is representable in `T`. -/
def inRange (T : IntTy) (x : Int) : Prop := T.minVal ≤ x ∧ x ≤ T.maxVal

instance (T : IntTy) (x : Int) : Decidable (T.inRange x) := by
  unfold inRange; infer_instance

/-- The rational `q` lies between the lowest and the greatest value of `T`. -/
def inRangeQ (T : IntTy) (q : ℚ) : Prop := (T.minVal : ℚ) ≤ q ∧ q ≤ (T.maxVal : ℚ)

/-- Conversion of an integer value to `T`: the value modulo `2 ^ bits` in the range of `T`. -/
def wrap (T : IntTy) (x : Int) : Int :=
  if T.signed then (x + T.half) % T.modulus - T.half else x % T.modulus

/-- Integral promotion: a type narrower than `int` is promoted to `int`. -/
def promote (T : IntTy) : IntTy :=
  if T.bits < 32 then { bits := 32, signed := true, hbits := by decide, hmax := by decide } else T

end IntTy

/-- The type `int8_t`. -/
def int8_t : IntTy := { bits := 8, signed := true, hbits := by decide, hmax := by decide }

/-- The type `uint8_t`. -/
def uint8_t : IntTy := { bits := 8, signed := false, hbits := by decide, hmax := by decide }

/-- The type `int16_t`. -/
def int16_t : IntTy := { bits := 16, signed := true, hbits := by decide, hmax := by decide }

/-- The type `uint16_t`. -/
def uint16_t : IntTy := { bits := 16, signed := false, hbits := by decide, hmax := by decide }

/-- The type `int32_t`. -/
def int32_t : IntTy := { bits := 32, signed := true, hbits := by decide, hmax := by decide }

/-- The type `uint32_t`. -/
def uint32_t : IntTy := { bits := 32, signed := false, hbits := by decide, hmax := by decide }

/-- The type `int64_t`. -/
def int64_t : IntTy := { bits := 64, signed := true, hbits := by decide, hmax := by decide }

/-- The type `uint64_t`. -/
def uint64_t : IntTy := { bits := 64, signed := false, hbits := by decide, hmax := by decide }

/-- The usual arithmetic conversions: the type in which a binary operator on operands of
types `A` and `B` is evaluated.  Both are promoted; with equal signedness the wider one
wins, otherwise the unsigned one wins unless the signed one is strictly wider. -/
def commonTy (A B : IntTy) : IntTy :=
  let a := A.promote
  let b := B.promote
  if a.signed = b.signed then (if b.bits ≤ a.bits then a else b)
  else if a.signed then (if a.bits ≤ b.bits then b else a)
  else (if b.bits ≤ a.bits then a else b)

/-- A binary arithmetic operator `f` applied to `a` of type `A` and `b` of type `B`: both
operands are converted to the common type and so is the result. -/
def arith (f : Int → Int → Int) (A B : IntTy) (a b : Int) : Int :=
  (commonTy A B).wrap (f ((commonTy A B).wrap a) ((commonTy A B).wrap b))

/-- A comparison operator `r` applied to `a` of type `A` and `b` of type `B`: both operands
are converted to the common type and compared there. -/
def cmp (r : Int → Int → Bool) (A B : IntTy) (a b : Int) : Bool :=
  r ((commonTy A B).wrap a) ((commonTy A B).wrap b)

/-! ## Floating point -/

/-- Rounding toward zero: the integral part of `q`. -/
def truncQ (q : ℚ) : Int := if 0 ≤ q then ⌊q⌋ else ⌈q⌉

/-- Rounding to the nearest integer, a tie going to the even one. -/
def roundHalfEven (x : ℚ) : Int :=
  if x - ⌊x⌋ < 1 / 2 then ⌊x⌋
  else if 1 / 2 < x - ⌊x⌋ then ⌊x⌋ + 1
  else if ⌊x⌋ % 2 = 0 then ⌊x⌋ else ⌊x⌋ + 1

/-- A binary floating-point format: the number of bits of the significand and the
greatest exponent. -/
structure FpFormat where
  prec : Nat
  emax : Nat
  hprec : 2 ≤ prec
  hemax : prec < emax

/-- The format of `float`. -/
def binary32 : FpFormat := { prec := 24, emax := 127, hprec := by decide, hemax := by decide }

/-- The format of `double`. -/
def binary64 : FpFormat :=
  { prec := 53, emax := 1023, hprec := by decide, hemax := by decide }

/-- A floating-point value: a finite number, an infinity with its sign, or a NaN. -/
inductive Fp where
  | fin (q : ℚ)
  | inf (neg : Bool)
  | nan
deriving DecidableEq

namespace FpFormat

/-- The exponent of the binade of `q`, not below the least exponent `1 - emax`. -/
def exponent (F : FpFormat) (q : ℚ) : Int := Max.max (Int.log 2 |q|) (1 - (F.emax : Int))

/-- The spacing of the representable numbers in the binade of `q`. -/
def ulp (F : FpFormat) (q : ℚ) : ℚ := (2 : ℚ) ^ (F.exponent q - ((F.prec : Int) - 1))

/-- The multiple of the spacing nearest to `q`, a tie going to the even multiple. -/
def roundQ (F : FpFormat) (q : ℚ) : ℚ := ((roundHalfEven (q / F.ulp q) : Int) : ℚ) * F.ulp q

/-- The greatest finite number of the format. -/
def maxFinite (F : FpFormat) : ℚ :=
  ((2 : ℚ) ^ F.prec - 1) * (2 : ℚ) ^ ((F.emax : Int) - ((F.prec : Int) - 1))

/-- Rounding of an exact result to the format: to the nearest representable number, or
to an infinity when that number would exceed the greatest finite one. -/
def round (F : FpFormat) (q : ℚ) : Fp :=
  if F.maxFinite < |F.roundQ q| then Fp.inf (decide (q < 0)) else Fp.fin (F.roundQ q)

/-- Conversion of an integer to the format. -/
def ofInt (F : FpFormat) (n : Int) : Fp := F.round (n : ℚ)

end FpFormat

namespace Fp

/-- The value is a NaN. -/
def isNaN : Fp → Bool
  | nan => true
  | _ => false

/-- Unary minus. -/
def neg : Fp → Fp
  | fin x => fin (-x)
  | inf s => inf (!s)
  | nan => nan

/-- The operator `+` in the format `F`. -/
def add (F : FpFormat) : Fp → Fp → Fp
  | fin x, fin y => F.round (x + y)
  | fin _, inf s => inf s
  | inf s, fin _ => inf s
  | inf s, inf t => if s = t then inf s else nan
  | _, _ => nan

/-- The operator `-` in the format `F`. -/
def sub (F : FpFormat) (x y : Fp) : Fp := add F x (neg y)

/-- The operator `*` in the format `F`. -/
def mul (F : FpFormat) : Fp → Fp → Fp
  | fin x, fin y => F.round (x * y)
  | fin x, inf s => if x = 0 then nan else inf (xor s (decide (x < 0)))
  | inf s, fin y => if y = 0 then nan else inf (xor s (decide (y < 0)))
  | inf s, inf t => inf (xor s t)
  | _, _ => nan

/-- The operator `/` in the format `F`; a non-zero finite value divided by zero is an
infinity with the sign of the dividend. -/
def div (F : FpFormat) : Fp → Fp → Fp
  | fin x, fin y =>
    if y = 0 then (if x = 0 then nan else inf (decide (x < 0))) else F.round (x / y)
  | fin _, inf _ => fin 0
  | inf s, fin y => inf (xor s (decide (y < 0)))
  | _, _ => nan

/-- The operator `==`; a NaN equals nothing. -/
def eq : Fp → Fp → Bool
  | fin x, fin y => decide (x = y)
  | inf s, inf t => decide (s = t)
  | _, _ => false

/-- The operator `!=`: the negation of `==`, so true when an operand is a NaN. -/
def ne (x y : Fp) : Bool := !(eq x y)

/-- The operator `<`; false when an operand is a NaN. -/
def lt : Fp → Fp → Bool
  | fin x, fin y => decide (x < y)
  | fin _, inf t => !t
  | inf s, fin _ => s
  | inf s, inf t => s && !t
  | _, _ => false

/-- The operator `<=`; false when an operand is a NaN. -/
def le : Fp → Fp → Bool
  | fin x, fin y => decide (x ≤ y)
  | fin _, inf t => !t
  | inf s, fin _ => s
  | inf s, inf t => s || !t
  | _, _ => false

end Fp

/-- The function `std::pow` on a `double` base and an integer exponent: the exact power
rounded to `double`. -/
def stdPow : Fp → Int → Fp
  | Fp.fin x, n => if x = 0 ∧ n < 0 then Fp.inf false else binary64.round (x ^ n)
  | Fp.inf s, n =>
    if n = 0 then Fp.fin 1 else if n < 0 then Fp.fin 0 else Fp.inf (s && decide (n % 2 = 1))
  | Fp.nan, n => if n = 0 then Fp.fin 1 else Fp.nan

/-- Conversion of a floating value to the integer type `T`: the fractional part is
discarded.  C++ defines the conversion only when the truncated value is representable in
`T`; the definition is total and wraps a finite value, and gives `0` for an infinity and
for a NaN. -/
def IntTy.ofFp (T : IntTy) : Fp → Int
  | Fp.fin q => T.wrap (truncQ q)
  | _ => 0

/-! ## FixedPoint -/

/-- The class `FixedPoint<T, Precision>`: its only member is `value`. -/
structure FixedPoint (T : IntTy) (Precision : Int) where
  value : Int
deriving DecidableEq

namespace FixedPoint

variable {T Y : IntTy} {Precision Z : Int}

/-- Member `getRaw`: the underlying value. -/
def getRaw (x : FixedPoint T Precision) : Int := x.value

/-- Member `getPrecision`. -/
def getPrecision (_x : FixedPoint T Precision) : Int := Precision

/-- Member `getPrecisionMultiplier`: `std::pow(static_cast<T>(10), Precision)` returned
as a `T`. -/
def getPrecisionMultiplier (T : IntTy) (Precision : Int) : Int :=
  T.ofFp (stdPow (binary64.ofInt (T.wrap 10)) Precision)

/-- Constructor `FixedPoint(Y initial_value)` for an integer type `Y`:
`value(initial_value * getPrecisionMultiplier())`. -/
def ofInt (T : IntTy) (Precision : Int) (Y : IntTy) (initial_value : Int) :
    FixedPoint T Precision :=
  ⟨T.wrap (arith (· * ·) Y T initial_value (getPrecisionMultiplier T Precision))⟩

/-- Constructor `FixedPoint(Y initial_value)` for a floating type `Y` of format `F`: the
multiplier is converted to `Y`, the product is taken in `Y` and is converted to `T`. -/
def ofFloating (F : FpFormat) (T : IntTy) (Precision : Int) (initial_value : Fp) :
    FixedPoint T Precision :=
  ⟨T.ofFp (Fp.mul F initial_value (F.ofInt (getPrecisionMultiplier T Precision)))⟩

/-- Constructor `FixedPoint(Y initial_value)` for `Y = double`. -/
def ofDouble (T : IntTy) (Precision : Int) (initial_value : Fp) : FixedPoint T Precision :=
  ofFloating binary64 T Precision initial_value

/-- Conversion `operator const Y()` for an integer type `Y`:
`static_cast<Y>(value) / getPrecisionMultiplier()`, an integer division. -/
def toInt (Y : IntTy) (x : FixedPoint T Precision) : Int :=
  Y.wrap (arith Int.tdiv Y T (Y.wrap x.value) (getPrecisionMultiplier T Precision))

/-- Conversion `operator const Y()` for a floating type `Y` of format `F`:
`static_cast<Y>(value) / getPrecisionMultiplier()`, the multiplier being converted to `Y`
and the quotient taken in `Y`. -/
def toFloating (F : FpFormat) (x : FixedPoint T Precision) : Fp :=
  Fp.div F (F.ofInt x.value) (F.ofInt (getPrecisionMultiplier T Precision))

/-- Conversion `operator const Y()` for `Y = double`. -/
def toDouble (x : FixedPoint T Precision) : Fp := toFloating binary64 x

/-- Conversion `operator const Y()` for `Y = float`. -/
def toFloat (x : FixedPoint T Precision) : Fp := toFloating binary32 x

/-- Constructor `FixedPoint(FixedPoint<Y, Z> initial)`, selected when `FixedPoint<Y, Z>`
is another type than the one constructed (the same type is copied): `value(initial)`
initialises the member of type `T` from `initial`, which goes through
`initial.operator const T()`. -/
def ofFixed (T : IntTy) (Precision : Int) (initial : FixedPoint Y Z) :
    FixedPoint T Precision :=
  ⟨toInt T initial⟩

/-! ### Operators with a plain integer scalar on the right -/

/-- Assignment `operator=(const Y rhs)`: `value = rhs * getPrecisionMultiplier()`. -/
def assignScalar (_x : FixedPoint T Precision) (Y : IntTy) (rhs : Int) :
    FixedPoint T Precision :=
  ⟨T.wrap (arith (· * ·) Y T rhs (getPrecisionMultiplier T Precision))⟩

/-- Compound `operator+=(const Y rhs)`: `T test = rhs * getPrecisionMultiplier();
value += test`. -/
def addAssignScalar (x : FixedPoint T Precision) (Y : IntTy) (rhs : Int) :
    FixedPoint T Precision :=
  ⟨T.wrap (arith (· + ·) T T x.value
    (T.wrap (arith (· * ·) Y T rhs (getPrecisionMultiplier T Precision))))⟩

/-- Compound `operator-=(const Y rhs)`: `value -= rhs * getPrecisionMultiplier()`; the
product keeps the common type of `Y` and `T`. -/
def subAssignScalar (x : FixedPoint T Precision) (Y : IntTy) (rhs : Int) :
    FixedPoint T Precision :=
  ⟨T.wrap (arith (· - ·) T (commonTy Y T) x.value
    (arith (· * ·) Y T rhs (getPrecisionMultiplier T Precision)))⟩

/-- Compound `operator*=(const Y rhs)`: `value *= rhs`. -/
def mulAssignScalar (x : FixedPoint T Precision) (Y : IntTy) (rhs : Int) :
    FixedPoint T Precision :=
  ⟨T.wrap (arith (· * ·) T Y x.value rhs)⟩

/-- Compound `operator/=(const Y rhs)`: `value /= rhs`. -/
def divAssignScalar (x : FixedPoint T Precision) (Y : IntTy) (rhs : Int) :
    FixedPoint T Precision :=
  ⟨T.wrap (arith Int.tdiv T Y x.value rhs)⟩

/-- Binary `operator+(const Y rhs)`: `FixedPoint(*this) += rhs`. -/
def addScalar (x : FixedPoint T Precision) (Y : IntTy) (rhs : Int) : FixedPoint T Precision :=
  addAssignScalar x Y rhs

/-- Binary `operator-(const Y rhs)`: `FixedPoint(*this) -= rhs`. -/
def subScalar (x : FixedPoint T Precision) (Y : IntTy) (rhs : Int) : FixedPoint T Precision :=
  subAssignScalar x Y rhs

/-- Binary `operator*(const Y rhs)`: `FixedPoint(*this) *= rhs`. -/
def mulScalar (x : FixedPoint T Precision) (Y : IntTy) (rhs : Int) : FixedPoint T Precision :=
  mulAssignScalar x Y rhs

/-- Binary `operator/(const Y rhs)`: `FixedPoint(*this) /= rhs`. -/
def divScalar (x : FixedPoint T Precision) (Y : IntTy) (rhs : Int) : FixedPoint T Precision :=
  divAssignScalar x Y rhs

/-! ### Operators with a `FixedPoint` of the same type on the right -/

/-- Compound `operator+=(const FixedPoint &rhs)`: `value += rhs.value`. -/
def addAssign (x rhs : FixedPoint T Precision) : FixedPoint T Precision :=
  ⟨T.wrap (arith (· + ·) T T x.value rhs.value)⟩

/-- Compound `operator-=(const FixedPoint &rhs)`: `value -= rhs.value`. -/
def subAssign (x rhs : FixedPoint T Precision) : FixedPoint T Precision :=
  ⟨T.wrap (arith (· - ·) T T x.value rhs.value)⟩

/-- Compound `operator*=(const FixedPoint &rhs)`: `value *= rhs.value`. -/
def mulAssign (x rhs : FixedPoint T Precision) : FixedPoint T Precision :=
  ⟨T.wrap (arith (· * ·) T T x.value rhs.value)⟩

/-- Compound `operator/=(const FixedPoint &rhs)`: `value /= rhs.value`. -/
def divAssign (x rhs : FixedPoint T Precision) : FixedPoint T Precision :=
  ⟨T.wrap (arith Int.tdiv T T x.value rhs.value)⟩

/-- Binary `operator+(const FixedPoint &rhs)`: `FixedPoint(*this) += rhs`. -/
def add (x rhs : FixedPoint T Precision) : FixedPoint T Precision := addAssign x rhs

/-- Binary `operator-(const FixedPoint &rhs)`: `FixedPoint(*this) -= rhs`. -/
def sub (x rhs : FixedPoint T Precision) : FixedPoint T Precision := subAssign x rhs

/-- Binary `operator*(const FixedPoint &rhs)`: `FixedPoint(*this) *= rhs`. -/
def mul (x rhs : FixedPoint T Precision) : FixedPoint T Precision := mulAssign x rhs

/-- Binary `operator/(const FixedPoint &rhs)`: `FixedPoint(*this) /= rhs`. -/
def div (x rhs : FixedPoint T Precision) : FixedPoint T Precision := divAssign x rhs

/-! ### Operators with a `FixedPoint<Y, Z>` of another type on the right

In the branches `Precision > Z` and `Precision < Z` the right-hand side is a `double`
expression (it contains `std::pow`): `rhs.getRaw()` is converted to `double` and scaled
there.  A compound assignment converts `value` to `double`, evaluates `value OP expression`
in `double` and converts the result to `T`. -/

/-- The expression `rhs.getRaw() * std::pow(static_cast<T>(10), Precision - Z)` of the
branches `Precision > Z`, a `double`. -/
def scaledUp (T : IntTy) (Precision : Int) (rhs : FixedPoint Y Z) : Fp :=
  Fp.mul binary64 (binary64.ofInt rhs.getRaw)
    (stdPow (binary64.ofInt (T.wrap 10)) (Precision - Z))

/-- The expression `rhs.getRaw() / std::pow(static_cast<T>(10), Z - Precision)` of the
branches `Precision < Z`, a `double`. -/
def scaledDown (T : IntTy) (Precision : Int) (rhs : FixedPoint Y Z) : Fp :=
  Fp.div binary64 (binary64.ofInt rhs.getRaw)
    (stdPow (binary64.ofInt (T.wrap 10)) (Z - Precision))

/-- Assignment `operator=(FixedPoint<Y, Z> rhs)`. -/
def assignFixed (_x : FixedPoint T Precision) (rhs : FixedPoint Y Z) :
    FixedPoint T Precision :=
  if Precision > Z then
    ⟨T.ofFp (scaledUp T Precision rhs)⟩
  else if Precision < Z then
    ⟨T.ofFp (scaledDown T Precision rhs)⟩
  else
    ⟨T.wrap rhs.getRaw⟩

/-- Comparison `operator==(const FixedPoint<Y, Z> &rhs)`. -/
def eqFixed (x : FixedPoint T Precision) (rhs : FixedPoint Y Z) : Bool :=
  if Precision > Z then
    cmp (fun a b => decide (a = b)) T T x.value (T.ofFp (scaledUp T Precision rhs))
  else if Precision < Z then
    cmp (fun a b => decide (a = b)) T T x.value (T.ofFp (scaledDown T Precision rhs))
  else
    cmp (fun a b => decide (a = b)) T T x.value (T.wrap rhs.getRaw)

/-- Comparison `operator!=(const FixedPoint<Y, Z> &rhs)`; its last branch compares with
`rhs.getRaw()` without a cast to `T`. -/
def neFixed (x : FixedPoint T Precision) (rhs : FixedPoint Y Z) : Bool :=
  if Precision > Z then
    cmp (fun a b => decide (a ≠ b)) T T x.value (T.ofFp (scaledUp T Precision rhs))
  else if Precision < Z then
    cmp (fun a b => decide (a ≠ b)) T T x.value (T.ofFp (scaledDown T Precision rhs))
  else
    cmp (fun a b => decide (a ≠ b)) T Y x.value rhs.getRaw

/-- Comparison `operator<(const FixedPoint<Y, Z> &rhs)`. -/
def ltFixed (x : FixedPoint T Precision) (rhs : FixedPoint Y Z) : Bool :=
  if Precision > Z then
    cmp (fun a b => decide (a < b)) T T x.value (T.ofFp (scaledUp T Precision rhs))
  else if Precision < Z then
    cmp (fun a b => decide (a < b)) T T x.value (T.ofFp (scaledDown T Precision rhs))
  else
    cmp (fun a b => decide (a < b)) T T x.value (T.wrap rhs.getRaw)

/-- Comparison `operator>(const FixedPoint<Y, Z> &rhs)`. -/
def gtFixed (x : FixedPoint T Precision) (rhs : FixedPoint Y Z) : Bool :=
  if Precision > Z then
    cmp (fun a b => decide (a > b)) T T x.value (T.ofFp (scaledUp T Precision rhs))
  else if Precision < Z then
    cmp (fun a b => decide (a > b)) T T x.value (T.ofFp (scaledDown T Precision rhs))
  else
    cmp (fun a b => decide (a > b)) T T x.value (T.wrap rhs.getRaw)

/-- Comparison `operator<=(const FixedPoint<Y, Z> &rhs)`. -/
def leFixed (x : FixedPoint T Precision) (rhs : FixedPoint Y Z) : Bool :=
  if Precision > Z then
    cmp (fun a b => decide (a ≤ b)) T T x.value (T.ofFp (scaledUp T Precision rhs))
  else if Precision < Z then
    cmp (fun a b => decide (a ≤ b)) T T x.value (T.ofFp (scaledDown T Precision rhs))
  else
    cmp (fun a b => decide (a ≤ b)) T T x.value (T.wrap rhs.getRaw)

/-- Comparison `operator>=(const FixedPoint<Y, Z> &rhs)`. -/
def geFixed (x : FixedPoint T Precision) (rhs : FixedPoint Y Z) : Bool :=
  if Precision > Z then
    cmp (fun a b => decide (a ≥ b)) T T x.value (T.ofFp (scaledUp T Precision rhs))
  else if Precision < Z then
    cmp (fun a b => decide (a ≥ b)) T T x.value (T.ofFp (scaledDown T Precision rhs))
  else
    cmp (fun a b => decide (a ≥ b)) T T x.value (T.wrap rhs.getRaw)

/-- Compound `operator+=(const FixedPoint<Y, Z> &rhs)`. -/
def addAssignFixed (x : FixedPoint T Precision) (rhs : FixedPoint Y Z) :
    FixedPoint T Precision :=
  if Precision > Z then
    ⟨T.ofFp (Fp.add binary64 (binary64.ofInt x.value) (scaledUp T Precision rhs))⟩
  else if Precision < Z then
    ⟨T.ofFp (Fp.add binary64 (binary64.ofInt x.value) (scaledDown T Precision rhs))⟩
  else
    ⟨T.wrap (arith (· + ·) T Y x.value rhs.getRaw)⟩

/-- Compound `operator-=(const FixedPoint<Y, Z> &rhs)`. -/
def subAssignFixed (x : FixedPoint T Precision) (rhs : FixedPoint Y Z) :
    FixedPoint T Precision :=
  if Precision > Z then
    ⟨T.ofFp (Fp.sub binary64 (binary64.ofInt x.value) (scaledUp T Precision rhs))⟩
  else if Precision < Z then
    ⟨T.ofFp (Fp.sub binary64 (binary64.ofInt x.value) (scaledDown T Precision rhs))⟩
  else
    ⟨T.wrap (arith (· - ·) T Y x.value rhs.getRaw)⟩

/-- Compound `operator*=(const FixedPoint<Y, Z> &rhs)`. -/
def mulAssignFixed (x : FixedPoint T Precision) (rhs : FixedPoint Y Z) :
    FixedPoint T Precision :=
  if Precision > Z then
    ⟨T.ofFp (Fp.mul binary64 (binary64.ofInt x.value) (scaledUp T Precision rhs))⟩
  else if Precision < Z then
    ⟨T.ofFp (Fp.mul binary64 (binary64.ofInt x.value) (scaledDown T Precision rhs))⟩
  else
    ⟨T.wrap (arith (· * ·) T Y x.value rhs.getRaw)⟩

/-- Compound `operator/=(const FixedPoint<Y, Z> &rhs)`. -/
def divAssignFixed (x : FixedPoint T Precision) (rhs : FixedPoint Y Z) :
    FixedPoint T Precision :=
  if Precision > Z then
    ⟨T.ofFp (Fp.div binary64 (binary64.ofInt x.value) (scaledUp T Precision rhs))⟩
  else if Precision < Z then
    ⟨T.ofFp (Fp.div binary64 (binary64.ofInt x.value) (scaledDown T Precision rhs))⟩
  else
    ⟨T.wrap (arith Int.tdiv T Y x.value rhs.getRaw)⟩

/-- Binary `operator+(const FixedPoint<Y, Z> &rhs)`: `FixedPoint(*this) += rhs`. -/
def addFixed (x : FixedPoint T Precision) (rhs : FixedPoint Y Z) : FixedPoint T Precision :=
  addAssignFixed x rhs

/-- Binary `operator-(const FixedPoint<Y, Z> &rhs)`: `FixedPoint(*this) -= rhs`. -/
def subFixed (x : FixedPoint T Precision) (rhs : FixedPoint Y Z) : FixedPoint T Precision :=
  subAssignFixed x rhs

/-- Binary `operator*(const FixedPoint<Y, Z> &rhs)`: `FixedPoint(*this) *= rhs`. -/
def mulFixed (x : FixedPoint T Precision) (rhs : FixedPoint Y Z) : FixedPoint T Precision :=
  mulAssignFixed x rhs

/-- Binary `operator/(const FixedPoint<Y, Z> &rhs)`: `FixedPoint(*this) /= rhs`. -/
def divFixed (x : FixedPoint T Precision) (rhs : FixedPoint Y Z) : FixedPoint T Precision :=
  divAssignFixed x rhs

/-! ### Comparison with a plain scalar, and a floating scalar on the right -/

/-- Comparison `operator==(const Y &rhs)` for an integer type `Y`:
`value == rhs * getPrecisionMultiplier()`; the product has the common type of `Y` and
`T`. -/
def eqScalar (x : FixedPoint T Precision) (Y : IntTy) (rhs : Int) : Bool :=
  cmp (fun a b => decide (a = b)) T (commonTy Y T) x.value
    (arith (· * ·) Y T rhs (getPrecisionMultiplier T Precision))

/-- Comparison `operator!=(const Y &rhs)` for an integer type `Y`:
`value != rhs * getPrecisionMultiplier()`. -/
def neScalar (x : FixedPoint T Precision) (Y : IntTy) (rhs : Int) : Bool :=
  cmp (fun a b => decide (a ≠ b)) T (commonTy Y T) x.value
    (arith (· * ·) Y T rhs (getPrecisionMultiplier T Precision))

/-- Comparison `operator==(const Y &rhs)` for `Y = double`: the product
`rhs * getPrecisionMultiplier()` is a `double` and `value` is converted to `double` for
the comparison. -/
def eqScalarDouble (x : FixedPoint T Precision) (rhs : Fp) : Bool :=
  Fp.eq (binary64.ofInt x.value)
    (Fp.mul binary64 rhs (binary64.ofInt (getPrecisionMultiplier T Precision)))

/-- Comparison `operator!=(const Y &rhs)` for `Y = double`. -/
def neScalarDouble (x : FixedPoint T Precision) (rhs : Fp) : Bool :=
  Fp.ne (binary64.ofInt x.value)
    (Fp.mul binary64 rhs (binary64.ofInt (getPrecisionMultiplier T Precision)))

/-- Compound `operator+=(const Y rhs)` for `Y = double`:
`T test = rhs * getPrecisionMultiplier()` converts the scaled scalar to `T`, then
`value += test`. -/
def addAssignScalarDouble (x : FixedPoint T Precision) (rhs : Fp) : FixedPoint T Precision :=
  ⟨T.wrap (arith (· + ·) T T x.value
    (T.ofFp (Fp.mul binary64 rhs (binary64.ofInt (getPrecisionMultiplier T Precision)))))⟩

/-- Compound `operator-=(const Y rhs)` for `Y = double`:
`value -= rhs * getPrecisionMultiplier()`; the difference is a `double` and is converted
to `T`. -/
def subAssignScalarDouble (x : FixedPoint T Precision) (rhs : Fp) : FixedPoint T Precision :=
  ⟨T.ofFp (Fp.sub binary64 (binary64.ofInt x.value)
    (Fp.mul binary64 rhs (binary64.ofInt (getPrecisionMultiplier T Precision))))⟩

/-- Binary `operator+(const Y rhs)` for `Y = double`: `FixedPoint(*this) += rhs`. -/
def addScalarDouble (x : FixedPoint T Precision) (rhs : Fp) : FixedPoint T Precision :=
  addAssignScalarDouble x rhs

/-- Binary `operator-(const Y rhs)` for `Y = double`: `FixedPoint(*this) -= rhs`. -/
def subScalarDouble (x : FixedPoint T Precision) (rhs : Fp) : FixedPoint T Precision :=
  subAssignScalarDouble x rhs

/-- Member `max`: `static_cast<double>(std::numeric_limits<T>::max() /
getPrecisionMultiplier())`; the quotient is taken between two values of type `T`, before
the conversion to `double`. -/
def max (T : IntTy) (Precision : Int) : Fp :=
  binary64.ofInt (arith Int.tdiv T T T.maxVal (getPrecisionMultiplier T Precision))

end FixedPoint

/-! # stec::EnumeratedScalarSet (src/code/scalar-sets/scalar_set.hpp)

A scalar type is an integer type or the floating type `float`, whose values are the
floating-point values `Fp` with the arithmetic of `binary32` (rounding to nearest,
infinities, NaN).  The enumeration `EnumClass` is modelled by its underlying values
`Fin NumValues`, so an index is always in range.  The `for` loops of the source are kept
as loops (`forLoop`).  A slot is described by the C++ expression that is stored in it
(`ScalarTy.compound`: `x OP y` in the common type, converted to the type of the slot);
where C++ leaves that expression undefined, the definitions are total as in the first
part. -/

/-! ## Scalar types -/

/-- A scalar type: an exact integer type or the floating type `float`. -/
inductive ScalarTy where
  | int (T : IntTy)
  | float

namespace ScalarTy

/-- The values of a scalar type. -/
@[reducible] def Val : ScalarTy → Type
  | int _ => Int
  | float => Fp

/-- The literal `0` of the type. -/
def zero : (T : ScalarTy) → T.Val
  | int _ => (0 : Int)
  | float => Fp.fin 0

/-- The usual arithmetic conversions: the type of `x OP y` for `x` of type `A` and `y` of
type `B`.  A floating operand makes the operation a floating one. -/
def common : ScalarTy → ScalarTy → ScalarTy
  | int A, int B => int (commonTy A B)
  | _, _ => float

/-- Implicit conversion of a value of type `A` to the type `B`. -/
def convert : (A B : ScalarTy) → A.Val → B.Val
  | int _, int B, a => B.wrap a
  | int _, float, a => binary32.ofInt a
  | float, int B, q => B.ofFp q
  | float, float, q => q

end ScalarTy

/-- The four arithmetic operators `+ - * /`. -/
inductive BinOp where
  | add
  | sub
  | mul
  | div
deriving DecidableEq

namespace BinOp

/-- The operator on two integers of one type; the division truncates. -/
def onInt : BinOp → Int → Int → Int
  | add, a, b => a + b
  | sub, a, b => a - b
  | mul, a, b => a * b
  | div, a, b => Int.tdiv a b

/-- The operator on two values of type `float`. -/
def onFloat : BinOp → Fp → Fp → Fp
  | add, a, b => Fp.add binary32 a b
  | sub, a, b => Fp.sub binary32 a b
  | mul, a, b => Fp.mul binary32 a b
  | div, a, b => Fp.div binary32 a b

end BinOp

namespace ScalarTy

/-- The expression `x OP y` for `x` of type `A` and `y` of type `B`, evaluated in the
common type: an integer operand of a floating operation is converted to `float` first. -/
def binop (op : BinOp) : (A B : ScalarTy) → A.Val → B.Val → (common A B).Val
  | int A, int B, x, y => arith op.onInt A B x y
  | int _, float, x, y => op.onFloat (binary32.ofInt x) y
  | float, int _, x, y => op.onFloat x (binary32.ofInt y)
  | float, float, x, y => op.onFloat x y

/-- The compound assignment `x OP= y` for `x` of type `T`: `x OP y` converted to `T`. -/
def compound (op : BinOp) (T Y : ScalarTy) (x : T.Val) (y : Y.Val) : T.Val :=
  convert (common T Y) T (binop op T Y x y)

/-- The expression `x != y` for `x` of type `A` and `y` of type `B`, compared in the
common type. -/
def ne : (A B : ScalarTy) → A.Val → B.Val → Bool
  | int A, int B, x, y => cmp (fun u v => decide (u ≠ v)) A B x y
  | int _, float, x, y => Fp.ne (binary32.ofInt x) y
  | float, int _, x, y => Fp.ne x (binary32.ofInt y)
  | float, float, x, y => Fp.ne x y

/-- The expression `x == y` for two values of the same type. -/
def eqv : (T : ScalarTy) → T.Val → T.Val → Bool
  | int _, x, y => decide (x = y)
  | float, x, y => Fp.eq x y

/-- The expression `x < y` for two values of the same type. -/
def lt : (T : ScalarTy) → T.Val → T.Val → Bool
  | int _, x, y => decide (x < y)
  | float, x, y => Fp.lt x y

/-- The expression `x <= y` for two values of the same type. -/
def le : (T : ScalarTy) → T.Val → T.Val → Bool
  | int _, x, y => decide (x ≤ y)
  | float, x, y => Fp.le x y

/-- The value is a NaN; an integer never is. -/
def isNaN : (T : ScalarTy) → T.Val → Bool
  | int _, _ => false
  | float, x => Fp.isNaN x

/-- The function `std::max(a, b)`: `(a < b) ? b : a`. -/
def stdMax (T : ScalarTy) (a b : T.Val) : T.Val := if T.lt a b then b else a

/-- The function `std::min(a, b)`: `(b < a) ? b : a`. -/
def stdMin (T : ScalarTy) (a b : T.Val) : T.Val := if T.lt b a then b else a

end ScalarTy

/-! ## Loops -/

/-- The first `k` iterations of `for (int i = 0; i < n; i++) body(i)`, run on the state
`s`; the whole loop is `forLoop body n (le_refl n)`. -/
def forLoop {σ : Type} {n : Nat} (body : Fin n → σ → σ) : (k : Nat) → k ≤ n → σ → σ
  | 0, _, s => s
  | k + 1, h, s => body ⟨k, h⟩ (forLoop body k (Nat.le_of_succ_le h) s)

/-! ## EnumeratedScalarSet -/

/-- The class `EnumeratedScalarSet<T, EnumClass, NumValues>`: its only member is the
array `stats`. -/
structure EnumeratedScalarSet (T : ScalarTy) (NumValues : Nat) where
  stats : Fin NumValues → T.Val

namespace EnumeratedScalarSet

variable {T Y : ScalarTy} {NumValues : Nat}

/-- Constructor `EnumeratedScalarSet(T initial)`: `stats{}` followed by
`std::fill_n(stats.data(), NumValues, initial)`. -/
def ofInitial (T : ScalarTy) (NumValues : Nat) (initial : T.Val) :
    EnumeratedScalarSet T NumValues :=
  ⟨forLoop (fun i (s : Fin NumValues → T.Val) => Function.update s i initial)
    NumValues (le_refl _) (fun _ => T.zero)⟩

/-- Default constructor: the parameter `initial` defaults to `0`. -/
def ofDefault (T : ScalarTy) (NumValues : Nat) : EnumeratedScalarSet T NumValues :=
  ofInitial T NumValues T.zero

/-- Read access `operator[](const EnumClass rhs) const`. -/
def index (x : EnumeratedScalarSet T NumValues) (rhs : Fin NumValues) : T.Val :=
  x.stats rhs

/-- Write access through the reference returned by `operator[](const EnumClass rhs)`:
the statement `x[rhs] = v`. -/
def assignAt (x : EnumeratedScalarSet T NumValues) (rhs : Fin NumValues) (v : T.Val) :
    EnumeratedScalarSet T NumValues :=
  ⟨Function.update x.stats rhs v⟩

/-- Converting constructor `EnumeratedScalarSet(EnumeratedScalarSet<Y, ...> initial)`:
`stats{}` followed by `stats[i] = initial[static_cast<EnumClass>(i)]` for every `i`. -/
def ofSet (T : ScalarTy) (initial : EnumeratedScalarSet Y NumValues) :
    EnumeratedScalarSet T NumValues :=
  ⟨forLoop (fun i (s : Fin NumValues → T.Val) =>
      Function.update s i (ScalarTy.convert Y T (initial.index i)))
    NumValues (le_refl _) (fun _ => T.zero)⟩

/-- Comparison `operator==`: the loop returns `false` at the first slot with
`stats[i] != rhs[i]`, and `true` is returned after the loop.  The loop state is `none`
while nothing has been returned. -/
def eq (x : EnumeratedScalarSet T NumValues) (rhs : EnumeratedScalarSet Y NumValues) :
    Bool :=
  match forLoop (fun i (r : Option Bool) =>
      match r with
      | some b => some b
      | none => if ScalarTy.ne T Y (x.stats i) (rhs.index i) then some false else none)
    NumValues (le_refl _) none with
  | some b => b
  | none => true

/-- Comparison `operator!=`: `!(*this == rhs)`. -/
def ne (x : EnumeratedScalarSet T NumValues) (rhs : EnumeratedScalarSet Y NumValues) :
    Bool :=
  !(eq x rhs)

/-- The loop shared by the compound operators with a set on the right:
`stats[i] OP= rhs[static_cast<EnumClass>(i)]` for every `i`. -/
def compoundSet (op : BinOp) (x : EnumeratedScalarSet T NumValues)
    (rhs : EnumeratedScalarSet Y NumValues) : EnumeratedScalarSet T NumValues :=
  ⟨forLoop (fun i (s : Fin NumValues → T.Val) =>
      Function.update s i (ScalarTy.compound op T Y (s i) (rhs.index i)))
    NumValues (le_refl _) x.stats⟩

/-- Compound `operator+=(const EnumeratedScalarSet<Y, ...> &rhs)`. -/
def addAssign (x : EnumeratedScalarSet T NumValues) (rhs : EnumeratedScalarSet Y NumValues) :
    EnumeratedScalarSet T NumValues :=
  compoundSet BinOp.add x rhs

/-- Compound `operator-=(const EnumeratedScalarSet<Y, ...> &rhs)`. -/
def subAssign (x : EnumeratedScalarSet T NumValues) (rhs : EnumeratedScalarSet Y NumValues) :
    EnumeratedScalarSet T NumValues :=
  compoundSet BinOp.sub x rhs

/-- Compound `operator*=(const EnumeratedScalarSet<Y, ...> &rhs)`. -/
def mulAssign (x : EnumeratedScalarSet T NumValues) (rhs : EnumeratedScalarSet Y NumValues) :
    EnumeratedScalarSet T NumValues :=
  compoundSet BinOp.mul x rhs

/-- Compound `operator/=(const EnumeratedScalarSet<Y, ...> &rhs)`. -/
def divAssign (x : EnumeratedScalarSet T NumValues) (rhs : EnumeratedScalarSet Y NumValues) :
    EnumeratedScalarSet T NumValues :=
  compoundSet BinOp.div x rhs

/-- Binary `operator+(const EnumeratedScalarSet<Y, ...> &rhs)`: a copy of `*this`, then
`+= rhs`. -/
def add (x : EnumeratedScalarSet T NumValues) (rhs : EnumeratedScalarSet Y NumValues) :
    EnumeratedScalarSet T NumValues :=
  addAssign x rhs

/-- Binary `operator-(const EnumeratedScalarSet<Y, ...> &rhs)`: a copy of `*this`, then
`-= rhs`. -/
def sub (x : EnumeratedScalarSet T NumValues) (rhs : EnumeratedScalarSet Y NumValues) :
    EnumeratedScalarSet T NumValues :=
  subAssign x rhs

/-- Binary `operator*(const EnumeratedScalarSet<Y, ...> &rhs)`: a copy of `*this`, then
`*= rhs`. -/
def mul (x : EnumeratedScalarSet T NumValues) (rhs : EnumeratedScalarSet Y NumValues) :
    EnumeratedScalarSet T NumValues :=
  mulAssign x rhs

/-- Binary `operator/(const EnumeratedScalarSet<Y, ...> &rhs)`: a copy of `*this`, then
`/= rhs`. -/
def div (x : EnumeratedScalarSet T NumValues) (rhs : EnumeratedScalarSet Y NumValues) :
    EnumeratedScalarSet T NumValues :=
  divAssign x rhs

/-- The loop shared by the compound operators with a scalar on the right:
`stats[i] OP= rhs` for every `i`. -/
def compoundScalar (op : BinOp) (x : EnumeratedScalarSet T NumValues) (Y : ScalarTy)
    (rhs : Y.Val) : EnumeratedScalarSet T NumValues :=
  ⟨forLoop (fun i (s : Fin NumValues → T.Val) =>
      Function.update s i (ScalarTy.compound op T Y (s i) rhs))
    NumValues (le_refl _) x.stats⟩

/-- Compound `operator+=(const Y rhs)`. -/
def addAssignScalar (x : EnumeratedScalarSet T NumValues) (Y : ScalarTy) (rhs : Y.Val) :
    EnumeratedScalarSet T NumValues :=
  compoundScalar BinOp.add x Y rhs

/-- Compound `operator-=(const Y rhs)`. -/
def subAssignScalar (x : EnumeratedScalarSet T NumValues) (Y : ScalarTy) (rhs : Y.Val) :
    EnumeratedScalarSet T NumValues :=
  compoundScalar BinOp.sub x Y rhs

/-- Compound `operator*=(const Y rhs)`. -/
def mulAssignScalar (x : EnumeratedScalarSet T NumValues) (Y : ScalarTy) (rhs : Y.Val) :
    EnumeratedScalarSet T NumValues :=
  compoundScalar BinOp.mul x Y rhs

/-- Compound `operator/=(const Y rhs)`. -/
def divAssignScalar (x : EnumeratedScalarSet T NumValues) (Y : ScalarTy) (rhs : Y.Val) :
    EnumeratedScalarSet T NumValues :=
  compoundScalar BinOp.div x Y rhs

/-- Binary `operator+(const Y rhs)`: a copy of `*this`, then `+= rhs`. -/
def addScalar (x : EnumeratedScalarSet T NumValues) (Y : ScalarTy) (rhs : Y.Val) :
    EnumeratedScalarSet T NumValues :=
  addAssignScalar x Y rhs

/-- Binary `operator-(const Y rhs)`: a copy of `*this`, then `-= rhs`. -/
def subScalar (x : EnumeratedScalarSet T NumValues) (Y : ScalarTy) (rhs : Y.Val) :
    EnumeratedScalarSet T NumValues :=
  subAssignScalar x Y rhs

/-- Binary `operator*(const Y rhs)`: a copy of `*this`, then `*= rhs`. -/
def mulScalar (x : EnumeratedScalarSet T NumValues) (Y : ScalarTy) (rhs : Y.Val) :
    EnumeratedScalarSet T NumValues :=
  mulAssignScalar x Y rhs

/-- Binary `operator/(const Y rhs)`: a copy of `*this`, then `/= rhs`. -/
def divScalar (x : EnumeratedScalarSet T NumValues) (Y : ScalarTy) (rhs : Y.Val) :
    EnumeratedScalarSet T NumValues :=
  divAssignScalar x Y rhs

/-- Member `clampMin(T min)`: `stats[i] = std::max(stats[i], min)` for every `i`. -/
def clampMin (x : EnumeratedScalarSet T NumValues) (min : T.Val) :
    EnumeratedScalarSet T NumValues :=
  ⟨forLoop (fun i (s : Fin NumValues → T.Val) =>
      Function.update s i (T.stdMax (s i) min))
    NumValues (le_refl _) x.stats⟩

/-- Member `clampMax(T max)`: `stats[i] = std::min(stats[i], max)` for every `i`. -/
def clampMax (x : EnumeratedScalarSet T NumValues) (max : T.Val) :
    EnumeratedScalarSet T NumValues :=
  ⟨forLoop (fun i (s : Fin NumValues → T.Val) =>
      Function.update s i (T.stdMin (s i) max))
    NumValues (le_refl _) x.stats⟩

end EnumeratedScalarSet

/-! ## The demonstration program (src/code/scalar-sets/main.cpp) -/

/-- The enumeration `Special`. -/
inductive Special where
  | Strength
  | Perception
  | Endurance
  | Charisma
  | Intelligence
  | Agility
  | Luck
deriving DecidableEq

/-- The constant `cNumSpecial`: the underlying value of `Special::Luck` plus one. -/
abbrev cNumSpecial : Nat := 6 + 1

/-- The cast of a `Special` to its underlying value, as done by `operator[]`. -/
def Special.toIndex : Special → Fin cNumSpecial
  | Strength => 0
  | Perception => 1
  | Endurance => 2
  | Charisma => 3
  | Intelligence => 4
  | Agility => 5
  | Luck => 6

/-- The alias `SpecialSet`: a set of `int8_t`. -/
abbrev SpecialSet : Type := EnumeratedScalarSet (ScalarTy.int int8_t) cNumSpecial

/-- The alias `SpecialSetf`: a set of `float`. -/
abbrev SpecialSetf : Type := EnumeratedScalarSet ScalarTy.float cNumSpecial

namespace Demo

open EnumeratedScalarSet

/-- The set `base` of `main`: `base(5)`, then Intelligence 8 and Charisma 2. -/
def base : SpecialSet :=
  ((ofInitial (ScalarTy.int int8_t) cNumSpecial (5 : Int)).assignAt
    Special.Intelligence.toIndex (8 : Int)).assignAt Special.Charisma.toIndex (2 : Int)

/-- The set `perks` of `main`: default constructed, then Perception -2 and Strength 1. -/
def perks : SpecialSet :=
  ((ofDefault (ScalarTy.int int8_t) cNumSpecial).assignAt
    Special.Perception.toIndex (-2 : Int)).assignAt Special.Strength.toIndex (1 : Int)

/-- The set `modifiers` of `main`: default constructed, then Luck 4. -/
def modifiers : SpecialSet :=
  (ofDefault (ScalarTy.int int8_t) cNumSpecial).assignAt Special.Luck.toIndex (4 : Int)

/-- The set `multiplier` of `main`: `multiplier(1.f)`, then Charisma 2.5. -/
def multiplier : SpecialSetf :=
  (ofInitial ScalarTy.float cNumSpecial (Fp.fin 1)).assignAt Special.Charisma.toIndex
    (Fp.fin (5 / 2))

/-- The set `result` of `main`: `(base + perks + modifiers) * multiplier`. -/
def result : SpecialSet :=
  mul (add (add base perks) modifiers) multiplier

end Demo

/-! ## Lemmas on integer types and conversions -/

namespace IntTy

theorem half_pos (T : IntTy) : 0 < T.half := by
  unfold half; positivity

theorem modulus_eq (T : IntTy) : T.modulus = 2 * T.half := by
  have h := T.hbits
  unfold modulus half
  have : T.bits = (T.bits - 1) + 1 := by omega
  conv_lhs => rw [this, pow_succ]
  push_cast; ring

theorem modulus_pos (T : IntTy) : 0 < T.modulus := by
  rw [modulus_eq]; have := T.half_pos; omega

theorem half_ge (T : IntTy) : 128 ≤ T.half := by
  have h := T.hbits
  unfold half
  have : (2:ℕ) ^ 7 ≤ 2 ^ (T.bits - 1) := Nat.pow_le_pow_right (by decide) (by omega)
  have h2 : (2:ℕ)^7 = 128 := by norm_num
  omega

theorem half_le_half {A B : IntTy} (h : A.bits ≤ B.bits) : A.half ≤ B.half := by
  unfold half
  have : (2:ℕ) ^ (A.bits - 1) ≤ 2 ^ (B.bits - 1) := Nat.pow_le_pow_right (by decide) (by omega)
  exact_mod_cast this

theorem modulus_le_half {A B : IntTy} (h : A.bits < B.bits) : A.modulus ≤ B.half := by
  unfold half modulus
  have : (2:ℕ) ^ A.bits ≤ 2 ^ (B.bits - 1) := Nat.pow_le_pow_right (by decide) (by omega)
  exact_mod_cast this

theorem modulus_dvd {A B : IntTy} (h : A.bits ≤ B.bits) : A.modulus ∣ B.modulus := by
  unfold modulus
  have : (2:ℕ) ^ A.bits ∣ 2 ^ B.bits := pow_dvd_pow 2 h
  exact_mod_cast this

theorem wrap_of_inRange {T : IntTy} {x : Int} (h : T.inRange x) : T.wrap x = x := by
  have hm := T.modulus_eq
  have hp := T.half_pos
  unfold inRange minVal maxVal at h
  unfold wrap
  by_cases hs : T.signed = true
  · simp only [hs, if_true] at h ⊢
    rw [Int.emod_eq_of_lt (by omega) (by omega)]; omega
  · simp only [hs] at h ⊢
    simp only [Bool.false_eq_true, if_false] at h ⊢
    exact Int.emod_eq_of_lt (by omega) (by omega)

theorem wrap_inRange (T : IntTy) (x : Int) : T.inRange (T.wrap x) := by
  have hm := T.modulus_eq
  have hp := T.half_pos
  have hmp := T.modulus_pos
  unfold inRange minVal maxVal wrap
  by_cases hs : T.signed = true
  · simp only [hs, if_true]
    have h1 := Int.emod_nonneg (x + T.half) (ne_of_gt hmp)
    have h2 := Int.emod_lt_of_pos (x + T.half) hmp
    omega
  · simp only [hs]
    simp only [Bool.false_eq_true, if_false]
    have h1 := Int.emod_nonneg x (ne_of_gt hmp)
    have h2 := Int.emod_lt_of_pos x hmp
    omega

theorem modulus_dvd_wrap_sub (T : IntTy) (x : Int) : T.modulus ∣ T.wrap x - x := by
  unfold wrap
  by_cases hs : T.signed = true
  · simp only [hs, if_true]
    have : (x + T.half) % T.modulus - T.half - x = -(T.modulus * ((x + T.half) / T.modulus)) := by
      have := Int.emod_add_ediv (x + T.half) T.modulus
      omega
    rw [this]; exact (dvd_mul_right _ _).neg_right
  · simp only [hs]
    simp only [Bool.false_eq_true, if_false]
    have : x % T.modulus - x = -(T.modulus * (x / T.modulus)) := by
      have := Int.emod_add_ediv x T.modulus
      omega
    rw [this]; exact (dvd_mul_right _ _).neg_right

theorem wrap_congr {T : IntTy} {a b : Int} (h : T.modulus ∣ a - b) : T.wrap a = T.wrap b := by
  have e1 : (a + T.half) % T.modulus = (b + T.half) % T.modulus := by
    rw [Int.emod_eq_emod_iff_emod_sub_eq_zero]
    have : a + T.half - (b + T.half) = a - b := by ring
    rw [this]; exact Int.emod_eq_zero_of_dvd h
  have e2 : a % T.modulus = b % T.modulus := by
    rw [Int.emod_eq_emod_iff_emod_sub_eq_zero]
    exact Int.emod_eq_zero_of_dvd h
  unfold wrap
  rw [e1, e2]

theorem wrap_wrap_of_le {T C : IntTy} (h : T.bits ≤ C.bits) (x : Int) :
    T.wrap (C.wrap x) = T.wrap x :=
  wrap_congr (dvd_trans (modulus_dvd h) (C.modulus_dvd_wrap_sub x))

theorem wrap_add_of_le {T C : IntTy} (h : T.bits ≤ C.bits) (a b : Int) :
    T.wrap (C.wrap (C.wrap a + C.wrap b)) = T.wrap (a + b) := by
  rw [wrap_wrap_of_le h]
  apply wrap_congr
  have ha := dvd_trans (modulus_dvd h) (C.modulus_dvd_wrap_sub a)
  have hb := dvd_trans (modulus_dvd h) (C.modulus_dvd_wrap_sub b)
  have : C.wrap a + C.wrap b - (a + b) = (C.wrap a - a) + (C.wrap b - b) := by ring
  rw [this]; exact dvd_add ha hb

theorem wrap_sub_of_le {T C : IntTy} (h : T.bits ≤ C.bits) (a b : Int) :
    T.wrap (C.wrap (C.wrap a - C.wrap b)) = T.wrap (a - b) := by
  rw [wrap_wrap_of_le h]
  apply wrap_congr
  have ha := dvd_trans (modulus_dvd h) (C.modulus_dvd_wrap_sub a)
  have hb := dvd_trans (modulus_dvd h) (C.modulus_dvd_wrap_sub b)
  have : C.wrap a - C.wrap b - (a - b) = (C.wrap a - a) - (C.wrap b - b) := by ring
  rw [this]; exact dvd_sub ha hb

theorem wrap_mul_of_le {T C : IntTy} (h : T.bits ≤ C.bits) (a b : Int) :
    T.wrap (C.wrap (C.wrap a * C.wrap b)) = T.wrap (a * b) := by
  rw [wrap_wrap_of_le h]
  apply wrap_congr
  have ha := dvd_trans (modulus_dvd h) (C.modulus_dvd_wrap_sub a)
  have hb := dvd_trans (modulus_dvd h) (C.modulus_dvd_wrap_sub b)
  have : C.wrap a * C.wrap b - a * b = (C.wrap a - a) * C.wrap b + a * (C.wrap b - b) := by ring
  rw [this]; exact dvd_add (Dvd.dvd.mul_right ha _) (Dvd.dvd.mul_left hb _)

theorem inRange_ten (T : IntTy) : T.inRange 10 := by
  have hm := T.modulus_eq
  have hp := T.half_ge
  unfold inRange minVal maxVal
  by_cases hs : T.signed = true
  · simp only [hs, if_true]; omega
  · simp only [hs]
    simp only [Bool.false_eq_true, if_false]; omega

theorem wrap_ten (T : IntTy) : T.wrap 10 = 10 := wrap_of_inRange T.inRange_ten

theorem minVal_nonpos (T : IntTy) : T.minVal ≤ 0 := by
  have hp := T.half_pos
  unfold minVal; split <;> omega

theorem maxVal_nonneg (T : IntTy) : 0 ≤ T.maxVal := by
  have hm := T.modulus_eq
  have hp := T.half_pos
  unfold maxVal; split <;> omega

theorem promote_bits_le (T : IntTy) : T.bits ≤ T.promote.bits := by
  unfold promote; split
  · simp only; omega
  · exact le_refl _

theorem inRange_promote {T : IntTy} {x : Int} (h : T.inRange x) : T.promote.inRange x := by
  unfold promote
  split
  · rename_i hlt
    have hm := T.modulus_eq
    have hp := T.half_pos
    have h1 : T.modulus ≤ ((2 ^ 31 : Nat) : Int) := by
      unfold modulus
      have : (2:ℕ) ^ T.bits ≤ 2 ^ 31 := Nat.pow_le_pow_right (by decide) (by omega)
      exact_mod_cast this
    unfold inRange minVal maxVal at h
    unfold inRange minVal maxVal half modulus
    simp only [if_true]
    norm_num
    norm_num at h1
    split at h <;> omega
  · exact h

end IntTy

theorem commonTy_self (T : IntTy) : commonTy T T = T.promote := by
  unfold commonTy; simp

theorem le_bits_commonTy_left (A B : IntTy) : A.bits ≤ (commonTy A B).bits := by
  have ha := A.promote_bits_le
  have hb := B.promote_bits_le
  unfold commonTy
  simp only
  split_ifs <;> omega

theorem le_bits_commonTy_right (A B : IntTy) : B.bits ≤ (commonTy A B).bits := by
  have ha := A.promote_bits_le
  have hb := B.promote_bits_le
  unfold commonTy
  simp only
  split_ifs <;> omega

theorem inRange_commonTy_of_both {A B : IntTy} {x : Int} (ha : A.inRange x)
    (hb : B.inRange x) : (commonTy A B).inRange x := by
  have ha1 := IntTy.inRange_promote ha
  have hb1 := IntTy.inRange_promote hb
  unfold commonTy
  simp only
  split_ifs <;> assumption

theorem inRange_of_nonneg_of_le {A : IntTy} {x : Int} (h0 : 0 ≤ x) (h : x ≤ A.maxVal) :
    A.inRange x :=
  ⟨le_trans A.minVal_nonpos h0, h⟩

theorem maxVal_le_aux {a b : IntTy} :
    b.maxVal ≤ (if a.signed = b.signed then (if b.bits ≤ a.bits then a else b)
      else if a.signed then (if a.bits ≤ b.bits then b else a)
      else (if b.bits ≤ a.bits then a else b)).maxVal := by
  have hma := a.modulus_eq
  have hmb := b.modulus_eq
  have hpa := a.half_pos
  have hpb := b.half_pos
  split_ifs with h1 h2 h3 h4 h5
  · have := IntTy.half_le_half h2
    unfold IntTy.maxVal
    rw [h1]
    split <;> omega
  · exact le_refl _
  · exact le_refl _
  · have hlt : b.bits < a.bits := by omega
    have := IntTy.modulus_le_half hlt
    have hb : b.signed = false := by
      cases hbs : b.signed
      · rfl
      · rw [h3, hbs] at h1; exact absurd rfl h1
    unfold IntTy.maxVal
    rw [h3, hb]
    simp only [if_true, Bool.false_eq_true, if_false]
    omega
  · have := IntTy.half_le_half h5
    have ha : a.signed = false := by
      cases has : a.signed
      · rfl
      · exact absurd has h3
    unfold IntTy.maxVal
    rw [ha]
    simp only [Bool.false_eq_true, if_false]
    split <;> omega
  · exact le_refl _

theorem inRange_commonTy_right_of_nonneg {A B : IntTy} {x : Int} (hb : B.inRange x)
    (h0 : 0 ≤ x) : (commonTy A B).inRange x := by
  have hb1 := IntTy.inRange_promote hb
  apply inRange_of_nonneg_of_le h0
  unfold commonTy
  simp only
  exact le_trans hb1.2 maxVal_le_aux

/-! ### Rounding toward zero -/

theorem truncQ_intCast (n : Int) : truncQ (n : ℚ) = n := by
  unfold truncQ; split <;> simp

theorem truncQ_neg (q : ℚ) : truncQ (-q) = -truncQ q := by
  unfold truncQ
  rcases lt_trichotomy q 0 with h | h | h
  · have h1 : (0:ℚ) ≤ -q := by linarith
    have h2 : ¬ (0:ℚ) ≤ q := by linarith
    rw [if_pos h1, if_neg h2, Int.floor_neg]
  · subst h; simp
  · have h1 : ¬ (0:ℚ) ≤ -q := by linarith
    have h2 : (0:ℚ) ≤ q := by linarith
    rw [if_neg h1, if_pos h2, Int.ceil_neg]

theorem truncQ_div_of_nonneg_of_pos {a b : Int} (ha : 0 ≤ a) (hb : 0 < b) :
    truncQ ((a : ℚ) / (b : ℚ)) = a.tdiv b := by
  have h0 : (0:ℚ) ≤ (a : ℚ) / (b : ℚ) := by
    apply div_nonneg <;> exact_mod_cast (by omega)
  unfold truncQ
  rw [if_pos h0, Int.tdiv_eq_ediv ha (le_of_lt hb)]
  have hbn : ((b.toNat : ℕ) : ℤ) = b := Int.toNat_of_nonneg (le_of_lt hb)
  have := Rat.floor_intCast_div_natCast a b.toNat
  rw [← hbn]
  convert this using 3

theorem truncQ_div (a b : Int) : truncQ ((a : ℚ) / (b : ℚ)) = a.tdiv b := by
  rcases lt_trichotomy b 0 with hb | hb | hb
  · rcases le_total 0 a with ha | ha
    · have h := truncQ_div_of_nonneg_of_pos ha (show 0 < -b by omega)
      have e : (a : ℚ) / (b : ℚ) = -((a : ℚ) / ((-b : Int) : ℚ)) := by
        push_cast; rw [div_neg, neg_neg]
      rw [e, truncQ_neg, h, Int.tdiv_neg, neg_neg]
    · have h := truncQ_div_of_nonneg_of_pos (show 0 ≤ -a by omega) (show 0 < -b by omega)
      have e : (a : ℚ) / (b : ℚ) = (((-a : Int) : ℚ) / ((-b : Int) : ℚ)) := by
        push_cast; rw [neg_div_neg_eq]
      rw [e, h, Int.neg_tdiv_neg]
  · subst hb; simp [truncQ]
  · rcases le_total 0 a with ha | ha
    · exact truncQ_div_of_nonneg_of_pos ha hb
    · have h := truncQ_div_of_nonneg_of_pos (show 0 ≤ -a by omega) hb
      have e : (a : ℚ) / (b : ℚ) = -(((-a : Int) : ℚ) / (b : ℚ)) := by
        push_cast; rw [neg_div, neg_neg]
      rw [e, truncQ_neg, h, Int.neg_tdiv, neg_neg]

theorem truncQ_abs_sub_lt (q : ℚ) : |((truncQ q : Int) : ℚ) - q| < 1 := by
  unfold truncQ
  split
  · have h1 := Int.floor_le q
    have h2 := Int.lt_floor_add_one q
    rw [abs_lt]; constructor <;> linarith
  · have h1 := Int.le_ceil q
    have h2 := Int.ceil_lt_add_one q
    rw [abs_lt]; constructor <;> linarith

theorem truncQ_inRange {T : IntTy} {q : ℚ} (h : T.inRangeQ q) : T.inRange (truncQ q) := by
  obtain ⟨h1, h2⟩ := h
  unfold truncQ
  split
  · rename_i h0
    constructor
    · exact le_trans T.minVal_nonpos (Int.floor_nonneg.mpr h0)
    · exact Int.floor_le_iff.mpr (by
        have : q < (T.maxVal : ℚ) + 1 := by linarith
        exact_mod_cast this) |> fun h => h
  · rename_i h0
    push_neg at h0
    constructor
    · exact Int.le_ceil_iff.mpr (by
        have : (T.minVal : ℚ) - 1 < q := by linarith
        exact_mod_cast this)
    · have : ⌈q⌉ ≤ 0 := Int.ceil_le.mpr (by exact_mod_cast le_of_lt h0)
      exact le_trans this T.maxVal_nonneg

/-! ## Lemmas on floating-point rounding -/

/-! ### Rounding to the nearest integer -/

theorem roundHalfEven_intCast (n : Int) : roundHalfEven (n : ℚ) = n := by
  unfold roundHalfEven; simp

theorem abs_roundHalfEven_sub_le (x : ℚ) : |((roundHalfEven x : Int) : ℚ) - x| ≤ 1 / 2 := by
  have h1 := Int.floor_le x
  have h2 := Int.lt_floor_add_one x
  unfold roundHalfEven
  split_ifs <;> push_cast <;> rw [abs_le] <;> constructor <;> linarith

theorem roundHalfEven_eq_of_abs_lt {x : ℚ} {n : Int} (h : |x - (n : ℚ)| < 1 / 2) :
    roundHalfEven x = n := by
  rw [abs_lt] at h
  obtain ⟨h1, h2⟩ := h
  rcases le_or_lt (n : ℚ) x with hx | hx
  · have hf : ⌊x⌋ = n := by
      rw [Int.floor_eq_iff]; constructor <;> linarith
    unfold roundHalfEven
    rw [hf, if_pos (by linarith)]
  · have hf : ⌊x⌋ = n - 1 := by
      rw [Int.floor_eq_iff]; push_cast; constructor <;> linarith
    unfold roundHalfEven
    rw [hf, if_neg (by push_cast; linarith), if_pos (by push_cast; linarith)]
    ring

theorem roundHalfEven_tie (n : Int) :
    roundHalfEven ((n : ℚ) + 1 / 2) = if n % 2 = 0 then n else n + 1 := by
  have hf : ⌊(n : ℚ) + 1 / 2⌋ = n := by
    rw [Int.floor_eq_iff]; constructor <;> linarith
  unfold roundHalfEven
  rw [hf, if_neg (by linarith), if_neg (by linarith)]

theorem roundHalfEven_nonneg {x : ℚ} (h : 0 ≤ x) : 0 ≤ roundHalfEven x := by
  have hf : 0 ≤ ⌊x⌋ := Int.floor_nonneg.mpr h
  unfold roundHalfEven
  split_ifs <;> omega

namespace FpFormat

theorem ulp_pos (F : FpFormat) (q : ℚ) : 0 < F.ulp q := by
  unfold ulp; positivity

theorem abs_roundQ_sub_le (F : FpFormat) (q : ℚ) : |F.roundQ q - q| ≤ F.ulp q / 2 := by
  have hu := F.ulp_pos q
  have h := abs_roundHalfEven_sub_le (q / F.ulp q)
  have e : F.roundQ q - q
      = (((roundHalfEven (q / F.ulp q) : Int) : ℚ) - q / F.ulp q) * F.ulp q := by
    unfold roundQ; field_simp
  rw [e, abs_mul, abs_of_pos hu]
  calc _ ≤ 1 / 2 * F.ulp q := mul_le_mul_of_nonneg_right h (le_of_lt hu)
    _ = F.ulp q / 2 := by ring

theorem log_eq_of_bounds {q : ℚ} {e : Int} (h1 : (2 : ℚ) ^ e ≤ |q|)
    (h2 : |q| < (2 : ℚ) ^ (e + 1)) :
    Int.log 2 |q| = e := by
  have hpos : 0 < |q| := lt_of_lt_of_le (by positivity) h1
  have a1 : e ≤ Int.log 2 |q| :=
    (Int.zpow_le_iff_le_log (by norm_num) hpos).mp (by exact_mod_cast h1)
  have a2 : Int.log 2 |q| < e + 1 :=
    (Int.lt_zpow_iff_log_lt (by norm_num) hpos).mp (by exact_mod_cast h2)
  omega

theorem exponent_eq (F : FpFormat) {q : ℚ} {e : Int} (h1 : (2 : ℚ) ^ e ≤ |q|)
    (h2 : |q| < (2 : ℚ) ^ (e + 1)) (he : 1 - (F.emax : Int) ≤ e) : F.exponent q = e := by
  unfold exponent
  rw [log_eq_of_bounds h1 h2]
  exact max_eq_left he

theorem exponent_ge (F : FpFormat) (q : ℚ) : 1 - (F.emax : Int) ≤ F.exponent q :=
  le_max_right _ _

theorem log_le_exponent (F : FpFormat) (q : ℚ) : Int.log 2 |q| ≤ F.exponent q :=
  le_max_left _ _

/-- A number `m * 2 ^ k` with `|m| < 2 ^ prec` and `k` not below the least exponent is
representable: rounding leaves it unchanged. -/
theorem roundQ_eq_self (F : FpFormat) (m k : Int) (hm : |m| < 2 ^ F.prec)
    (hk : 1 - (F.emax : Int) - ((F.prec : Int) - 1) ≤ k) :
    F.roundQ ((m : ℚ) * (2 : ℚ) ^ k) = (m : ℚ) * (2 : ℚ) ^ k := by
  by_cases hm0 : m = 0
  · subst hm0
    unfold roundQ
    simp [roundHalfEven]
  set q : ℚ := (m : ℚ) * (2 : ℚ) ^ k with hq
  have hqpos : 0 < |q| := by
    rw [hq, abs_mul]
    have : (0 : ℚ) < |(m : ℚ)| := abs_pos.mpr (by exact_mod_cast hm0)
    positivity
  have hlog : Int.log 2 |q| < (F.prec : Int) + k := by
    apply (Int.lt_zpow_iff_log_lt (by norm_num) hqpos).mp
    rw [hq, abs_mul, abs_of_pos (show (0 : ℚ) < (2 : ℚ) ^ k by positivity)]
    have h1 : |(m : ℚ)| < (2 : ℚ) ^ (F.prec : Int) := by
      rw [zpow_natCast]; exact_mod_cast hm
    push_cast
    rw [zpow_add₀ (by norm_num)]
    exact mul_lt_mul_of_pos_right h1 (by positivity)
  have hE : F.exponent q - ((F.prec : Int) - 1) ≤ k := by
    unfold exponent
    rcases max_cases (Int.log 2 |q|) (1 - (F.emax : Int)) with ⟨h, _⟩ | ⟨h, _⟩ <;>
      rw [h] <;> omega
  obtain ⟨j, hj⟩ := Int.eq_ofNat_of_zero_le
    (show 0 ≤ k - (F.exponent q - ((F.prec : Int) - 1)) by omega)
  have hdiv : q / F.ulp q = (((m * 2 ^ j : Int)) : ℚ) := by
    unfold ulp
    rw [hq, mul_div_assoc, ← zpow_sub₀ (by norm_num), hj]
    push_cast
    rw [zpow_natCast]
  unfold roundQ
  rw [hdiv, roundHalfEven_intCast, ← hdiv]
  have hu := F.ulp_pos q
  field_simp

theorem roundQ_zero (F : FpFormat) : F.roundQ 0 = 0 := by
  have := F.roundQ_eq_self 0 0 (by positivity) (by
    have := F.hemax; have := F.hprec; omega)
  simpa using this

theorem roundQ_intCast (F : FpFormat) (n : Int) (h : |n| ≤ 2 ^ F.prec) :
    F.roundQ (n : ℚ) = (n : ℚ) := by
  have hk0 : 1 - (F.emax : Int) - ((F.prec : Int) - 1) ≤ 0 := by
    have := F.hemax; have := F.hprec; omega
  rcases lt_or_eq_of_le h with h1 | h1
  · have := F.roundQ_eq_self n 0 h1 hk0
    simpa using this
  · have hp1 : (1 : Int) < 2 ^ F.prec := by
      have := F.hprec
      calc (1 : Int) < 2 ^ 2 := by norm_num
        _ ≤ 2 ^ F.prec := pow_le_pow_right₀ (by norm_num) this
    have hkp : 1 - (F.emax : Int) - ((F.prec : Int) - 1) ≤ (F.prec : Int) := by
      have := F.hemax; omega
    rcases abs_cases n with ⟨e, _⟩ | ⟨e, _⟩
    · have := F.roundQ_eq_self 1 F.prec (by simpa using hp1) hkp
      have hn : (n : ℚ) = ((1 : Int) : ℚ) * (2 : ℚ) ^ (F.prec : Int) := by
        rw [zpow_natCast]
        have : n = 2 ^ F.prec := by omega
        rw [this]; push_cast; ring
      rw [hn]; exact this
    · have := F.roundQ_eq_self (-1) F.prec (by simpa using hp1) hkp
      have hn : (n : ℚ) = ((-1 : Int) : ℚ) * (2 : ℚ) ^ (F.prec : Int) := by
        rw [zpow_natCast]
        have : n = -2 ^ F.prec := by omega
        rw [this]; push_cast; ring
      rw [hn]; exact this

/-- In the normal range the spacing is at most `2 ^ (1 - prec)` times the magnitude. -/
theorem ulp_le_of_normal (F : FpFormat) {q : ℚ} (h : (2 : ℚ) ^ (1 - (F.emax : Int)) ≤ |q|) :
    F.ulp q ≤ |q| * (2 : ℚ) ^ (1 - (F.prec : Int)) := by
  have hpos : 0 < |q| := lt_of_lt_of_le (by positivity) h
  have a1 : 1 - (F.emax : Int) ≤ Int.log 2 |q| :=
    (Int.zpow_le_iff_le_log (by norm_num) hpos).mp (by exact_mod_cast h)
  have hE : F.exponent q = Int.log 2 |q| := by
    unfold exponent; exact max_eq_left a1
  have h2 : (2 : ℚ) ^ (Int.log 2 |q|) ≤ |q| := by
    have := Int.zpow_log_le_self (b := 2) (r := |q|) (by norm_num) hpos
    exact_mod_cast this
  unfold ulp
  rw [hE, show Int.log 2 |q| - ((F.prec : Int) - 1) = Int.log 2 |q| + (1 - (F.prec : Int)) by ring,
    zpow_add₀ (by norm_num)]
  exact mul_le_mul_of_nonneg_right h2 (by positivity)

/-- Below the normal range the spacing is the least one. -/
theorem ulp_of_subnormal (F : FpFormat) {q : ℚ} (hq : q ≠ 0)
    (h : |q| < (2 : ℚ) ^ (1 - (F.emax : Int))) :
    F.ulp q = (2 : ℚ) ^ (1 - (F.emax : Int) - ((F.prec : Int) - 1)) := by
  have hE : F.exponent q = 1 - (F.emax : Int) := by
    unfold exponent
    apply max_eq_right
    have hpos : 0 < |q| := abs_pos.mpr hq
    have := (Int.lt_zpow_iff_log_lt (b := 2) (x := 1 - (F.emax : Int)) (by norm_num) hpos).mp
      (by exact_mod_cast h)
    omega
  unfold ulp
  rw [hE]

/-- The relative error of rounding in the normal range. -/
theorem abs_roundQ_sub_le_of_normal (F : FpFormat) {q : ℚ}
    (h : (2 : ℚ) ^ (1 - (F.emax : Int)) ≤ |q|) :
    |F.roundQ q - q| ≤ |q| * (2 : ℚ) ^ (-(F.prec : Int)) := by
  have h1 := F.abs_roundQ_sub_le q
  have h2 := F.ulp_le_of_normal h
  have e : |q| * (2 : ℚ) ^ (-(F.prec : Int)) = |q| * (2 : ℚ) ^ (1 - (F.prec : Int)) / 2 := by
    rw [show (1 - (F.prec : Int)) = -(F.prec : Int) + 1 by ring, zpow_add₀ (by norm_num)]
    ring
  rw [e]
  linarith

/-- The error of rounding, for every rational: the relative error `2 ^ (-prec)` plus half
the least spacing. -/
theorem abs_roundQ_sub_le_add (F : FpFormat) (q : ℚ) :
    |F.roundQ q - q| ≤ |q| * (2 : ℚ) ^ (-(F.prec : Int))
      + (2 : ℚ) ^ (1 - (F.emax : Int) - (F.prec : Int)) := by
  have hp1 : (0 : ℚ) ≤ |q| * (2 : ℚ) ^ (-(F.prec : Int)) := by positivity
  have hp2 : (0 : ℚ) < (2 : ℚ) ^ (1 - (F.emax : Int) - (F.prec : Int)) := by positivity
  by_cases hq : q = 0
  · subst hq
    rw [roundQ_zero]; simp; positivity
  rcases le_or_lt ((2 : ℚ) ^ (1 - (F.emax : Int))) |q| with h | h
  · have := F.abs_roundQ_sub_le_of_normal h
    linarith
  · have h1 := F.abs_roundQ_sub_le q
    rw [F.ulp_of_subnormal hq h] at h1
    have e : (2 : ℚ) ^ (1 - (F.emax : Int) - ((F.prec : Int) - 1)) / 2
        = (2 : ℚ) ^ (1 - (F.emax : Int) - (F.prec : Int)) := by
      rw [show (1 - (F.emax : Int) - ((F.prec : Int) - 1))
        = (1 - (F.emax : Int) - (F.prec : Int)) + 1 by ring, zpow_add₀ (by norm_num)]
      ring
    rw [e] at h1
    linarith

theorem roundQ_nonneg (F : FpFormat) {q : ℚ} (h : 0 ≤ q) : 0 ≤ F.roundQ q := by
  unfold roundQ
  have hu := F.ulp_pos q
  have : 0 ≤ roundHalfEven (q / F.ulp q) := roundHalfEven_nonneg (div_nonneg h (le_of_lt hu))
  have : (0 : ℚ) ≤ ((roundHalfEven (q / F.ulp q) : Int) : ℚ) := by exact_mod_cast this
  positivity

theorem two_pow_emax_le_maxFinite (F : FpFormat) : (2 : ℚ) ^ (F.emax : Int) ≤ F.maxFinite := by
  have hp := F.hprec
  unfold maxFinite
  have e : (2 : ℚ) ^ (F.emax : Int)
      = (2 : ℚ) ^ ((F.prec : Int) - 1) * (2 : ℚ) ^ ((F.emax : Int) - ((F.prec : Int) - 1)) := by
    rw [← zpow_add₀ (by norm_num)]; congr 1; ring
  rw [e]
  apply mul_le_mul_of_nonneg_right _ (by positivity)
  have h2 : (2 : ℚ) ^ (F.prec : Int) = 2 * (2 : ℚ) ^ ((F.prec : Int) - 1) := by
    rw [show (F.prec : Int) = ((F.prec : Int) - 1) + 1 by ring, zpow_add₀ (by norm_num)]
    simp; ring
  have h3 : (1 : ℚ) ≤ (2 : ℚ) ^ ((F.prec : Int) - 1) := by
    apply one_le_zpow₀ (by norm_num); omega
  rw [← zpow_natCast, h2]
  linarith

/-- A rational of magnitude at most `2 ^ emax` rounds to a finite value. -/
theorem round_of_abs_le (F : FpFormat) {q : ℚ} (h : |q| ≤ (2 : ℚ) ^ (F.emax : Int)) :
    F.round q = Fp.fin (F.roundQ q) := by
  have hp := F.hprec
  have he := F.hemax
  have hmf : (2 : ℚ) ^ (F.emax : Int) * (2 - (2 : ℚ) ^ (1 - (F.prec : Int))) = F.maxFinite := by
    unfold maxFinite
    have e1 : (2 : ℚ) ^ (F.emax : Int)
        = (2 : ℚ) ^ ((F.emax : Int) - ((F.prec : Int) - 1))
          * (2 : ℚ) ^ ((F.prec : Int) - 1) := by
      rw [← zpow_add₀ (by norm_num)]; congr 1; ring
    have e2 : (2 : ℚ) ^ ((F.prec : Int) - 1) * (2 - (2 : ℚ) ^ (1 - (F.prec : Int)))
        = (2 : ℚ) ^ F.prec - 1 := by
      rw [mul_sub, ← zpow_add₀ (by norm_num), ← zpow_natCast]
      rw [show ((F.prec : Int) - 1 + (1 - (F.prec : Int))) = 0 by ring, zpow_zero]
      rw [show (F.prec : Int) = ((F.prec : Int) - 1) + 1 by ring, zpow_add₀ (by norm_num)]
      simp
    rw [e1, mul_assoc, e2]; ring
  have hsmall : (2 : ℚ) ^ (-(F.prec : Int)) ≤ 1 / 4 := by
    have : (2 : ℚ) ^ (-(F.prec : Int)) ≤ (2 : ℚ) ^ (-(2 : Int)) :=
      zpow_le_zpow_right₀ (by norm_num) (by omega)
    norm_num at this ⊢
    exact this
  have hsmall1 : (2 : ℚ) ^ (1 - (F.prec : Int)) = 2 * (2 : ℚ) ^ (-(F.prec : Int)) := by
    rw [show (1 - (F.prec : Int)) = 1 + -(F.prec : Int) by ring, zpow_add₀ (by norm_num)]
    simp
  have hbound : |F.roundQ q| ≤ F.maxFinite := by
    have h1 := F.abs_roundQ_sub_le_add q
    have h2 : |F.roundQ q| ≤ |q| + |F.roundQ q - q| := by
      have := abs_add q (F.roundQ q - q)
      simpa using this
    have h3 : (2 : ℚ) ^ (1 - (F.emax : Int) - (F.prec : Int))
        ≤ (2 : ℚ) ^ (F.emax : Int) * (2 : ℚ) ^ (-(F.prec : Int)) := by
      rw [← zpow_add₀ (by norm_num)]
      exact zpow_le_zpow_right₀ (by norm_num) (by omega)
    have hE : (0 : ℚ) < (2 : ℚ) ^ (F.emax : Int) := by positivity
    have hP : (0 : ℚ) < (2 : ℚ) ^ (-(F.prec : Int)) := by positivity
    rw [← hmf, hsmall1]
    nlinarith [mul_le_mul_of_nonneg_right h (le_of_lt hP)]
  unfold round
  rw [if_neg (not_lt.mpr hbound)]

theorem round_intCast (F : FpFormat) (n : Int) (h : |n| ≤ 2 ^ F.prec) :
    F.round (n : ℚ) = Fp.fin (n : ℚ) := by
  have he := F.hemax
  have hb : |(n : ℚ)| ≤ (2 : ℚ) ^ (F.emax : Int) := by
    have h1 : |(n : ℚ)| ≤ (2 : ℚ) ^ (F.prec : Int) := by
      rw [zpow_natCast]; exact_mod_cast h
    exact le_trans h1 (zpow_le_zpow_right₀ (by norm_num) (by omega))
  rw [F.round_of_abs_le hb, F.roundQ_intCast n h]

/-- Evaluation of a rounding: `q` lies in the binade of exponent `e` and the multiple
`n * 2 ^ (e - (prec - 1))` of the spacing is nearer to `q` than half a spacing. -/
theorem roundQ_eq_of_close (F : FpFormat) {q : ℚ} (e n : Int) (h1 : (2 : ℚ) ^ e ≤ |q|)
    (h2 : |q| < (2 : ℚ) ^ (e + 1)) (he : 1 - (F.emax : Int) ≤ e)
    (hc : |q - (n : ℚ) * (2 : ℚ) ^ (e - ((F.prec : Int) - 1))|
      < (2 : ℚ) ^ (e - ((F.prec : Int) - 1)) / 2) :
    F.roundQ q = (n : ℚ) * (2 : ℚ) ^ (e - ((F.prec : Int) - 1)) := by
  have hE := F.exponent_eq h1 h2 he
  have hu : (0 : ℚ) < (2 : ℚ) ^ (e - ((F.prec : Int) - 1)) := by positivity
  unfold roundQ ulp
  rw [hE]
  congr 2
  apply roundHalfEven_eq_of_abs_lt
  have e1 : q / (2 : ℚ) ^ (e - ((F.prec : Int) - 1)) - (n : ℚ)
      = (q - (n : ℚ) * (2 : ℚ) ^ (e - ((F.prec : Int) - 1)))
        / (2 : ℚ) ^ (e - ((F.prec : Int) - 1)) := by
    field_simp; ring
  rw [e1, abs_div, abs_of_pos hu, div_lt_iff₀ hu]
  linarith

/-- Evaluation of a rounding at a tie: `q` is half-way between two neighbouring
multiples of the spacing, and the even one is taken. -/
theorem roundQ_eq_of_tie (F : FpFormat) {q : ℚ} (e n : Int) (h1 : (2 : ℚ) ^ e ≤ |q|)
    (h2 : |q| < (2 : ℚ) ^ (e + 1)) (he : 1 - (F.emax : Int) ≤ e)
    (hq : q = ((n : ℚ) + 1 / 2) * (2 : ℚ) ^ (e - ((F.prec : Int) - 1))) :
    F.roundQ q = (((if n % 2 = 0 then n else n + 1 : Int)) : ℚ)
      * (2 : ℚ) ^ (e - ((F.prec : Int) - 1)) := by
  have hE := F.exponent_eq h1 h2 he
  have hu : (0 : ℚ) < (2 : ℚ) ^ (e - ((F.prec : Int) - 1)) := by positivity
  unfold roundQ ulp
  rw [hE]
  congr 2
  rw [← roundHalfEven_tie]
  congr 1
  rw [hq]
  field_simp; ring

end FpFormat

/-! ### Truncation of a value close to a quotient of integers -/

/-- A rational `y` nearer than `1 / m` to the quotient `N / m` of two integers, and
equal to it when the quotient is an integer, has the same integral part as the
quotient. -/
theorem truncQ_eq_tdiv_of_close {N m : Int} (hm : 0 < m) {y : ℚ}
    (h1 : |y - (N : ℚ) / (m : ℚ)| < 1 / (m : ℚ))
    (h2 : m ∣ N → y = (N : ℚ) / (m : ℚ)) :
    truncQ y = N.tdiv m := by
  by_cases hd : m ∣ N
  · rw [h2 hd, truncQ_div]
  rw [← truncQ_div]
  have hmq : (0 : ℚ) < (m : ℚ) := by exact_mod_cast hm
  have hr0 : 0 ≤ N % m := Int.emod_nonneg N (ne_of_gt hm)
  have hr1 : N % m < m := Int.emod_lt_of_pos N hm
  have hr2 : N % m ≠ 0 := fun h => hd (Int.dvd_of_emod_eq_zero h)
  have hN := Int.emod_add_ediv N m
  set n : Int := N / m with hn
  set r : Int := N % m with hr
  have hx : (N : ℚ) / (m : ℚ) = (n : ℚ) + (r : ℚ) / (m : ℚ) := by
    have : (N : ℚ) = (r : ℚ) + (m : ℚ) * (n : ℚ) := by exact_mod_cast hN.symm
    rw [this]; field_simp; ring
  have hrq1 : (1 : ℚ) ≤ (r : ℚ) := by
    have : (1 : Int) ≤ r := by omega
    exact_mod_cast this
  have hrq2 : (r : ℚ) + 1 ≤ (m : ℚ) := by
    have : r + 1 ≤ m := by omega
    exact_mod_cast this
  have hlo : (1 : ℚ) / (m : ℚ) ≤ (r : ℚ) / (m : ℚ) := by
    apply div_le_div_of_nonneg_right hrq1 (le_of_lt hmq)
  have hhi : (r : ℚ) / (m : ℚ) ≤ 1 - 1 / (m : ℚ) := by
    rw [le_sub_iff_add_le, ← add_div, div_le_one hmq]
    exact hrq2
  rw [abs_lt] at h1
  obtain ⟨h1a, h1b⟩ := h1
  set x : ℚ := (N : ℚ) / (m : ℚ) with hxdef
  have hy1 : (n : ℚ) < y := by linarith
  have hy2 : y < (n : ℚ) + 1 := by linarith
  have hx1 : (n : ℚ) < x := by
    have : (0 : ℚ) < 1 / (m : ℚ) := by positivity
    linarith
  have hx2 : x < (n : ℚ) + 1 := by
    have : (0 : ℚ) < 1 / (m : ℚ) := by positivity
    linarith
  have fy : ⌊y⌋ = n := by rw [Int.floor_eq_iff]; exact ⟨le_of_lt hy1, hy2⟩
  have fx : ⌊x⌋ = n := by rw [Int.floor_eq_iff]; exact ⟨le_of_lt hx1, hx2⟩
  have cy : ⌈y⌉ = n + 1 := by
    rw [Int.ceil_eq_iff]; push_cast; constructor <;> linarith
  have cx : ⌈x⌉ = n + 1 := by
    rw [Int.ceil_eq_iff]; push_cast; constructor <;> linarith
  unfold truncQ
  rcases le_or_lt 0 n with h0 | h0
  · have hn0 : (0 : ℚ) ≤ (n : ℚ) := by exact_mod_cast h0
    rw [if_pos (by linarith), if_pos (by linarith), fy, fx]
  · have hn0 : (n : ℚ) + 1 ≤ 0 := by
      have : n + 1 ≤ 0 := by omega
      exact_mod_cast this
    rw [if_neg (by linarith), if_neg (by linarith), cy, cx]

namespace FpFormat

/-- The quotient of an integer of magnitude below `2 ^ prec` by a positive integer,
rounded to the format and then truncated, is the truncating integer quotient. -/
theorem truncQ_roundQ_div (F : FpFormat) {a b : Int} (ha : |a| < 2 ^ F.prec) (hb : 0 < b)
    (hb2 : (b : ℚ) ≤ (2 : ℚ) ^ ((F.emax : Int) - 1)) :
    truncQ (F.roundQ ((a : ℚ) / (b : ℚ))) = a.tdiv b := by
  have hbq : (0 : ℚ) < (b : ℚ) := by exact_mod_cast hb
  apply truncQ_eq_tdiv_of_close hb
  · by_cases ha0 : a = 0
    · subst ha0
      simp [roundQ_zero]
      exact hb
    have haq : (1 : ℚ) ≤ |(a : ℚ)| := by
      have : (1 : Int) ≤ |a| := Int.one_le_abs ha0
      exact_mod_cast this
    have hnorm : (2 : ℚ) ^ (1 - (F.emax : Int)) ≤ |(a : ℚ) / (b : ℚ)| := by
      rw [abs_div, abs_of_pos hbq, le_div_iff₀ hbq]
      have e : (2 : ℚ) ^ (1 - (F.emax : Int)) = ((2 : ℚ) ^ ((F.emax : Int) - 1))⁻¹ := by
        rw [← zpow_neg]; congr 1; ring
      have hpos : (0 : ℚ) < (2 : ℚ) ^ ((F.emax : Int) - 1) := by positivity
      rw [e]
      calc ((2 : ℚ) ^ ((F.emax : Int) - 1))⁻¹ * (b : ℚ)
          ≤ ((2 : ℚ) ^ ((F.emax : Int) - 1))⁻¹ * (2 : ℚ) ^ ((F.emax : Int) - 1) :=
            mul_le_mul_of_nonneg_left hb2 (by positivity)
        _ = 1 := inv_mul_cancel₀ (ne_of_gt hpos)
        _ ≤ |(a : ℚ)| := haq
    have h1 := F.abs_roundQ_sub_le_of_normal hnorm
    have h2 : |(a : ℚ)| < (2 : ℚ) ^ (F.prec : Int) := by
      rw [zpow_natCast]; exact_mod_cast ha
    have h3 : |(a : ℚ) / (b : ℚ)| * (2 : ℚ) ^ (-(F.prec : Int)) < 1 / (b : ℚ) := by
      rw [abs_div, abs_of_pos hbq, div_mul_eq_mul_div, div_lt_div_iff_of_pos_right hbq,
        zpow_neg, ← div_eq_mul_inv, div_lt_one (by positivity)]
      exact h2
    exact lt_of_le_of_lt h1 h3
  · rintro ⟨c, rfl⟩
    have hc : |c| ≤ 2 ^ F.prec := by
      have h1 : |b * c| = b * |c| := by rw [abs_mul, abs_of_pos hb]
      rw [h1] at ha
      have : |c| ≤ b * |c| := by
        have := abs_nonneg c
        nlinarith
      omega
    have e : (((b * c : Int)) : ℚ) / (b : ℚ) = (c : ℚ) := by
      push_cast; field_simp
    rw [e, F.roundQ_intCast c hc]

end FpFormat

theorem wrap_modEq {T C : IntTy} (h : T.bits ≤ C.bits) (x : Int) :
    C.wrap x ≡ x [ZMOD T.modulus] := by
  rw [Int.modEq_iff_dvd]
  have := dvd_trans (IntTy.modulus_dvd h) (C.modulus_dvd_wrap_sub x)
  have e : x - C.wrap x = -(C.wrap x - x) := by ring
  rw [e]; exact this.neg_right

theorem wrap_eq_of_modEq {T : IntTy} {a b : Int} (h : a ≡ b [ZMOD T.modulus]) :
    T.wrap a = T.wrap b := by
  apply IntTy.wrap_congr
  have := (Int.modEq_iff_dvd.mp h.symm)
  exact this

theorem wrap_inj_of_inRange {T C : IntTy} (h : T.bits ≤ C.bits) {a b : Int}
    (ha : T.inRange a) (hb : T.inRange b) (hab : C.wrap a = C.wrap b) : a = b := by
  have h1 := IntTy.wrap_wrap_of_le h a
  have h2 := IntTy.wrap_wrap_of_le h b
  rw [IntTy.wrap_of_inRange ha] at h1
  rw [IntTy.wrap_of_inRange hb] at h2
  rw [← h1, ← h2, hab]

theorem inRange_signed_of_le {a b : IntTy} {x : Int} (hsa : a.signed = true)
    (hsb : b.signed = true) (h : a.bits ≤ b.bits) (ha : a.inRange x) : b.inRange x := by
  have := IntTy.half_le_half h
  unfold IntTy.inRange IntTy.minVal IntTy.maxVal at ha ⊢
  simp only [hsa, hsb, if_true] at ha ⊢
  omega

theorem inRange_signed_of_lt {a b : IntTy} {x : Int} (hsa : a.signed = false)
    (hsb : b.signed = true) (h : a.bits < b.bits) (ha : a.inRange x) : b.inRange x := by
  have := IntTy.modulus_le_half h
  have hpb := b.half_pos
  unfold IntTy.inRange IntTy.minVal IntTy.maxVal at ha ⊢
  simp only [hsa, hsb, if_true, Bool.false_eq_true, if_false] at ha ⊢
  omega

theorem inRange_commonTy_left_of_signed {A B : IntTy} {x : Int}
    (hs : (commonTy A B).signed = true) (ha : A.inRange x) : (commonTy A B).inRange x := by
  have ha1 := IntTy.inRange_promote ha
  revert hs
  unfold commonTy
  simp only
  generalize A.promote = a at ha1
  generalize B.promote = b
  cases hsa : a.signed <;> cases hsb : b.signed <;> simp only [reduceCtorEq, if_true, if_false,
    Bool.false_eq_true] <;> split_ifs with h1 <;> intro hs
  all_goals first
    | exact ha1
    | (rw [hsb] at hs; exact absurd hs (by decide))
    | exact inRange_signed_of_le hsa hsb (by omega) ha1
    | exact inRange_signed_of_lt hsa hsb (by omega) ha1

/-! ### Truncating division -/

theorem tdiv_bounds_of_nonneg {a m : Int} (ha : 0 ≤ a) (hm : 0 ≤ m) :
    0 ≤ a.tdiv m ∧ a.tdiv m ≤ a := by
  rw [Int.tdiv_eq_ediv ha hm]
  exact ⟨Int.ediv_nonneg ha hm, Int.ediv_le_self m ha⟩

theorem tdiv_bounds_of_nonpos {a m : Int} (ha : a ≤ 0) (hm : 0 ≤ m) :
    a ≤ a.tdiv m ∧ a.tdiv m ≤ 0 := by
  have h := tdiv_bounds_of_nonneg (show 0 ≤ -a by omega) hm
  rw [Int.neg_tdiv] at h
  omega

theorem inRange_tdiv {T : IntTy} {a m : Int} (ha : T.inRange a) (hm : 0 ≤ m) :
    T.inRange (a.tdiv m) := by
  have h0 := T.minVal_nonpos
  have h1 := T.maxVal_nonneg
  unfold IntTy.inRange at ha ⊢
  rcases le_total 0 a with h | h
  · have := tdiv_bounds_of_nonneg h hm; omega
  · have := tdiv_bounds_of_nonpos h hm; omega

/-! ### Operations on finite floating values -/

theorem stdPow_fin (x : ℚ) (n : Int) :
    stdPow (Fp.fin x) n = if x = 0 ∧ n < 0 then Fp.inf false else binary64.round (x ^ n) :=
  rfl

theorem IntTy.ofFp_fin (T : IntTy) (q : ℚ) : T.ofFp (Fp.fin q) = T.wrap (truncQ q) := rfl

namespace Fp

theorem add_fin (F : FpFormat) (x y : ℚ) : add F (fin x) (fin y) = F.round (x + y) := rfl

theorem sub_fin (F : FpFormat) (x y : ℚ) : sub F (fin x) (fin y) = F.round (x - y) := by
  unfold sub neg
  rw [add_fin, sub_eq_add_neg]

theorem mul_fin (F : FpFormat) (x y : ℚ) : mul F (fin x) (fin y) = F.round (x * y) := rfl

theorem div_fin (F : FpFormat) (x : ℚ) {y : ℚ} (hy : y ≠ 0) :
    div F (fin x) (fin y) = F.round (x / y) := by
  unfold div
  simp only
  rw [if_neg hy]

theorem eq_fin (x y : ℚ) : eq (fin x) (fin y) = decide (x = y) := rfl

theorem lt_fin (x y : ℚ) : lt (fin x) (fin y) = decide (x < y) := rfl

theorem le_fin (x y : ℚ) : le (fin x) (fin y) = decide (x ≤ y) := rfl

end Fp

/-! ### Powers of ten and the precision multiplier -/

theorem zpow_ten_of_nonneg {n : Int} (hn : 0 ≤ n) :
    (10 : ℚ) ^ n = (((10 : Int) ^ n.toNat : Int) : ℚ) := by
  obtain ⟨k, rfl⟩ := Int.eq_ofNat_of_zero_le hn
  simp

theorem pow_ten_pos (k : Nat) : (0 : Int) < 10 ^ k := by positivity

theorem IntTy.maxVal_lt (T : IntTy) : T.maxVal < 2 ^ 64 := by
  have hm := T.modulus_eq
  have hp := T.half_pos
  have h64 : T.modulus ≤ 2 ^ 64 := by
    unfold IntTy.modulus
    have : (2 : ℕ) ^ T.bits ≤ 2 ^ 64 := Nat.pow_le_pow_right (by decide) T.hmax
    exact_mod_cast this
  unfold IntTy.maxVal
  split <;> omega

theorem IntTy.minVal_ge (T : IntTy) : -(2 ^ 63) ≤ T.minVal := by
  have hp := T.half_pos
  have h63 : T.half ≤ 2 ^ 63 := by
    unfold IntTy.half
    have : (2 : ℕ) ^ (T.bits - 1) ≤ 2 ^ 63 :=
      Nat.pow_le_pow_right (by decide) (by have := T.hmax; omega)
    exact_mod_cast this
  unfold IntTy.minVal
  split <;> omega

theorem IntTy.abs_lt_of_inRange {T : IntTy} {x : Int} (h : T.inRange x) : |x| < 2 ^ 64 := by
  have h1 := T.maxVal_lt
  have h2 := T.minVal_ge
  unfold IntTy.inRange at h
  rw [abs_lt]
  constructor <;> omega

/-- A power of ten that fits an integer type has an exponent of at most 19. -/
theorem IntTy.exponent_le_of_inRange {T : IntTy} {k : Nat} (h : T.inRange (10 ^ k)) :
    k ≤ 19 := by
  by_contra hk
  have h20 : 20 ≤ k := by omega
  have h1 : (10 : Int) ^ 20 ≤ 10 ^ k := pow_le_pow_right₀ (by norm_num) h20
  have h2 := T.maxVal_lt
  have h3 := h.2
  have h4 : (2 : Int) ^ 64 < 10 ^ 20 := by norm_num
  omega

namespace FpFormat

/-- The powers of ten up to `10 ^ 22` are representable in `double`. -/
theorem roundQ_pow_ten {k : Nat} (hk : k ≤ 22) :
    binary64.roundQ (((10 : Int) ^ k : Int) : ℚ) = (((10 : Int) ^ k : Int) : ℚ) := by
  have h5 : |((5 : Int) ^ k)| < 2 ^ binary64.prec := by
    rw [abs_of_pos (by positivity)]
    calc (5 : Int) ^ k ≤ 5 ^ 22 := pow_le_pow_right₀ (by norm_num) hk
      _ < 2 ^ binary64.prec := by norm_num [binary64]
  have h := binary64.roundQ_eq_self (5 ^ k) k h5 (by
    have : (0 : Int) ≤ (k : Int) := Int.natCast_nonneg k
    simp only [binary64]; omega)
  have e : ((((5 : Int) ^ k : Int)) : ℚ) * (2 : ℚ) ^ (k : Int)
      = (((10 : Int) ^ k : Int) : ℚ) := by
    rw [zpow_natCast]
    push_cast
    rw [← mul_pow]
    norm_num
  rw [e] at h
  exact h

theorem round_pow_ten {k : Nat} (hk : k ≤ 22) :
    binary64.round (((10 : Int) ^ k : Int) : ℚ) = Fp.fin (((10 : Int) ^ k : Int) : ℚ) := by
  rw [binary64.round_of_abs_le, roundQ_pow_ten hk]
  rw [abs_of_pos (by positivity)]
  calc ((((10 : Int) ^ k : Int)) : ℚ) ≤ (((10 : Int) ^ 22 : Int) : ℚ) := by
        exact_mod_cast pow_le_pow_right₀ (by norm_num : (1 : Int) ≤ 10) hk
    _ ≤ (2 : ℚ) ^ (binary64.emax : Int) := by norm_num [binary64]

theorem ofInt_ten (T : IntTy) : binary64.ofInt (T.wrap 10) = Fp.fin 10 := by
  rw [T.wrap_ten]
  unfold ofInt
  rw [binary64.round_intCast 10 (by norm_num [binary64])]
  norm_num

end FpFormat

theorem stdPow_ten {T : IntTy} {n : Int} (hn : 0 ≤ n) (h22 : n ≤ 22) :
    stdPow (binary64.ofInt (T.wrap 10)) n = Fp.fin (((10 : Int) ^ n.toNat : Int) : ℚ) := by
  rw [FpFormat.ofInt_ten, stdPow_fin, if_neg (by norm_num), zpow_ten_of_nonneg hn]
  exact FpFormat.round_pow_ten (by omega)

/-- A negative power of ten rounds to a `double` in `[0, 1)`. -/
theorem stdPow_ten_of_neg {T : IntTy} {n : Int} (hn : n < 0) :
    ∃ p : ℚ, stdPow (binary64.ofInt (T.wrap 10)) n = Fp.fin p ∧ 0 ≤ p ∧ p < 1 := by
  rw [FpFormat.ofInt_ten, stdPow_fin, if_neg (by norm_num)]
  have hk : n = -((-n).toNat : Int) := by
    rw [Int.toNat_of_nonneg (by omega)]; ring
  have hk1 : 1 ≤ (-n).toNat := by omega
  have hq0 : (0 : ℚ) < (10 : ℚ) ^ n := by positivity
  have hq1 : (10 : ℚ) ^ n ≤ 1 / 10 := by
    rw [hk, zpow_neg, zpow_natCast, one_div]
    apply inv_anti₀ (by norm_num)
    calc (10 : ℚ) = (10 : ℚ) ^ 1 := by norm_num
      _ ≤ (10 : ℚ) ^ (-n).toNat := pow_le_pow_right₀ (by norm_num) hk1
  have habs : |(10 : ℚ) ^ n| = (10 : ℚ) ^ n := abs_of_pos hq0
  have hfin : binary64.round ((10 : ℚ) ^ n) = Fp.fin (binary64.roundQ ((10 : ℚ) ^ n)) := by
    apply binary64.round_of_abs_le
    rw [habs]
    calc (10 : ℚ) ^ n ≤ 1 / 10 := hq1
      _ ≤ (2 : ℚ) ^ (binary64.emax : Int) := by norm_num [binary64]
  refine ⟨binary64.roundQ ((10 : ℚ) ^ n), hfin, binary64.roundQ_nonneg (le_of_lt hq0), ?_⟩
  have herr := binary64.abs_roundQ_sub_le_add ((10 : ℚ) ^ n)
  rw [habs] at herr
  have h1 : (2 : ℚ) ^ (-(binary64.prec : Int)) ≤ 1 := by
    apply zpow_le_one_of_nonpos₀ (by norm_num); simp [binary64]
  have h2 : (2 : ℚ) ^ (1 - (binary64.emax : Int) - (binary64.prec : Int)) ≤ 1 / 2 := by
    have : (2 : ℚ) ^ (1 - (binary64.emax : Int) - (binary64.prec : Int))
        ≤ (2 : ℚ) ^ (-1 : Int) :=
      zpow_le_zpow_right₀ (by norm_num) (by simp [binary64])
    norm_num at this ⊢
    exact this
  have h3 := (abs_le.mp herr).2
  have h4 : (10 : ℚ) ^ n * (2 : ℚ) ^ (-(binary64.prec : Int)) ≤ 1 / 10 := by
    calc (10 : ℚ) ^ n * (2 : ℚ) ^ (-(binary64.prec : Int)) ≤ (10 : ℚ) ^ n * 1 :=
          mul_le_mul_of_nonneg_left h1 (le_of_lt hq0)
      _ ≤ 1 / 10 := by rw [mul_one]; exact hq1
  linarith

theorem truncQ_eq_zero {p : ℚ} (h0 : 0 ≤ p) (h1 : p < 1) : truncQ p = 0 := by
  unfold truncQ
  rw [if_pos h0, Int.floor_eq_iff]
  constructor
  · simpa using h0
  · simpa using h1

namespace FixedPoint

theorem getPrecisionMultiplier_eq {T : IntTy} {P : Int} (hP : 0 ≤ P)
    (hM : T.inRange (10 ^ P.toNat)) : getPrecisionMultiplier T P = 10 ^ P.toNat := by
  have hk := IntTy.exponent_le_of_inRange hM
  unfold getPrecisionMultiplier
  rw [stdPow_ten hP (by omega), IntTy.ofFp_fin, truncQ_intCast, IntTy.wrap_of_inRange hM]

theorem getPrecisionMultiplier_of_neg (T : IntTy) {P : Int} (hP : P < 0) :
    getPrecisionMultiplier T P = 0 := by
  obtain ⟨p, hp, h0, h1⟩ := stdPow_ten_of_neg (T := T) hP
  unfold getPrecisionMultiplier
  rw [hp, IntTy.ofFp_fin, truncQ_eq_zero h0 h1]
  exact IntTy.wrap_of_inRange ⟨T.minVal_nonpos, T.maxVal_nonneg⟩

end FixedPoint

/-! ### Evaluation of roundings, and the format `double` -/

namespace FpFormat

/-- Evaluation of a rounding of a positive rational to a finite value. -/
theorem round_eq_of_close (F : FpFormat) {q r : ℚ} (e n : Int) (h1 : (2 : ℚ) ^ e ≤ q)
    (h2 : q < (2 : ℚ) ^ (e + 1)) (he : 1 - (F.emax : Int) ≤ e) (hmax : e < (F.emax : Int))
    (hr : r = (n : ℚ) * (2 : ℚ) ^ (e - ((F.prec : Int) - 1)))
    (hc : |q - r| < (2 : ℚ) ^ (e - ((F.prec : Int) - 1)) / 2) :
    F.round q = Fp.fin r := by
  have hpos : 0 < q := lt_of_lt_of_le (by positivity) h1
  have habs : |q| = q := abs_of_pos hpos
  have hfin : |q| ≤ (2 : ℚ) ^ (F.emax : Int) := by
    rw [habs]
    exact le_trans (le_of_lt h2) (zpow_le_zpow_right₀ (by norm_num) (by omega))
  rw [F.round_of_abs_le hfin, hr]
  congr 1
  exact F.roundQ_eq_of_close e n (by rw [habs]; exact h1) (by rw [habs]; exact h2) he
    (by rw [← hr]; exact hc)

/-- Evaluation of a rounding of a positive rational at a tie. -/
theorem round_eq_of_tie (F : FpFormat) {q r : ℚ} (e n : Int) (h1 : (2 : ℚ) ^ e ≤ q)
    (h2 : q < (2 : ℚ) ^ (e + 1)) (he : 1 - (F.emax : Int) ≤ e) (hmax : e < (F.emax : Int))
    (hq : q = ((n : ℚ) + 1 / 2) * (2 : ℚ) ^ (e - ((F.prec : Int) - 1)))
    (hr : r = (((if n % 2 = 0 then n else n + 1 : Int)) : ℚ)
      * (2 : ℚ) ^ (e - ((F.prec : Int) - 1))) :
    F.round q = Fp.fin r := by
  have hpos : 0 < q := lt_of_lt_of_le (by positivity) h1
  have habs : |q| = q := abs_of_pos hpos
  have hfin : |q| ≤ (2 : ℚ) ^ (F.emax : Int) := by
    rw [habs]
    exact le_trans (le_of_lt h2) (zpow_le_zpow_right₀ (by norm_num) (by omega))
  rw [F.round_of_abs_le hfin, hr]
  congr 1
  exact F.roundQ_eq_of_tie e n (by rw [habs]; exact h1) (by rw [habs]; exact h2) he hq

/-- Evaluation of a rounding at a representable number `m * 2 ^ k`. -/
theorem round_eq_self (F : FpFormat) {q : ℚ} (m k : Int)
    (hq : q = (m : ℚ) * (2 : ℚ) ^ k) (hm : |m| < 2 ^ F.prec)
    (hk : 1 - (F.emax : Int) - ((F.prec : Int) - 1) ≤ k)
    (hfin : |q| ≤ (2 : ℚ) ^ (F.emax : Int)) : F.round q = Fp.fin q := by
  rw [F.round_of_abs_le hfin, hq, F.roundQ_eq_self m k hm hk]

theorem ofInt_eq (F : FpFormat) {n : Int} (h : |n| ≤ 2 ^ F.prec) :
    F.ofInt n = Fp.fin (n : ℚ) :=
  F.round_intCast n h

theorem ofInt_b64 {n : Int} (h : |n| ≤ 2 ^ 53) : binary64.ofInt n = Fp.fin (n : ℚ) :=
  binary64.round_intCast n h

theorem ofInt_pow_ten_b64 {k : Nat} (hk : k ≤ 22) :
    binary64.ofInt (10 ^ k) = Fp.fin (((10 : Int) ^ k : Int) : ℚ) :=
  round_pow_ten hk

theorem round_b64_of_abs_le {q : ℚ} (h : |q| ≤ (2 : ℚ) ^ (66 : Nat)) :
    binary64.round q = Fp.fin (binary64.roundQ q) := by
  apply binary64.round_of_abs_le
  refine le_trans h ?_
  norm_num [binary64]

/-- The rounding error of `double`: the relative error `2 ^ -53`, plus an absolute
error that only matters below the normal range. -/
theorem abs_roundQ_sub_le_b64 (q : ℚ) :
    |binary64.roundQ q - q| ≤ |q| / 2 ^ (53 : Nat) + 1 / 2 ^ (200 : Nat) := by
  have h := binary64.abs_roundQ_sub_le_add q
  have e1 : (2 : ℚ) ^ (-(binary64.prec : Int)) = 1 / 2 ^ (53 : Nat) := by
    norm_num [binary64]
  have e2 : (2 : ℚ) ^ (1 - (binary64.emax : Int) - (binary64.prec : Int))
      ≤ 1 / 2 ^ (200 : Nat) := by
    have : (2 : ℚ) ^ (1 - (binary64.emax : Int) - (binary64.prec : Int))
        ≤ (2 : ℚ) ^ (-(200 : Int)) :=
      zpow_le_zpow_right₀ (by norm_num) (by simp [binary64])
    refine le_trans this ?_
    rw [zpow_neg, one_div]
    norm_num
  rw [e1] at h
  have e3 : |q| * (1 / 2 ^ (53 : Nat)) = |q| / 2 ^ (53 : Nat) := by ring
  rw [e3] at h
  linarith

end FpFormat

/-! ### Truncation of a value close to a representable one -/

theorem abs_truncQ_le (q : ℚ) : |((truncQ q : Int) : ℚ)| ≤ |q| := by
  unfold truncQ
  split
  · rename_i h0
    have h1 := Int.floor_le q
    have h2 : (0 : ℚ) ≤ ((⌊q⌋ : Int) : ℚ) := by exact_mod_cast Int.floor_nonneg.mpr h0
    rw [abs_of_nonneg h2, abs_of_nonneg h0]
    exact h1
  · rename_i h0
    push_neg at h0
    have h1 := Int.le_ceil q
    have h2 : ((⌈q⌉ : Int) : ℚ) ≤ 0 := by
      exact_mod_cast Int.ceil_le.mpr (by exact_mod_cast le_of_lt h0)
    rw [abs_of_nonpos h2, abs_of_neg h0]
    linarith

theorem truncQ_inRange_of_close {T : IntTy} {x y : ℚ} (hx : T.inRangeQ x)
    (h : |y - x| < 1) : T.inRange (truncQ y) := by
  obtain ⟨h1, h2⟩ := hx
  rw [abs_lt] at h
  obtain ⟨h3, h4⟩ := h
  unfold truncQ
  split
  · rename_i h0
    constructor
    · exact le_trans T.minVal_nonpos (Int.floor_nonneg.mpr h0)
    · apply Int.floor_le_iff.mpr
      have : y < (T.maxVal : ℚ) + 1 := by linarith
      exact_mod_cast this
  · rename_i h0
    push_neg at h0
    constructor
    · apply Int.le_ceil_iff.mpr
      have : (T.minVal : ℚ) - 1 < y := by linarith
      exact_mod_cast this
    · have : ⌈y⌉ ≤ 0 := Int.ceil_le.mpr (by exact_mod_cast le_of_lt h0)
      exact le_trans this T.maxVal_nonneg

/-- A rational whose rounding to `double` has a magnitude of at most `2^65` has itself a
magnitude of at most `2^66`. -/
theorem abs_le_of_roundQ_le {x : ℚ} (h : |binary64.roundQ x| ≤ (2 : ℚ) ^ (65 : Nat)) :
    |x| ≤ (2 : ℚ) ^ (66 : Nat) := by
  have herr := FpFormat.abs_roundQ_sub_le_b64 x
  have h1 : |x| ≤ |binary64.roundQ x| + |binary64.roundQ x - x| := by
    have := abs_sub_le x (binary64.roundQ x) 0
    simp only [sub_zero] at this
    rw [abs_sub_comm] at this
    linarith
  have h2 : |x| / 2 ^ (53 : Nat) ≤ |x| / 4 := by
    apply div_le_div_of_nonneg_left (abs_nonneg x) (by norm_num) (by norm_num)
  have h3 : (2 : ℚ) ^ (65 : Nat) + 1 / 2 ^ (200 : Nat) ≤ 3 / 4 * (2 : ℚ) ^ (66 : Nat) := by
    norm_num
  linarith

/-- A rational that truncates to a value of an integer type has a magnitude below
`2^64 + 1`. -/
theorem abs_lt_of_truncQ_inRange {T : IntTy} {z : ℚ} (h : T.inRange (truncQ z)) :
    |z| < (2 : ℚ) ^ (64 : Nat) + 1 := by
  have h1 := truncQ_abs_sub_lt z
  have h2 : |((truncQ z : Int) : ℚ)| < (2 : ℚ) ^ (64 : Nat) := by
    exact_mod_cast IntTy.abs_lt_of_inRange h
  have h3 : |z| ≤ |((truncQ z : Int) : ℚ)| + |((truncQ z : Int) : ℚ) - z| := by
    have := abs_sub_le z ((truncQ z : Int) : ℚ) 0
    simp only [sub_zero] at this
    rw [abs_sub_comm] at this
    linarith
  linarith

theorem abs_le_of_truncQ_roundQ {T : IntTy} {x : ℚ}
    (h : T.inRange (truncQ (binary64.roundQ x))) : |x| ≤ (2 : ℚ) ^ (66 : Nat) := by
  apply abs_le_of_roundQ_le
  have := abs_lt_of_truncQ_inRange h
  have h2 : (2 : ℚ) ^ (64 : Nat) + 1 ≤ (2 : ℚ) ^ (65 : Nat) := by norm_num
  linarith

theorem IntTy.abs_le_of_inRangeQ {T : IntTy} {x : ℚ} (h : T.inRangeQ x) :
    |x| ≤ (2 : ℚ) ^ (64 : Nat) := by
  have h1 : (T.maxVal : ℚ) < (2 : ℚ) ^ (64 : Nat) := by exact_mod_cast T.maxVal_lt
  have h2 : -((2 : ℚ) ^ (63 : Nat)) ≤ (T.minVal : ℚ) := by exact_mod_cast T.minVal_ge
  obtain ⟨h3, h4⟩ := h
  rw [abs_le]
  constructor
  · have : (2 : ℚ) ^ (63 : Nat) ≤ (2 : ℚ) ^ (64 : Nat) := by norm_num
    linarith
  · linarith

/-! ### The scaled right-hand sides of the cross-type operators -/

/-- A power of ten with an exponent of at most 255 rounds to a finite `double`; it is
exact up to `10^22` and at least `10^16` from the exponent 16 on. -/
theorem stdPow_ten_cases {T : IntTy} {n : Int} (hn : 0 ≤ n) (h255 : n ≤ 255) :
    ∃ p : ℚ, stdPow (binary64.ofInt (T.wrap 10)) n = Fp.fin p ∧
      (n ≤ 22 → p = (((10 : Int) ^ n.toNat : Int) : ℚ)) ∧
      (16 ≤ n → (10 : ℚ) ^ (16 : Nat) ≤ p) := by
  rcases le_or_lt n 22 with h22 | h22
  · refine ⟨_, stdPow_ten hn h22, fun _ => rfl, fun h16 => ?_⟩
    have : (10 : Int) ^ 16 ≤ 10 ^ n.toNat := pow_le_pow_right₀ (by norm_num) (by omega)
    exact_mod_cast this
  · rw [FpFormat.ofInt_ten, stdPow_fin, if_neg (by norm_num), zpow_ten_of_nonneg hn]
    have hk : n.toNat ≤ 255 := by omega
    have hk23 : 23 ≤ n.toNat := by omega
    have hpos : (0 : ℚ) < (((10 : Int) ^ n.toNat : Int) : ℚ) := by
      exact_mod_cast pow_ten_pos n.toNat
    have hle : (((10 : Int) ^ n.toNat : Int) : ℚ) ≤ (2 : ℚ) ^ (binary64.emax : Int) := by
      calc ((((10 : Int) ^ n.toNat : Int)) : ℚ) ≤ (((10 : Int) ^ 255 : Int) : ℚ) := by
            exact_mod_cast pow_le_pow_right₀ (by norm_num : (1 : Int) ≤ 10) hk
        _ ≤ (2 : ℚ) ^ (binary64.emax : Int) := by norm_num [binary64]
    have hge : (10 : ℚ) ^ (23 : Nat) ≤ (((10 : Int) ^ n.toNat : Int) : ℚ) := by
      exact_mod_cast pow_le_pow_right₀ (by norm_num : (1 : Int) ≤ 10) hk23
    rw [binary64.round_of_abs_le (by rw [abs_of_pos hpos]; exact hle)]
    refine ⟨_, rfl, fun h => absurd h (by omega), fun _ => ?_⟩
    have herr := FpFormat.abs_roundQ_sub_le_b64 (((10 : Int) ^ n.toNat : Int) : ℚ)
    rw [abs_of_pos hpos] at herr
    have h1 := (abs_le.mp herr).1
    have h2 : ((((10 : Int) ^ n.toNat : Int)) : ℚ) / 2 ^ (53 : Nat)
        ≤ (((10 : Int) ^ n.toNat : Int) : ℚ) / 2 := by
      apply div_le_div_of_nonneg_left (le_of_lt hpos) (by norm_num) (by norm_num)
    have h3 : (10 : ℚ) ^ (16 : Nat) + 1 / 2 ^ (200 : Nat) ≤ (10 : ℚ) ^ (23 : Nat) / 2 := by
      norm_num
    linarith

theorem truncQ_eq_zero_of_abs_lt_one {y : ℚ} (h : |y| < 1) : truncQ y = 0 := by
  rw [abs_lt] at h
  unfold truncQ
  split
  · rw [Int.floor_eq_iff]
    constructor
    · simpa using ‹0 ≤ y›
    · simpa using h.2
  · rw [Int.ceil_eq_iff]
    constructor
    · simpa using h.1
    · rename_i h0
      push_neg at h0
      simpa using le_of_lt h0

theorem tdiv_eq_zero_of_abs_lt {a b : Int} (h : |a| < b) : a.tdiv b = 0 := by
  rcases le_total 0 a with ha | ha
  · rw [abs_of_nonneg ha] at h
    exact Int.tdiv_eq_zero_of_lt ha h
  · rw [abs_of_nonpos ha] at h
    have := Int.tdiv_eq_zero_of_lt (show 0 ≤ -a by omega) h
    rw [Int.neg_tdiv] at this
    omega

namespace FpFormat

/-- The quotient of an integer of magnitude below `2^53` by a non-zero integer of
magnitude at most `2^53`, rounded to `double` and then truncated, is the truncating
integer quotient. -/
theorem truncQ_roundQ_div_b64 {a b : Int} (ha : |a| < 2 ^ 53) (hb : b ≠ 0)
    (hb2 : |b| ≤ 10 ^ 22) :
    truncQ (binary64.roundQ ((a : ℚ) / (b : ℚ))) = a.tdiv b := by
  have hbig : ((10 : Int) ^ 22 : ℚ) ≤ (2 : ℚ) ^ ((binary64.emax : Int) - 1) := by
    norm_num [binary64]
  rcases lt_or_gt_of_ne hb with h | h
  · have e : (a : ℚ) / (b : ℚ) = (((-a : Int)) : ℚ) / (((-b : Int)) : ℚ) := by
      push_cast; rw [neg_div_neg_eq]
    rw [e, binary64.truncQ_roundQ_div (by rw [abs_neg]; exact ha) (show 0 < -b by omega),
      Int.neg_tdiv_neg]
    have : ((-b : Int) : ℚ) ≤ ((10 : Int) ^ 22 : ℚ) := by
      have h1 : -b ≤ 10 ^ 22 := by rw [abs_of_neg h] at hb2; exact hb2
      exact_mod_cast h1
    exact le_trans this hbig
  · apply binary64.truncQ_roundQ_div ha h
    have : (b : ℚ) ≤ ((10 : Int) ^ 22 : ℚ) := by
      have h1 : b ≤ 10 ^ 22 := by rw [abs_of_pos h] at hb2; exact hb2
      exact_mod_cast h1
    exact le_trans this hbig

end FpFormat

namespace FixedPoint

variable {T Y : IntTy} {P Z : Int}

/-! ### The branches of the cross-type operators -/

theorem getRaw_eq (x : FixedPoint T P) : x.getRaw = x.value := rfl

theorem scaledUp_def (T : IntTy) (P : Int) (b : FixedPoint Y Z) :
    scaledUp T P b = Fp.mul binary64 (binary64.ofInt b.value)
      (stdPow (binary64.ofInt (T.wrap 10)) (P - Z)) := rfl

theorem scaledDown_def (T : IntTy) (P : Int) (b : FixedPoint Y Z) :
    scaledDown T P b = Fp.div binary64 (binary64.ofInt b.value)
      (stdPow (binary64.ofInt (T.wrap 10)) (Z - P)) := rfl

theorem assignFixed_of_gt (a : FixedPoint T P) (b : FixedPoint Y Z) (h : Z < P) :
    (assignFixed a b).value = T.ofFp (scaledUp T P b) := by
  have hgt : P > Z := h
  unfold assignFixed
  rw [if_pos hgt]

theorem assignFixed_of_lt (a : FixedPoint T P) (b : FixedPoint Y Z) (h : P < Z) :
    (assignFixed a b).value = T.ofFp (scaledDown T P b) := by
  have hgt : ¬ (P > Z) := by omega
  unfold assignFixed
  rw [if_neg hgt, if_pos h]

theorem assignFixed_of_eq (a : FixedPoint T P) (b : FixedPoint Y Z) (h : P = Z) :
    (assignFixed a b).value = T.wrap b.value := by
  have hgt : ¬ (P > Z) := by omega
  have hlt : ¬ (P < Z) := by omega
  unfold assignFixed getRaw
  rw [if_neg hgt, if_neg hlt]

theorem addAssignFixed_of_gt (a : FixedPoint T P) (b : FixedPoint Y Z) (h : Z < P) :
    (addAssignFixed a b).value
      = T.ofFp (Fp.add binary64 (binary64.ofInt a.value) (scaledUp T P b)) := by
  have hgt : P > Z := h
  unfold addAssignFixed
  rw [if_pos hgt]

theorem addAssignFixed_of_lt (a : FixedPoint T P) (b : FixedPoint Y Z) (h : P < Z) :
    (addAssignFixed a b).value
      = T.ofFp (Fp.add binary64 (binary64.ofInt a.value) (scaledDown T P b)) := by
  have hgt : ¬ (P > Z) := by omega
  unfold addAssignFixed
  rw [if_neg hgt, if_pos h]

theorem subAssignFixed_of_gt (a : FixedPoint T P) (b : FixedPoint Y Z) (h : Z < P) :
    (subAssignFixed a b).value
      = T.ofFp (Fp.sub binary64 (binary64.ofInt a.value) (scaledUp T P b)) := by
  have hgt : P > Z := h
  unfold subAssignFixed
  rw [if_pos hgt]

theorem subAssignFixed_of_lt (a : FixedPoint T P) (b : FixedPoint Y Z) (h : P < Z) :
    (subAssignFixed a b).value
      = T.ofFp (Fp.sub binary64 (binary64.ofInt a.value) (scaledDown T P b)) := by
  have hgt : ¬ (P > Z) := by omega
  unfold subAssignFixed
  rw [if_neg hgt, if_pos h]

theorem mulAssignFixed_of_gt (a : FixedPoint T P) (b : FixedPoint Y Z) (h : Z < P) :
    (mulAssignFixed a b).value
      = T.ofFp (Fp.mul binary64 (binary64.ofInt a.value) (scaledUp T P b)) := by
  have hgt : P > Z := h
  unfold mulAssignFixed
  rw [if_pos hgt]

theorem mulAssignFixed_of_lt (a : FixedPoint T P) (b : FixedPoint Y Z) (h : P < Z) :
    (mulAssignFixed a b).value
      = T.ofFp (Fp.mul binary64 (binary64.ofInt a.value) (scaledDown T P b)) := by
  have hgt : ¬ (P > Z) := by omega
  unfold mulAssignFixed
  rw [if_neg hgt, if_pos h]

theorem divAssignFixed_of_gt (a : FixedPoint T P) (b : FixedPoint Y Z) (h : Z < P) :
    (divAssignFixed a b).value
      = T.ofFp (Fp.div binary64 (binary64.ofInt a.value) (scaledUp T P b)) := by
  have hgt : P > Z := h
  unfold divAssignFixed
  rw [if_pos hgt]

theorem divAssignFixed_of_lt (a : FixedPoint T P) (b : FixedPoint Y Z) (h : P < Z) :
    (divAssignFixed a b).value
      = T.ofFp (Fp.div binary64 (binary64.ofInt a.value) (scaledDown T P b)) := by
  have hgt : ¬ (P > Z) := by omega
  unfold divAssignFixed
  rw [if_neg hgt, if_pos h]

theorem abs_le_abs_mul_pow (b : Int) (k : Nat) : |b| ≤ |b * 10 ^ k| := by
  have hp := pow_ten_pos k
  rw [abs_mul, abs_of_pos hp]
  have := abs_nonneg b
  nlinarith

/-- With `P > Z` the right-hand side `rhs.getRaw() * pow(10, P - Z)` is evaluated exactly
when the product has a magnitude of at most `2^53`. -/
theorem scaledUp_eq (T : IntTy) (b : FixedPoint Y Z) (hlt : Z < P) (h255 : P - Z ≤ 255)
    (hb : |b.value * 10 ^ (P - Z).toNat| ≤ 2 ^ 53) :
    scaledUp T P b = Fp.fin (((b.value * 10 ^ (P - Z).toNat : Int)) : ℚ) := by
  obtain ⟨p, hp, hp22, _⟩ := stdPow_ten_cases (T := T) (show 0 ≤ P - Z by omega) h255
  have hb0 : |b.value| ≤ 2 ^ 53 := le_trans (abs_le_abs_mul_pow _ _) hb
  unfold scaledUp getRaw
  rw [hp, FpFormat.ofInt_b64 hb0, Fp.mul_fin]
  by_cases hz : b.value = 0
  · rw [hz]
    have := binary64.round_intCast 0 (by positivity)
    simpa using this
  · have hk : P - Z ≤ 22 := by
      by_contra hc
      have h23 : 23 ≤ (P - Z).toNat := by omega
      have h1 : (10 : Int) ^ 23 ≤ 10 ^ (P - Z).toNat := pow_le_pow_right₀ (by norm_num) h23
      have h2 : 1 ≤ |b.value| := Int.one_le_abs hz
      have h3 : |b.value * 10 ^ (P - Z).toNat| = |b.value| * 10 ^ (P - Z).toNat := by
        rw [abs_mul, abs_of_pos (pow_ten_pos _)]
      rw [h3] at hb
      have h4 : (10 : Int) ^ 23 ≤ |b.value| * 10 ^ (P - Z).toNat := by nlinarith
      have h5 : (2 : Int) ^ 53 < 10 ^ 23 := by norm_num
      omega
    rw [hp22 hk]
    have := binary64.round_intCast (b.value * 10 ^ (P - Z).toNat) hb
    rw [← this]
    push_cast
    rfl

/-- With `P < Z` the right-hand side `rhs.getRaw() / pow(10, Z - P)` is the quotient
rounded to `double` when the raw value has a magnitude of at most `2^53` and the power is
at most `10^22`. -/
theorem scaledDown_eq (T : IntTy) (b : FixedPoint Y Z) (hlt : P < Z) (h22 : Z - P ≤ 22)
    (hb : |b.value| ≤ 2 ^ 53) :
    scaledDown T P b = Fp.fin (binary64.roundQ
      ((b.value : ℚ) / (((10 : Int) ^ (Z - P).toNat : Int) : ℚ))) := by
  have hpos : (0 : ℚ) < (((10 : Int) ^ (Z - P).toNat : Int) : ℚ) := by
    exact_mod_cast pow_ten_pos (Z - P).toNat
  have h1 : (1 : ℚ) ≤ (((10 : Int) ^ (Z - P).toNat : Int) : ℚ) := by
    exact_mod_cast (show (1 : Int) ≤ 10 ^ (Z - P).toNat from pow_ten_pos _)
  unfold scaledDown getRaw
  rw [stdPow_ten (by omega) h22, FpFormat.ofInt_b64 hb, Fp.div_fin _ _ (ne_of_gt hpos),
    FpFormat.round_b64_of_abs_le]
  rw [abs_div, abs_of_pos hpos]
  have hbq : |(b.value : ℚ)| ≤ (2 : ℚ) ^ (53 : Nat) := by exact_mod_cast hb
  calc |(b.value : ℚ)| / (((10 : Int) ^ (Z - P).toNat : Int) : ℚ) ≤ |(b.value : ℚ)| :=
        div_le_self (abs_nonneg _) h1
    _ ≤ (2 : ℚ) ^ (53 : Nat) := hbq
    _ ≤ (2 : ℚ) ^ (66 : Nat) := by norm_num

/-- With `P < Z` the right-hand side `rhs.getRaw() / pow(10, Z - P)`, converted to an
integer type, is the truncating quotient when the raw value has a magnitude
below `2^53`. -/
theorem truncQ_scaledDown (T : IntTy) (b : FixedPoint Y Z) (hlt : P < Z) (h255 : Z - P ≤ 255)
    (hb : |b.value| < 2 ^ 53) :
    ∃ y : ℚ, scaledDown T P b = Fp.fin y ∧ truncQ y = b.value.tdiv (10 ^ (Z - P).toNat) := by
  rcases le_or_lt (Z - P) 22 with h22 | h22
  · refine ⟨_, scaledDown_eq T b hlt h22 (le_of_lt hb), ?_⟩
    have h1 : |((10 : Int) ^ (Z - P).toNat)| ≤ 10 ^ 22 := by
      rw [abs_of_pos (pow_ten_pos _)]
      exact pow_le_pow_right₀ (by norm_num) (by omega)
    exact FpFormat.truncQ_roundQ_div_b64 hb (ne_of_gt (pow_ten_pos _)) h1
  · obtain ⟨p, hp, _, hp16⟩ := stdPow_ten_cases (T := T) (show 0 ≤ Z - P by omega) h255
    have hp16' := hp16 (by omega)
    have hppos : (0 : ℚ) < p := lt_of_lt_of_le (by norm_num) hp16'
    have hbq : |(b.value : ℚ)| ≤ (2 : ℚ) ^ (53 : Nat) := by exact_mod_cast le_of_lt hb
    have hq : |(b.value : ℚ) / p| ≤ 10 / 11 := by
      rw [abs_div, abs_of_pos hppos, div_le_iff₀ hppos]
      have : (2 : ℚ) ^ (53 : Nat) ≤ 10 / 11 * (10 : ℚ) ^ (16 : Nat) := by norm_num
      nlinarith
    have hfin : binary64.round ((b.value : ℚ) / p)
        = Fp.fin (binary64.roundQ ((b.value : ℚ) / p)) :=
      FpFormat.round_b64_of_abs_le (le_trans hq (by norm_num))
    refine ⟨binary64.roundQ ((b.value : ℚ) / p), ?_, ?_⟩
    · unfold scaledDown getRaw
      rw [hp, FpFormat.ofInt_b64 (le_of_lt hb), Fp.div_fin _ _ (ne_of_gt hppos), hfin]
    · have herr := FpFormat.abs_roundQ_sub_le_b64 ((b.value : ℚ) / p)
      have h1 : |binary64.roundQ ((b.value : ℚ) / p)| < 1 := by
        have h2 : |binary64.roundQ ((b.value : ℚ) / p)|
            ≤ |(b.value : ℚ) / p|
              + |binary64.roundQ ((b.value : ℚ) / p) - (b.value : ℚ) / p| := by
          have := abs_add ((b.value : ℚ) / p)
            (binary64.roundQ ((b.value : ℚ) / p) - (b.value : ℚ) / p)
          simpa using this
        have h3 : |(b.value : ℚ) / p| / 2 ^ (53 : Nat) ≤ 10 / 11 / 2 ^ (53 : Nat) :=
          div_le_div_of_nonneg_right hq (by positivity)
        have h4 : (10 : ℚ) / 11 + (10 / 11 / 2 ^ (53 : Nat) + 1 / 2 ^ (200 : Nat)) < 1 := by
          norm_num
        linarith
      rw [truncQ_eq_zero_of_abs_lt_one h1]
      symm
      apply tdiv_eq_zero_of_abs_lt
      have h5 : (2 : Int) ^ 53 < 10 ^ 16 := by norm_num
      have h6 : (10 : Int) ^ 16 ≤ 10 ^ (Z - P).toNat :=
        pow_le_pow_right₀ (by norm_num) (by omega)
      omega

end FixedPoint

/-! ### Rounding twice, rounding an integer -/

theorem abs_roundHalfEven_le {x : ℚ} {N : Int} (h : |x| ≤ (N : ℚ)) :
    |roundHalfEven x| ≤ N := by
  have h1 := abs_roundHalfEven_sub_le x
  have h2 : |((roundHalfEven x : Int) : ℚ)| ≤ (N : ℚ) + 1 / 2 := by
    have := abs_sub_le ((roundHalfEven x : Int) : ℚ) x 0
    simp only [sub_zero] at this
    linarith
  have h3 : |((roundHalfEven x : Int) : ℚ)| < ((N + 1 : Int) : ℚ) := by
    push_cast
    linarith
  have h4 : |roundHalfEven x| < N + 1 := by exact_mod_cast h3
  omega

namespace FpFormat

theorem abs_lt_zpow_exponent (F : FpFormat) (q : ℚ) :
    |q| < (2 : ℚ) ^ (F.exponent q + 1) := by
  by_cases hq : q = 0
  · subst hq
    simp only [abs_zero]
    positivity
  · have hpos : 0 < |q| := abs_pos.mpr hq
    have h1 : |q| < (2 : ℚ) ^ (Int.log 2 |q| + 1) := by
      exact_mod_cast Int.lt_zpow_succ_log_self (by norm_num : 1 < 2) |q|
    exact lt_of_lt_of_le h1
      (zpow_le_zpow_right₀ (by norm_num) (by have := F.log_le_exponent q; omega))

theorem abs_div_ulp_lt (F : FpFormat) (q : ℚ) : |q / F.ulp q| < (2 : ℚ) ^ F.prec := by
  have hu := F.ulp_pos q
  rw [abs_div, abs_of_pos hu, div_lt_iff₀ hu]
  have h := F.abs_lt_zpow_exponent q
  have e : (2 : ℚ) ^ F.prec * F.ulp q = (2 : ℚ) ^ (F.exponent q + 1) := by
    unfold ulp
    rw [← zpow_natCast, ← zpow_add₀ (by norm_num)]
    congr 1
    omega
  rw [e]
  exact h

/-- Rounding is idempotent: a rounded number is representable. -/
theorem roundQ_roundQ (F : FpFormat) (q : ℚ) : F.roundQ (F.roundQ q) = F.roundQ q := by
  have hp := F.hprec
  have hk : 1 - (F.emax : Int) - ((F.prec : Int) - 1)
      ≤ F.exponent q - ((F.prec : Int) - 1) := by
    have := F.exponent_ge q
    omega
  have hm : |roundHalfEven (q / F.ulp q)| ≤ 2 ^ F.prec := by
    apply abs_roundHalfEven_le
    push_cast
    exact le_of_lt (F.abs_div_ulp_lt q)
  have hdef : F.roundQ q = ((roundHalfEven (q / F.ulp q) : Int) : ℚ)
      * (2 : ℚ) ^ (F.exponent q - ((F.prec : Int) - 1)) := rfl
  rcases lt_or_eq_of_le hm with h1 | h1
  · rw [hdef]
    exact F.roundQ_eq_self _ _ h1 hk
  · have hhalf : |(2 : Int) ^ (F.prec - 1)| < 2 ^ F.prec := by
      rw [abs_of_pos (by positivity)]
      exact pow_lt_pow_right₀ (by norm_num) (by omega)
    have hhalfn : |-(2 : Int) ^ (F.prec - 1)| < 2 ^ F.prec := by
      rw [abs_neg]
      exact hhalf
    have h2 : (2 : ℚ) ^ F.prec = (2 : ℚ) ^ (F.prec - 1) * 2 := by
      rw [← pow_succ]
      congr 1
      omega
    have h3 : (2 : ℚ) ^ (F.exponent q - ((F.prec : Int) - 1) + 1)
        = 2 * (2 : ℚ) ^ (F.exponent q - ((F.prec : Int) - 1)) := by
      rw [zpow_add_one₀ (by norm_num)]
      ring
    rcases abs_cases (roundHalfEven (q / F.ulp q)) with ⟨e, _⟩ | ⟨e, _⟩
    · have hv : F.roundQ q = (((2 : Int) ^ (F.prec - 1) : Int) : ℚ)
          * (2 : ℚ) ^ (F.exponent q - ((F.prec : Int) - 1) + 1) := by
        rw [hdef, ← e, h1, h3]
        push_cast
        rw [h2]
        ring
      rw [hv]
      exact F.roundQ_eq_self _ _ hhalf (by omega)
    · have hv : F.roundQ q = ((-(2 : Int) ^ (F.prec - 1) : Int) : ℚ)
          * (2 : ℚ) ^ (F.exponent q - ((F.prec : Int) - 1) + 1) := by
        have e2 : roundHalfEven (q / F.ulp q) = -(2 : Int) ^ F.prec := by omega
        rw [hdef, e2, h3]
        push_cast
        rw [h2]
        ring
      rw [hv]
      exact F.roundQ_eq_self _ _ hhalfn (by omega)

/-- The rounding of an integer is an integer. -/
theorem roundQ_intCast_int (F : FpFormat) (n : Int) :
    ∃ k : Int, F.roundQ (n : ℚ) = (k : ℚ) := by
  rcases le_or_lt |n| (2 ^ F.prec) with h | h
  · exact ⟨n, F.roundQ_intCast n h⟩
  · have hpos : (0 : ℚ) < |(n : ℚ)| := by
      have : (0 : Int) < |n| := lt_trans (by positivity) h
      exact_mod_cast this
    have hlog : (F.prec : Int) ≤ Int.log 2 |(n : ℚ)| := by
      apply (Int.zpow_le_iff_le_log (by norm_num) hpos).mp
      rw [zpow_natCast]
      exact_mod_cast le_of_lt h
    have hE : 0 ≤ F.exponent (n : ℚ) - ((F.prec : Int) - 1) := by
      have := F.log_le_exponent (n : ℚ)
      omega
    obtain ⟨j, hj⟩ := Int.eq_ofNat_of_zero_le hE
    refine ⟨roundHalfEven ((n : ℚ) / F.ulp (n : ℚ)) * 2 ^ j, ?_⟩
    unfold roundQ ulp
    rw [hj]
    push_cast
    rw [zpow_natCast]

end FpFormat

theorem truncQ_eq_of_bounds {q : ℚ} {n : Int} (h0 : 0 ≤ n) (h1 : (n : ℚ) ≤ q)
    (h2 : q < (n : ℚ) + 1) : truncQ q = n := by
  have hq : (0 : ℚ) ≤ q := le_trans (by exact_mod_cast h0) h1
  unfold truncQ
  rw [if_pos hq, Int.floor_eq_iff]
  exact ⟨h1, h2⟩

namespace FixedPoint

/-! ## Construction from a scalar and conversion back -/

theorem ofInt_value_of_inRange {T : IntTy} {P : Int} (hP : 0 ≤ P)
    (hM : T.inRange (10 ^ P.toNat)) (Y : IntTy) (u : Int) :
    (ofInt T P Y u).value = T.wrap (u * 10 ^ P.toNat) := by
  unfold ofInt arith
  simp only
  rw [IntTy.wrap_wrap_of_le (le_bits_commonTy_right Y T)]
  apply wrap_eq_of_modEq
  rw [getPrecisionMultiplier_eq hP hM]
  exact (wrap_modEq (le_bits_commonTy_right Y T) u).mul
    (wrap_modEq (le_bits_commonTy_right Y T) _)

/-- The multiplier `10^P` of a base type converts to `double` exactly. -/
theorem ofInt_multiplier {T : IntTy} {P : Int} (hP : 0 ≤ P) (hM : T.inRange (10 ^ P.toNat)) :
    binary64.ofInt (getPrecisionMultiplier T P) = Fp.fin (((10 : Int) ^ P.toNat : Int) : ℚ) := by
  rw [getPrecisionMultiplier_eq hP hM]
  exact FpFormat.ofInt_pow_ten_b64 (by have := IntTy.exponent_le_of_inRange hM; omega)

/-- The constructor from a finite `double`: the product is rounded to `double`, then
truncated. -/
theorem ofDouble_value {T : IntTy} {P : Int} (hP : 0 ≤ P) (hM : T.inRange (10 ^ P.toNat))
    (v : ℚ) (hv : |v * (10 : ℚ) ^ P| ≤ (2 : ℚ) ^ (66 : Nat)) :
    (ofDouble T P (Fp.fin v)).value = T.wrap (truncQ (binary64.roundQ (v * (10 : ℚ) ^ P))) := by
  unfold ofDouble ofFloating
  simp only
  rw [ofInt_multiplier hP hM, Fp.mul_fin, ← zpow_ten_of_nonneg hP,
    FpFormat.round_b64_of_abs_le hv, IntTy.ofFp_fin]

/-- The conversion to `double` of a raw value of magnitude at most `2^53`: the quotient
by the multiplier, rounded to `double`. -/
theorem toDouble_value {T : IntTy} {P : Int} (hP : 0 ≤ P) (hM : T.inRange (10 ^ P.toNat))
    (x : FixedPoint T P) (hx : |x.value| ≤ 2 ^ 53) :
    toDouble x = Fp.fin (binary64.roundQ ((x.value : ℚ) / (10 : ℚ) ^ P)) := by
  have hpos : (0 : ℚ) < (((10 : Int) ^ P.toNat : Int) : ℚ) := by
    exact_mod_cast pow_ten_pos P.toNat
  have h1 : (1 : ℚ) ≤ (((10 : Int) ^ P.toNat : Int) : ℚ) := by
    exact_mod_cast (show (1 : Int) ≤ 10 ^ P.toNat from pow_ten_pos P.toNat)
  unfold toDouble toFloating
  rw [ofInt_multiplier hP hM, FpFormat.ofInt_b64 hx, Fp.div_fin _ _ (ne_of_gt hpos),
    ← zpow_ten_of_nonneg hP, FpFormat.round_b64_of_abs_le]
  rw [zpow_ten_of_nonneg hP, abs_div, abs_of_pos hpos]
  have hxq : |(x.value : ℚ)| ≤ (2 : ℚ) ^ (53 : Nat) := by exact_mod_cast hx
  calc |(x.value : ℚ)| / (((10 : Int) ^ P.toNat : Int) : ℚ) ≤ |(x.value : ℚ)| :=
        div_le_self (abs_nonneg _) h1
    _ ≤ (2 : ℚ) ^ (53 : Nat) := hxq
    _ ≤ (2 : ℚ) ^ (66 : Nat) := by norm_num

/-- C1, as stated, fails: the product `v * 10^P` and the quotient `raw / 10^P` are
rounded to `double`. With a 32 bit signed base and precision 2, the `double` written
`1.15` has the product 114.99999999999998579 in `double`, so raw 114 is stored, and the
value converted back is the `double` written `1.14`, which misses `v` by more
than `10^-2`. -/
theorem roundTrip_counterexample :
    binary64.round (23 / 20) = Fp.fin (2589569785738035 / 2251799813685248) ∧
    int32_t.inRangeQ ((2589569785738035 / 2251799813685248 : ℚ) * (10 : ℚ) ^ (2 : Int)) ∧
    (ofDouble int32_t 2 (Fp.fin (2589569785738035 / 2251799813685248))).getRaw = 114 ∧
    toDouble (ofDouble int32_t 2 (Fp.fin (2589569785738035 / 2251799813685248)))
      = Fp.fin (5134103575202365 / 4503599627370496) ∧
    ¬ (|(5134103575202365 / 4503599627370496 : ℚ) - 2589569785738035 / 2251799813685248|
        < (10 : ℚ) ^ (-(2 : Int))) := by
  have hv : (ofDouble int32_t 2 (Fp.fin (2589569785738035 / 2251799813685248))).value
      = 114 := by
    rw [ofDouble_value (by decide) (by decide) _ (by norm_num [abs_of_pos])]
    have h := binary64.roundQ_eq_of_close
      (q := (2589569785738035 / 2251799813685248 : ℚ) * (10 : ℚ) ^ (2 : Int))
      6 8092405580431359 (by norm_num [abs_of_pos]) (by norm_num [abs_of_pos])
      (by norm_num [binary64]) (by norm_num [binary64, abs_lt])
    rw [h, truncQ_eq_of_bounds (n := 114) (by decide) (by norm_num [binary64])
      (by norm_num [binary64])]
    decide
  refine ⟨?_, ?_, hv, ?_, ?_⟩
  · exact binary64.round_eq_of_close 0 5179139571476070 (by norm_num) (by norm_num)
      (by norm_num [binary64]) (by norm_num [binary64]) (by norm_num [binary64])
      (by norm_num [binary64, abs_lt])
  · unfold IntTy.inRangeQ IntTy.minVal IntTy.maxVal IntTy.half IntTy.modulus int32_t
    norm_num
  · rw [toDouble_value (by decide) (by decide) _ (by rw [hv]; decide), hv]
    congr 1
    have h := binary64.roundQ_eq_of_close
      (q := (((114 : Int)) : ℚ) / (10 : ℚ) ^ (2 : Int))
      0 5134103575202365 (by norm_num [abs_of_pos]) (by norm_num [abs_of_pos])
      (by norm_num [binary64]) (by norm_num [binary64, abs_lt])
    rw [h]
    norm_num [binary64]
  · norm_num [abs_lt]

/-- C1 (amended): for every base type and every precision `P ≥ 0` whose multiplier `10^P`
is representable in the base, constructing a `FixedPoint` from a `double` `v` with
`v * 10^P` inside the range of the base and of magnitude at most `2^51`, and converting
it back to `double`, yields a value within `2 * 10^-P` of `v` (the product and the
quotient are each rounded to `double`); for an integer scalar `v` with `v * 10^P`
representable in the base and of magnitude at most `2^53` the round trip returns `v`
itself. -/
theorem roundTrip_within_tolerance (T : IntTy) (P : Int) (hP : 0 ≤ P)
    (hM : T.inRange (10 ^ P.toNat)) :
    (∀ v : ℚ, T.inRangeQ (v * (10 : ℚ) ^ P) →
      |v * (10 : ℚ) ^ P| ≤ (2 : ℚ) ^ (51 : Nat) →
      ∃ r : ℚ, toDouble (ofDouble T P (Fp.fin v)) = Fp.fin r ∧
        |r - v| < 2 * (10 : ℚ) ^ (-P)) ∧
    (∀ (Y : IntTy) (v : Int), T.inRange (v * 10 ^ P.toNat) → |v * 10 ^ P.toNat| ≤ 2 ^ 53 →
      toDouble (ofInt T P Y v) = Fp.fin (v : ℚ)) := by
  have hk := IntTy.exponent_le_of_inRange hM
  have hposI := pow_ten_pos P.toNat
  have hpos : (0 : ℚ) < (((10 : Int) ^ P.toNat : Int) : ℚ) := by exact_mod_cast hposI
  have hm1 : (1 : ℚ) ≤ (((10 : Int) ^ P.toNat : Int) : ℚ) := by
    exact_mod_cast (show (1 : Int) ≤ 10 ^ P.toNat from hposI)
  have hm2 : (((10 : Int) ^ P.toNat : Int) : ℚ) ≤ (2 : ℚ) ^ (64 : Nat) := by
    have h1 : (10 : Int) ^ P.toNat ≤ 10 ^ 19 := pow_le_pow_right₀ (by norm_num) hk
    have h2 : (10 : Int) ^ 19 ≤ 2 ^ 64 := by norm_num
    exact_mod_cast le_trans h1 h2
  have hz : (10 : ℚ) ^ (-P) = ((((10 : Int) ^ P.toNat : Int) : ℚ))⁻¹ := by
    rw [zpow_neg, zpow_ten_of_nonneg hP]
  constructor
  · intro v hv hb
    have hb66 : |v * (10 : ℚ) ^ P| ≤ (2 : ℚ) ^ (66 : Nat) :=
      le_trans hb (by norm_num)
    have hval := ofDouble_value hP hM v hb66
    have herr := FpFormat.abs_roundQ_sub_le_b64 (v * (10 : ℚ) ^ P)
    set x : ℚ := v * (10 : ℚ) ^ P with hx
    set y : ℚ := binary64.roundQ x with hy
    have hyx : |y - x| ≤ 1 / 4 + 1 / 2 ^ (200 : Nat) := by
      have : |x| / 2 ^ (53 : Nat) ≤ 1 / 4 := by
        rw [div_le_iff₀ (by positivity)]
        refine le_trans hb ?_
        norm_num
      linarith
    have hyx1 : |y - x| < 1 := lt_of_le_of_lt hyx (by norm_num)
    have htr := truncQ_inRange_of_close hv hyx1
    rw [IntTy.wrap_of_inRange htr] at hval
    set t : Int := truncQ y with ht
    have hty : |(t : ℚ) - y| < 1 := truncQ_abs_sub_lt y
    have htx : |(t : ℚ) - x| < 5 / 4 + 1 / 2 ^ (200 : Nat) := by
      have := abs_sub_le (t : ℚ) y x
      linarith
    have htabs : |(t : ℚ)| ≤ (2 : ℚ) ^ (51 : Nat) + 2 := by
      have h1 : |(t : ℚ)| ≤ |x| + |(t : ℚ) - x| := by
        have := abs_add x ((t : ℚ) - x)
        simpa using this
      have h2 : (5 : ℚ) / 4 + 1 / 2 ^ (200 : Nat) ≤ 2 := by norm_num
      linarith
    have ht53 : |t| ≤ 2 ^ 53 := by
      have : |(t : ℚ)| ≤ (2 : ℚ) ^ (53 : Nat) := le_trans htabs (by norm_num)
      exact_mod_cast this
    have hconv := toDouble_value hP hM (ofDouble T P (Fp.fin v)) (by rw [hval]; exact ht53)
    rw [hval] at hconv
    refine ⟨_, hconv, ?_⟩
    have herr2 := FpFormat.abs_roundQ_sub_le_b64 ((t : ℚ) / (10 : ℚ) ^ P)
    rw [zpow_ten_of_nonneg hP] at herr2 hx ⊢
    rw [hz]
    set m : ℚ := (((10 : Int) ^ P.toNat : Int) : ℚ) with hm
    set r : ℚ := binary64.roundQ ((t : ℚ) / m) with hr
    have hvx : v = x / m := by rw [hx]; field_simp
    have e1 : r - v = (r - (t : ℚ) / m) + ((t : ℚ) - x) / m := by rw [hvx]; ring
    have h3 : |((t : ℚ) - x) / m| < (5 / 4 + 1 / 2 ^ (200 : Nat)) / m := by
      rw [abs_div, abs_of_pos hpos]
      exact div_lt_div_of_pos_right htx hpos
    have h4 : |(t : ℚ) / m| / 2 ^ (53 : Nat) + 1 / 2 ^ (200 : Nat)
        ≤ (1 / 4 + 1 / 2 ^ (30 : Nat)) / m := by
      rw [abs_div, abs_of_pos hpos, le_div_iff₀ hpos]
      have h5 : |(t : ℚ)| / m / 2 ^ (53 : Nat) * m = |(t : ℚ)| / 2 ^ (53 : Nat) := by
        field_simp; ring
      have h6 : |(t : ℚ)| / 2 ^ (53 : Nat) ≤ 1 / 4 + 1 / 2 ^ (31 : Nat) := by
        rw [div_le_iff₀ (by positivity)]
        refine le_trans htabs ?_
        norm_num
      have h7 : 1 / 2 ^ (200 : Nat) * m ≤ 1 / 2 ^ (31 : Nat) := by
        calc 1 / 2 ^ (200 : Nat) * m ≤ 1 / 2 ^ (200 : Nat) * (2 : ℚ) ^ (64 : Nat) :=
              mul_le_mul_of_nonneg_left hm2 (by positivity)
          _ ≤ 1 / 2 ^ (31 : Nat) := by norm_num
      have h8 : (1 : ℚ) / 2 ^ (31 : Nat) + 1 / 2 ^ (31 : Nat) = 1 / 2 ^ (30 : Nat) := by
        norm_num
      rw [add_mul, h5]
      linarith
    have h9 : |r - v| < (1 / 4 + 1 / 2 ^ (30 : Nat)) / m
        + (5 / 4 + 1 / 2 ^ (200 : Nat)) / m := by
      rw [e1]
      have := abs_add (r - (t : ℚ) / m) (((t : ℚ) - x) / m)
      linarith
    have h10 : (1 / 4 + 1 / 2 ^ (30 : Nat)) / m + (5 / 4 + 1 / 2 ^ (200 : Nat)) / m
        ≤ 2 * m⁻¹ := by
      rw [← add_div, div_eq_mul_inv]
      apply mul_le_mul_of_nonneg_right _ (by positivity)
      norm_num
    linarith
  · intro Y v hv hb
    have hval : (ofInt T P Y v).value = v * 10 ^ P.toNat := by
      rw [ofInt_value_of_inRange hP hM, IntTy.wrap_of_inRange hv]
    rw [toDouble_value hP hM _ (by rw [hval]; exact hb), hval, zpow_ten_of_nonneg hP]
    have e : (((v * 10 ^ P.toNat : Int)) : ℚ) / (((10 : Int) ^ P.toNat : Int) : ℚ)
        = (v : ℚ) := by
      push_cast
      field_simp
    rw [e]
    congr 1
    apply binary64.roundQ_intCast
    have h1 : |v| ≤ |v * 10 ^ P.toNat| := by
      rw [abs_mul, abs_of_pos hposI]
      have := abs_nonneg v
      nlinarith
    exact le_trans h1 hb

/-- Instance of the round-trip bound at a 32 bit signed base and precision 2: the
`double` written `1.15` comes back within `2 * 10^-2`, and the integer scalar 3 comes
back as 3. -/
theorem roundTrip_within_tolerance_witness :
    (0 : Int) ≤ 2 ∧ int32_t.inRange (10 ^ (2 : Int).toNat) ∧
    (∃ r : ℚ, toDouble (ofDouble int32_t 2 (Fp.fin (2589569785738035 / 2251799813685248)))
        = Fp.fin r ∧
      |r - 2589569785738035 / 2251799813685248| < 2 * (10 : ℚ) ^ (-(2 : Int))) ∧
    toDouble (ofInt int32_t 2 int32_t 3) = Fp.fin ((3 : Int) : ℚ) :=
  ⟨by decide, by decide,
    (roundTrip_within_tolerance int32_t 2 (by decide) (by decide)).1
      (2589569785738035 / 2251799813685248) (by
        unfold IntTy.inRangeQ IntTy.minVal IntTy.maxVal IntTy.half IntTy.modulus int32_t
        norm_num) (by norm_num [abs_of_pos]),
    (roundTrip_within_tolerance int32_t 2 (by decide) (by decide)).2 int32_t 3 (by decide)
      (by decide)⟩

theorem arith_self_add (T : IntTy) (a b : Int) :
    T.wrap (arith (· + ·) T T a b) = T.wrap (a + b) := by
  unfold arith
  exact IntTy.wrap_add_of_le (le_bits_commonTy_left T T) a b

theorem arith_self_sub (T : IntTy) (a b : Int) :
    T.wrap (arith (· - ·) T T a b) = T.wrap (a - b) := by
  unfold arith
  exact IntTy.wrap_sub_of_le (le_bits_commonTy_left T T) a b

theorem arith_mul (T A B : IntTy) (h : T.bits ≤ (commonTy A B).bits) (a b : Int) :
    T.wrap (arith (· * ·) A B a b) = T.wrap (a * b) := by
  unfold arith
  exact IntTy.wrap_mul_of_le h a b

theorem arith_tdiv {A B : IntTy} {a b : Int} (ha : (commonTy A B).inRange a)
    (hb : (commonTy A B).inRange b) (hq : (commonTy A B).inRange (a.tdiv b)) :
    arith Int.tdiv A B a b = a.tdiv b := by
  unfold arith
  rw [IntTy.wrap_of_inRange ha, IntTy.wrap_of_inRange hb, IntTy.wrap_of_inRange hq]

/-- C2, as stated, fails. At the negative precision -1 the multiplier is
`static_cast<T>(0.1) = 0`, so the integer 25 is stored as raw 0 although
`round_toward_zero(25 * 10^-1) = 2`. At precision 1 on a 32 bit signed base the `double`
written `0.7` (which is below 7/10) has the product 7.0 in `double`, so raw 7 is stored
although `round_toward_zero(v * 10)` is 6. -/
theorem ofScalar_getRaw_counterexample :
    ((ofInt int32_t (-1) int32_t 25).getRaw = 0 ∧
      int32_t.wrap (truncQ (((25 : Int) : ℚ) * (10 : ℚ) ^ (-1 : Int))) = 2) ∧
    (binary64.round (7 / 10) = Fp.fin (3152519739159347 / 4503599627370496) ∧
      (ofDouble int32_t 1 (Fp.fin (3152519739159347 / 4503599627370496))).getRaw = 7 ∧
      int32_t.wrap (truncQ ((3152519739159347 / 4503599627370496 : ℚ) * (10 : ℚ) ^ (1 : Int)))
        = 6) := by
  refine ⟨⟨?_, ?_⟩, ⟨?_, ?_, ?_⟩⟩
  · unfold getRaw ofInt arith
    simp only
    rw [getPrecisionMultiplier_of_neg int32_t (by decide)]
    decide
  · have e : ((25 : Int) : ℚ) * (10 : ℚ) ^ (-1 : Int)
        = ((25 : Int) : ℚ) / ((10 : Int) : ℚ) := by
      norm_num
    rw [e, truncQ_div]; decide
  · exact binary64.round_eq_of_close (-1) 6305039478318694 (by norm_num) (by norm_num)
      (by norm_num [binary64]) (by norm_num [binary64]) (by norm_num [binary64])
      (by norm_num [binary64, abs_lt])
  · unfold getRaw
    rw [ofDouble_value (by decide) (by decide) _ (by norm_num [abs_of_pos])]
    have h := binary64.roundQ_eq_of_tie
      (q := (3152519739159347 / 4503599627370496 : ℚ) * (10 : ℚ) ^ (1 : Int))
      2 7881299347898367 (by norm_num [abs_of_pos]) (by norm_num [abs_of_pos])
      (by norm_num [binary64]) (by norm_num [binary64])
    rw [h, truncQ_eq_of_bounds (n := 7) (by decide) (by norm_num [binary64])
      (by norm_num [binary64])]
    decide
  · rw [truncQ_eq_of_bounds (n := 6) (by decide) (by norm_num) (by norm_num)]
    decide

/-- C2 (amended): for every precision `P ≥ 0` whose multiplier `10^P` is representable
in Base, constructing a `FixedPoint<Base,P>` from an integer scalar `v` stores
`v * 10^P` cast to Base; constructing it from a `double` `v` stores
`round_toward_zero` of the product `v * 10^P` rounded to `double`, provided that rounded
product truncates to a value of Base, which is `round_toward_zero(v * 10^P)` whenever
the product is exact in `double`. -/
theorem ofScalar_getRaw (T : IntTy) (P : Int) (hP : 0 ≤ P)
    (hM : T.inRange (10 ^ P.toNat)) :
    (∀ (Y : IntTy) (v : Int),
      (ofInt T P Y v).getRaw = T.wrap (truncQ ((v : ℚ) * (10 : ℚ) ^ P))) ∧
    (∀ v : ℚ, T.inRange (truncQ (binary64.roundQ (v * (10 : ℚ) ^ P))) →
      (ofDouble T P (Fp.fin v)).getRaw = truncQ (binary64.roundQ (v * (10 : ℚ) ^ P)) ∧
      (binary64.roundQ (v * (10 : ℚ) ^ P) = v * (10 : ℚ) ^ P →
        (ofDouble T P (Fp.fin v)).getRaw = truncQ (v * (10 : ℚ) ^ P))) := by
  constructor
  · intro Y v
    have e : (v : ℚ) * (10 : ℚ) ^ P = ((v * 10 ^ P.toNat : Int) : ℚ) := by
      rw [zpow_ten_of_nonneg hP]; push_cast; ring
    rw [e, truncQ_intCast]
    exact ofInt_value_of_inRange hP hM Y v
  · intro v hv
    have hx := abs_le_of_truncQ_roundQ hv
    have key : (ofDouble T P (Fp.fin v)).getRaw
        = truncQ (binary64.roundQ (v * (10 : ℚ) ^ P)) := by
      unfold getRaw
      rw [ofDouble_value hP hM v hx, IntTy.wrap_of_inRange hv]
    refine ⟨key, fun h => ?_⟩
    rw [key, h]

/-- Instance of the construction rule at a 32 bit signed base and precision 1, for the
integer scalar 3 and for the `double` written `0.7`, whose product with 10 rounds
to 7.0. -/
theorem ofScalar_getRaw_witness :
    (0 : Int) ≤ 1 ∧ int32_t.inRange (10 ^ (1 : Int).toNat) ∧
    int32_t.inRange (truncQ (binary64.roundQ
      ((3152519739159347 / 4503599627370496 : ℚ) * (10 : ℚ) ^ (1 : Int)))) ∧
    (ofInt int32_t 1 int32_t 3).getRaw
      = int32_t.wrap (truncQ (((3 : Int) : ℚ) * (10 : ℚ) ^ (1 : Int))) ∧
    (ofDouble int32_t 1 (Fp.fin (3152519739159347 / 4503599627370496))).getRaw
      = truncQ (binary64.roundQ
        ((3152519739159347 / 4503599627370496 : ℚ) * (10 : ℚ) ^ (1 : Int))) :=
  have h7 : binary64.roundQ ((3152519739159347 / 4503599627370496 : ℚ) * (10 : ℚ) ^ (1 : Int))
      = 7 := by
    have h := binary64.roundQ_eq_of_tie
      (q := (3152519739159347 / 4503599627370496 : ℚ) * (10 : ℚ) ^ (1 : Int))
      2 7881299347898367 (by norm_num [abs_of_pos]) (by norm_num [abs_of_pos])
      (by norm_num [binary64]) (by norm_num [binary64])
    rw [h]; norm_num [binary64]
  have hr : int32_t.inRange (truncQ (binary64.roundQ
      ((3152519739159347 / 4503599627370496 : ℚ) * (10 : ℚ) ^ (1 : Int)))) := by
    rw [h7, show (7 : ℚ) = ((7 : Int) : ℚ) by norm_num, truncQ_intCast]
    decide
  ⟨by decide, by decide, hr, (ofScalar_getRaw int32_t 1 (by decide) (by decide)).1 int32_t 3,
    ((ofScalar_getRaw int32_t 1 (by decide) (by decide)).2 _ hr).1⟩

/-! ## Arithmetic between two values of the same type -/

/-- C3: for two values `a`, `b` of the same type `FixedPoint<Base,P>`, the operators
`+ - * /` and their compound forms work on the raw values: whenever the result is
representable in Base (and `b.getRaw() != 0` for the division), the raw value of the
result is `a.getRaw() + b.getRaw()`, `a.getRaw() - b.getRaw()`, `a.getRaw() * b.getRaw()`
and the truncating quotient `a.getRaw() / b.getRaw()`. -/
theorem sameType_arith_getRaw {T : IntTy} {P : Int} (a b : FixedPoint T P)
    (ha : T.inRange a.getRaw) (hb : T.inRange b.getRaw) :
    (T.inRange (a.getRaw + b.getRaw) →
      (add a b).getRaw = a.getRaw + b.getRaw ∧
      (addAssign a b).getRaw = a.getRaw + b.getRaw) ∧
    (T.inRange (a.getRaw - b.getRaw) →
      (sub a b).getRaw = a.getRaw - b.getRaw ∧
      (subAssign a b).getRaw = a.getRaw - b.getRaw) ∧
    (T.inRange (a.getRaw * b.getRaw) →
      (mul a b).getRaw = a.getRaw * b.getRaw ∧
      (mulAssign a b).getRaw = a.getRaw * b.getRaw) ∧
    (b.getRaw ≠ 0 → T.inRange (a.getRaw.tdiv b.getRaw) →
      (div a b).getRaw = a.getRaw.tdiv b.getRaw ∧
      (divAssign a b).getRaw = a.getRaw.tdiv b.getRaw) := by
  unfold getRaw at *
  refine ⟨fun h => ?_, fun h => ?_, fun h => ?_, fun _ h => ?_⟩
  · have e : (addAssign a b).value = a.value + b.value := by
      unfold addAssign
      simp only
      rw [arith_self_add, IntTy.wrap_of_inRange h]
    exact ⟨e, e⟩
  · have e : (subAssign a b).value = a.value - b.value := by
      unfold subAssign
      simp only
      rw [arith_self_sub, IntTy.wrap_of_inRange h]
    exact ⟨e, e⟩
  · have e : (mulAssign a b).value = a.value * b.value := by
      unfold mulAssign
      simp only
      rw [arith_mul T T T (le_bits_commonTy_left T T), IntTy.wrap_of_inRange h]
    exact ⟨e, e⟩
  · have e : (divAssign a b).value = a.value.tdiv b.value := by
      unfold divAssign
      simp only
      rw [arith_tdiv, IntTy.wrap_of_inRange h]
      · rw [commonTy_self]; exact IntTy.inRange_promote ha
      · rw [commonTy_self]; exact IntTy.inRange_promote hb
      · rw [commonTy_self]; exact IntTy.inRange_promote h
    exact ⟨e, e⟩

/-- Instance of the same-type arithmetic rule at a 32 bit signed base and precision 2
with raw values 150 and -40. -/
theorem sameType_arith_getRaw_witness :
    int32_t.inRange (150 : Int) ∧ int32_t.inRange (-40 : Int) ∧
    (add (⟨150⟩ : FixedPoint int32_t 2) ⟨-40⟩).getRaw = 110 ∧
    (sub (⟨150⟩ : FixedPoint int32_t 2) ⟨-40⟩).getRaw = 190 ∧
    (mul (⟨150⟩ : FixedPoint int32_t 2) ⟨-40⟩).getRaw = -6000 ∧
    (div (⟨150⟩ : FixedPoint int32_t 2) ⟨-40⟩).getRaw = -3 :=
  have h := sameType_arith_getRaw (⟨150⟩ : FixedPoint int32_t 2) ⟨-40⟩
    (by decide) (by decide)
  ⟨by decide, by decide, (h.1 (by decide)).1, (h.2.1 (by decide)).1,
    (h.2.2.1 (by decide)).1, (h.2.2.2 (by decide) (by decide)).1⟩

/-! ## Arithmetic with a value of another precision -/

theorem ofFp_intCast {T : IntTy} {n : Int} (h : T.inRange n) (h53 : |n| ≤ 2 ^ 53) :
    T.ofFp (binary64.round ((n : Int) : ℚ)) = n := by
  rw [binary64.round_intCast n h53, IntTy.ofFp_fin, truncQ_intCast, IntTy.wrap_of_inRange h]

theorem round_b64_div_of_abs_le {a : Int} {d : ℚ} (ha : |a| ≤ 2 ^ 53) (hd : 1 ≤ |d|) :
    binary64.round ((a : ℚ) / d) = Fp.fin (binary64.roundQ ((a : ℚ) / d)) := by
  apply FpFormat.round_b64_of_abs_le
  rw [abs_div]
  have haq : |(a : ℚ)| ≤ (2 : ℚ) ^ (53 : Nat) := by exact_mod_cast ha
  calc |(a : ℚ)| / |d| ≤ |(a : ℚ)| := div_le_self (abs_nonneg _) hd
    _ ≤ (2 : ℚ) ^ (53 : Nat) := haq
    _ ≤ (2 : ℚ) ^ (66 : Nat) := by norm_num

/-- C4, as stated, fails: the operands are converted to `double` and combined there, so a
64 bit raw value above `2^53` is rounded. For `a` of type `FixedPoint<int64_t,1>` with raw
value 0 and `b` of type `FixedPoint<int64_t,0>` with raw value `2^53 + 1`, `a + b` has raw
value 90071992547409920, not `0 + (2^53 + 1) * 10 = 90071992547409930`, which is
representable in `int64_t`. -/
theorem crossType_arith_higher_counterexample :
    (addFixed (⟨0⟩ : FixedPoint int64_t 1)
      (⟨9007199254740993⟩ : FixedPoint int64_t 0)).getRaw = 90071992547409920 ∧
    (⟨0⟩ : FixedPoint int64_t 1).getRaw
      + (⟨9007199254740993⟩ : FixedPoint int64_t 0).getRaw * 10 ^ ((1 : Int) - 0).toNat
      = 90071992547409930 ∧
    int64_t.inRange 90071992547409930 := by
  refine ⟨?_, by norm_num [getRaw], by decide⟩
  have h10 : binary64.round 90071992547409920 = Fp.fin 90071992547409920 :=
    binary64.round_eq_self 5 54 (by norm_num) (by norm_num [binary64])
      (by norm_num [binary64]) (by norm_num [binary64, abs_of_pos])
  have hb : binary64.ofInt (9007199254740993 : Int) = Fp.fin 9007199254740992 := by
    unfold FpFormat.ofInt
    exact binary64.round_eq_of_tie 53 4503599627370496 (by norm_num) (by norm_num)
      (by norm_num [binary64]) (by norm_num [binary64]) (by norm_num [binary64])
      (by norm_num [binary64])
  have hs : scaledUp int64_t 1 (⟨9007199254740993⟩ : FixedPoint int64_t 0)
      = Fp.fin 90071992547409920 := by
    rw [scaledUp_def]
    dsimp only
    rw [hb, stdPow_ten (by decide) (by decide), Fp.mul_fin, ← h10]
    norm_num
  rw [getRaw_eq, addFixed, addAssignFixed_of_gt _ _ (by decide), hs]
  dsimp only
  rw [FpFormat.ofInt_b64 (by decide), Fp.add_fin]
  have e : ((0 : Int) : ℚ) + 90071992547409920 = 90071992547409920 := by norm_num
  have e2 : (90071992547409920 : ℚ) = ((90071992547409920 : Int) : ℚ) := by norm_num
  rw [e, h10, IntTy.ofFp_fin, e2, truncQ_intCast]
  decide

/-- C4 (amended): for `a` of type `FixedPoint<T,P>` and `b` of type `FixedPoint<Y,Z>` with
`P > Z`, the operators `+ - * /` and their compound forms combine `a.getRaw()` with
`b.getRaw() * 10^(P-Z)` in `double`. Whenever `a.getRaw()`, `b.getRaw() * 10^(P-Z)` and
the result have a magnitude below `2^53`, so that the `double` arithmetic is exact, and
the result is representable in `T` (and `b.getRaw() != 0` for the division), the raw
value of the result is `a.getRaw() OP (b.getRaw() * 10^(P-Z))`, the division truncating,
and the result keeps the precision `P`. -/
theorem crossType_arith_higher {T Y : IntTy} {P Z : Int} (a : FixedPoint T P)
    (b : FixedPoint Y Z) (hPZ : Z < P) (h255 : P - Z ≤ 255) (ha : |a.getRaw| < 2 ^ 53)
    (hb : |b.getRaw * 10 ^ (P - Z).toNat| < 2 ^ 53) :
    (T.inRange (a.getRaw + b.getRaw * 10 ^ (P - Z).toNat) →
      |a.getRaw + b.getRaw * 10 ^ (P - Z).toNat| < 2 ^ 53 →
      (addFixed a b).getRaw = a.getRaw + b.getRaw * 10 ^ (P - Z).toNat ∧
      (addAssignFixed a b).getRaw = a.getRaw + b.getRaw * 10 ^ (P - Z).toNat) ∧
    (T.inRange (a.getRaw - b.getRaw * 10 ^ (P - Z).toNat) →
      |a.getRaw - b.getRaw * 10 ^ (P - Z).toNat| < 2 ^ 53 →
      (subFixed a b).getRaw = a.getRaw - b.getRaw * 10 ^ (P - Z).toNat ∧
      (subAssignFixed a b).getRaw = a.getRaw - b.getRaw * 10 ^ (P - Z).toNat) ∧
    (T.inRange (a.getRaw * (b.getRaw * 10 ^ (P - Z).toNat)) →
      |a.getRaw * (b.getRaw * 10 ^ (P - Z).toNat)| < 2 ^ 53 →
      (mulFixed a b).getRaw = a.getRaw * (b.getRaw * 10 ^ (P - Z).toNat) ∧
      (mulAssignFixed a b).getRaw = a.getRaw * (b.getRaw * 10 ^ (P - Z).toNat)) ∧
    (b.getRaw ≠ 0 → T.inRange (a.getRaw.tdiv (b.getRaw * 10 ^ (P - Z).toNat)) →
      (divFixed a b).getRaw = a.getRaw.tdiv (b.getRaw * 10 ^ (P - Z).toNat) ∧
      (divAssignFixed a b).getRaw = a.getRaw.tdiv (b.getRaw * 10 ^ (P - Z).toNat)) ∧
    (addFixed a b).getPrecision = P ∧ (subFixed a b).getPrecision = P ∧
    (mulFixed a b).getPrecision = P ∧ (divFixed a b).getPrecision = P := by
  unfold getRaw at *
  have hs := scaledUp_eq T b hPZ h255 (le_of_lt hb)
  have ha' := FpFormat.ofInt_b64 (le_of_lt ha)
  refine ⟨fun h h53 => ?_, fun h h53 => ?_, fun h h53 => ?_, fun hb0 h => ?_,
    rfl, rfl, rfl, rfl⟩
  · have e : (addAssignFixed a b).value = a.value + b.value * 10 ^ (P - Z).toNat := by
      rw [addAssignFixed_of_gt a b hPZ, hs, ha', Fp.add_fin, ← Int.cast_add,
        ofFp_intCast h (le_of_lt h53)]
    exact ⟨e, e⟩
  · have e : (subAssignFixed a b).value = a.value - b.value * 10 ^ (P - Z).toNat := by
      rw [subAssignFixed_of_gt a b hPZ, hs, ha', Fp.sub_fin, ← Int.cast_sub,
        ofFp_intCast h (le_of_lt h53)]
    exact ⟨e, e⟩
  · have e : (mulAssignFixed a b).value = a.value * (b.value * 10 ^ (P - Z).toNat) := by
      rw [mulAssignFixed_of_gt a b hPZ, hs, ha', Fp.mul_fin, ← Int.cast_mul,
        ofFp_intCast h (le_of_lt h53)]
    exact ⟨e, e⟩
  · have hr0 : b.value * 10 ^ (P - Z).toNat ≠ 0 :=
      mul_ne_zero hb0 (ne_of_gt (pow_ten_pos _))
    have hr0q : (((b.value * 10 ^ (P - Z).toNat : Int)) : ℚ) ≠ 0 := by exact_mod_cast hr0
    have hr1 : (1 : ℚ) ≤ |(((b.value * 10 ^ (P - Z).toNat : Int)) : ℚ)| := by
      exact_mod_cast Int.one_le_abs hr0
    have hr22 : |b.value * 10 ^ (P - Z).toNat| ≤ 10 ^ 22 := by
      have : (2 : Int) ^ 53 ≤ 10 ^ 22 := by norm_num
      omega
    have e : (divAssignFixed a b).value = a.value.tdiv (b.value * 10 ^ (P - Z).toNat) := by
      rw [divAssignFixed_of_gt a b hPZ, hs, ha', Fp.div_fin _ _ hr0q,
        round_b64_div_of_abs_le (le_of_lt ha) hr1, IntTy.ofFp_fin,
        FpFormat.truncQ_roundQ_div_b64 ha hr0 hr22, IntTy.wrap_of_inRange h]
    exact ⟨e, e⟩

/-- Instance of the rule for a left operand at the higher precision: raw 150 at
precision 2 plus raw 30 at precision 1 gives raw 450; likewise minus gives -150, times
gives 45000 and divided gives 0. -/
theorem crossType_arith_higher_witness :
    (1 : Int) < 2 ∧ (2 : Int) - 1 ≤ 255 ∧
    |(⟨150⟩ : FixedPoint int32_t 2).getRaw| < 2 ^ 53 ∧
    |(⟨30⟩ : FixedPoint int32_t 1).getRaw * 10 ^ ((2 : Int) - 1).toNat| < 2 ^ 53 ∧
    (addFixed (⟨150⟩ : FixedPoint int32_t 2) (⟨30⟩ : FixedPoint int32_t 1)).getRaw = 450 ∧
    (subFixed (⟨150⟩ : FixedPoint int32_t 2) (⟨30⟩ : FixedPoint int32_t 1)).getRaw
      = -150 ∧
    (mulFixed (⟨150⟩ : FixedPoint int32_t 2) (⟨30⟩ : FixedPoint int32_t 1)).getRaw
      = 45000 ∧
    (divFixed (⟨150⟩ : FixedPoint int32_t 2) (⟨30⟩ : FixedPoint int32_t 1)).getRaw = 0 :=
  have h := crossType_arith_higher (⟨150⟩ : FixedPoint int32_t 2)
    (⟨30⟩ : FixedPoint int32_t 1) (by decide) (by decide) (by decide) (by decide)
  ⟨by decide, by decide, by decide, by decide, (h.1 (by decide) (by decide)).1,
    (h.2.1 (by decide) (by decide)).1, (h.2.2.1 (by decide) (by decide)).1,
    (h.2.2.2.1 (by decide) (by decide)).1⟩

/-- C5, as stated, fails: with `a` at precision 1 and `b` at precision 2 (32 bit signed
bases) the right-hand raw value is not truncated before it is combined. Raw 2 plus raw
-5 gives raw 1 (not `2 + 0`), raw 2 minus raw 5 gives raw 1 (not `2 - 0`), raw 10 times
raw 15 gives raw 15 (not `10 * 1`) and raw 30 divided by raw 15 gives raw 20 (not
`30 / 1`); every value involved is exact in `double`. -/
theorem crossType_arith_lower_counterexample :
    ((addFixed (⟨2⟩ : FixedPoint int32_t 1) (⟨-5⟩ : FixedPoint int32_t 2)).getRaw = 1 ∧
      (2 : Int) + (-5 : Int).tdiv (10 ^ ((2 : Int) - 1).toNat) = 2) ∧
    ((subFixed (⟨2⟩ : FixedPoint int32_t 1) (⟨5⟩ : FixedPoint int32_t 2)).getRaw = 1 ∧
      (2 : Int) - (5 : Int).tdiv (10 ^ ((2 : Int) - 1).toNat) = 2) ∧
    ((mulFixed (⟨10⟩ : FixedPoint int32_t 1) (⟨15⟩ : FixedPoint int32_t 2)).getRaw = 15 ∧
      (10 : Int) * (15 : Int).tdiv (10 ^ ((2 : Int) - 1).toNat) = 10) ∧
    ((divFixed (⟨30⟩ : FixedPoint int32_t 1) (⟨15⟩ : FixedPoint int32_t 2)).getRaw = 20 ∧
      (30 : Int).tdiv ((15 : Int).tdiv (10 ^ ((2 : Int) - 1).toNat)) = 30) := by
  have hm5 : scaledDown int32_t 1 (⟨-5⟩ : FixedPoint int32_t 2) = Fp.fin (-1 / 2) := by
    rw [scaledDown_eq _ _ (by decide) (by decide) (by decide)]
    dsimp only
    congr 1
    have e : ((-5 : Int) : ℚ) / (((10 : Int) ^ ((2 : Int) - 1).toNat : Int) : ℚ)
        = ((-1 : Int) : ℚ) * (2 : ℚ) ^ (-1 : Int) := by norm_num
    rw [e, binary64.roundQ_eq_self (-1) (-1) (by norm_num [binary64]) (by norm_num [binary64])]
    norm_num
  have h5 : scaledDown int32_t 1 (⟨5⟩ : FixedPoint int32_t 2) = Fp.fin (1 / 2) := by
    rw [scaledDown_eq _ _ (by decide) (by decide) (by decide)]
    dsimp only
    congr 1
    have e : ((5 : Int) : ℚ) / (((10 : Int) ^ ((2 : Int) - 1).toNat : Int) : ℚ)
        = ((1 : Int) : ℚ) * (2 : ℚ) ^ (-1 : Int) := by norm_num
    rw [e, binary64.roundQ_eq_self 1 (-1) (by norm_num [binary64]) (by norm_num [binary64])]
    norm_num
  have h15 : scaledDown int32_t 1 (⟨15⟩ : FixedPoint int32_t 2) = Fp.fin (3 / 2) := by
    rw [scaledDown_eq _ _ (by decide) (by decide) (by decide)]
    dsimp only
    congr 1
    have e : ((15 : Int) : ℚ) / (((10 : Int) ^ ((2 : Int) - 1).toNat : Int) : ℚ)
        = ((3 : Int) : ℚ) * (2 : ℚ) ^ (-1 : Int) := by norm_num
    rw [e, binary64.roundQ_eq_self 3 (-1) (by norm_num [binary64]) (by norm_num [binary64])]
    norm_num
  have r32 : binary64.round (3 / 2) = Fp.fin (3 / 2) :=
    binary64.round_eq_self 3 (-1) (by norm_num) (by norm_num [binary64])
      (by norm_num [binary64]) (by norm_num [binary64, abs_of_pos])
  have t32 : truncQ (3 / 2) = 1 :=
    truncQ_eq_of_bounds (n := 1) (by decide) (by norm_num) (by norm_num)
  refine ⟨⟨?_, by decide⟩, ⟨?_, by decide⟩, ⟨?_, by decide⟩, ⟨?_, by decide⟩⟩
  · rw [getRaw_eq, addFixed, addAssignFixed_of_lt _ _ (by decide), hm5]
    dsimp only
    rw [FpFormat.ofInt_b64 (by decide), Fp.add_fin]
    have e : ((2 : Int) : ℚ) + -1 / 2 = 3 / 2 := by norm_num
    rw [e, r32, IntTy.ofFp_fin, t32]
    decide
  · rw [getRaw_eq, subFixed, subAssignFixed_of_lt _ _ (by decide), h5]
    dsimp only
    rw [FpFormat.ofInt_b64 (by decide), Fp.sub_fin]
    have e : ((2 : Int) : ℚ) - 1 / 2 = 3 / 2 := by norm_num
    rw [e, r32, IntTy.ofFp_fin, t32]
    decide
  · rw [getRaw_eq, mulFixed, mulAssignFixed_of_lt _ _ (by decide), h15]
    dsimp only
    rw [FpFormat.ofInt_b64 (by decide), Fp.mul_fin]
    have e : ((10 : Int) : ℚ) * (3 / 2) = ((15 : Int) : ℚ) := by norm_num
    rw [e, ofFp_intCast (by decide) (by decide)]
  · rw [getRaw_eq, divFixed, divAssignFixed_of_lt _ _ (by decide), h15]
    dsimp only
    rw [FpFormat.ofInt_b64 (by decide), Fp.div_fin _ _ (by norm_num)]
    have e : ((30 : Int) : ℚ) / (3 / 2) = ((20 : Int) : ℚ) := by norm_num
    rw [e, ofFp_intCast (by decide) (by decide)]

/-- A quotient of a non-zero integer by a power of ten up to `10^22` does not round
to zero. -/
theorem roundQ_div_pow_ne_zero {b : Int} {k : Nat} (hb : b ≠ 0) (hk : k ≤ 22) :
    binary64.roundQ ((b : ℚ) / (((10 : Int) ^ k : Int) : ℚ)) ≠ 0 := by
  intro h0
  have hpos : (0 : ℚ) < (((10 : Int) ^ k : Int) : ℚ) := by exact_mod_cast pow_ten_pos k
  have hle : (((10 : Int) ^ k : Int) : ℚ) ≤ (10 : ℚ) ^ (22 : Nat) := by
    exact_mod_cast pow_le_pow_right₀ (by norm_num : (1 : Int) ≤ 10) hk
  have hb1 : (1 : ℚ) ≤ |(b : ℚ)| := by exact_mod_cast Int.one_le_abs hb
  have hq : 1 / (10 : ℚ) ^ (22 : Nat) ≤ |(b : ℚ) / (((10 : Int) ^ k : Int) : ℚ)| := by
    rw [abs_div, abs_of_pos hpos]
    calc 1 / (10 : ℚ) ^ (22 : Nat) ≤ 1 / (((10 : Int) ^ k : Int) : ℚ) :=
          one_div_le_one_div_of_le hpos hle
      _ ≤ |(b : ℚ)| / (((10 : Int) ^ k : Int) : ℚ) :=
          div_le_div_of_nonneg_right hb1 (le_of_lt hpos)
  have herr := FpFormat.abs_roundQ_sub_le_b64 ((b : ℚ) / (((10 : Int) ^ k : Int) : ℚ))
  rw [h0, zero_sub, abs_neg] at herr
  set q : ℚ := |(b : ℚ) / (((10 : Int) ^ k : Int) : ℚ)| with hqd
  have h1 : q / 2 ^ (53 : Nat) ≤ q / 2 := by
    apply div_le_div_of_nonneg_left (abs_nonneg _) (by norm_num) (by norm_num)
  have h2 : (1 : ℚ) / 2 ^ (200 : Nat) < 1 / (10 : ℚ) ^ (22 : Nat) / 2 := by norm_num
  linarith

/-- The sum of an integer `a` and a value `c` that approximates the quotient `B / m` to
the accuracy of `double`, rounded to `double` and truncated, is the truncating quotient
`(a * m + B) / m`, provided `|a| * m + 2 * |B| + 2 ≤ 2^53`. -/
theorem truncQ_roundQ_add_close {a B m : Int} {c : ℚ} (hm : 0 < m) (hm22 : m ≤ 10 ^ 22)
    (hc1 : |c - (B : ℚ) / (m : ℚ)|
      ≤ |(B : ℚ) / (m : ℚ)| / 2 ^ (53 : Nat) + 1 / 2 ^ (200 : Nat))
    (hc2 : m ∣ B → c = (B : ℚ) / (m : ℚ))
    (hbound : |a| * m + 2 * |B| + 2 ≤ 2 ^ 53) :
    truncQ (binary64.roundQ ((a : ℚ) + c)) = (a * m + B).tdiv m := by
  have hmq : (0 : ℚ) < (m : ℚ) := by exact_mod_cast hm
  have hm1 : (1 : ℚ) ≤ (m : ℚ) := by exact_mod_cast (show (1 : Int) ≤ m by omega)
  have hmle : (m : ℚ) ≤ (10 : ℚ) ^ (22 : Nat) := by exact_mod_cast hm22
  have ha0 := abs_nonneg a
  have hB0 := abs_nonneg B
  have hX : (((a * m + B : Int)) : ℚ) / (m : ℚ) = (a : ℚ) + (B : ℚ) / (m : ℚ) := by
    push_cast; field_simp
  apply truncQ_eq_tdiv_of_close hm
  · rw [hX]
    have hbq : |(a : ℚ)| * (m : ℚ) + 2 * |(B : ℚ)| + 2 ≤ (2 : ℚ) ^ (53 : Nat) := by
      exact_mod_cast hbound
    have herr := FpFormat.abs_roundQ_sub_le_b64 ((a : ℚ) + c)
    set q : ℚ := |(B : ℚ) / (m : ℚ)| with hq
    have hqm : q * (m : ℚ) = |(B : ℚ)| := by
      rw [hq, abs_div, abs_of_pos hmq]; field_simp
    have hq0 : 0 ≤ q := abs_nonneg _
    have hB53 : |(B : ℚ)| ≤ (2 : ℚ) ^ (53 : Nat) := by
      have := abs_nonneg (a : ℚ)
      nlinarith
    have hcabs : |c| ≤ q + (q / 2 ^ (53 : Nat) + 1 / 2 ^ (200 : Nat)) := by
      have h1 : |c| ≤ |(B : ℚ) / (m : ℚ)| + |c - (B : ℚ) / (m : ℚ)| := by
        have := abs_add ((B : ℚ) / (m : ℚ)) (c - (B : ℚ) / (m : ℚ))
        simpa using this
      linarith
    have hsum : |(a : ℚ) + c| ≤ |(a : ℚ)| + |c| := abs_add _ _
    have htri : |binary64.roundQ ((a : ℚ) + c) - ((a : ℚ) + (B : ℚ) / (m : ℚ))|
        ≤ |binary64.roundQ ((a : ℚ) + c) - ((a : ℚ) + c)| + |c - (B : ℚ) / (m : ℚ)| := by
      have := abs_add (binary64.roundQ ((a : ℚ) + c) - ((a : ℚ) + c))
        (c - (B : ℚ) / (m : ℚ))
      have e : binary64.roundQ ((a : ℚ) + c) - ((a : ℚ) + c) + (c - (B : ℚ) / (m : ℚ))
          = binary64.roundQ ((a : ℚ) + c) - ((a : ℚ) + (B : ℚ) / (m : ℚ)) := by ring
      rw [e] at this
      exact this
    -- the total error, multiplied by `m`, is below 1
    have key : (|(a : ℚ) + c| / 2 ^ (53 : Nat) + 1 / 2 ^ (200 : Nat)
        + (q / 2 ^ (53 : Nat) + 1 / 2 ^ (200 : Nat))) * (m : ℚ) < 1 := by
      have h1 : |(a : ℚ) + c| * (m : ℚ)
          ≤ |(a : ℚ)| * (m : ℚ) + |(B : ℚ)| + |(B : ℚ)| / 2 ^ (53 : Nat)
            + (m : ℚ) / 2 ^ (200 : Nat) := by
        have h2 : |(a : ℚ) + c| * (m : ℚ)
            ≤ (|(a : ℚ)| + (q + (q / 2 ^ (53 : Nat) + 1 / 2 ^ (200 : Nat)))) * (m : ℚ) :=
          mul_le_mul_of_nonneg_right (by linarith) (le_of_lt hmq)
        have e : (|(a : ℚ)| + (q + (q / 2 ^ (53 : Nat) + 1 / 2 ^ (200 : Nat)))) * (m : ℚ)
            = |(a : ℚ)| * (m : ℚ) + q * (m : ℚ) + q * (m : ℚ) / 2 ^ (53 : Nat)
              + (m : ℚ) / 2 ^ (200 : Nat) := by ring
        rw [e, hqm] at h2
        exact h2
      have e2 : (|(a : ℚ) + c| / 2 ^ (53 : Nat) + 1 / 2 ^ (200 : Nat)
          + (q / 2 ^ (53 : Nat) + 1 / 2 ^ (200 : Nat))) * (m : ℚ)
          = (|(a : ℚ) + c| * (m : ℚ) + q * (m : ℚ)) / 2 ^ (53 : Nat)
            + 2 * (m : ℚ) / 2 ^ (200 : Nat) := by ring
      rw [e2, hqm]
      have h3 : |(B : ℚ)| / 2 ^ (53 : Nat) ≤ 1 := by
        rw [div_le_one (by positivity)]; exact hB53
      have h4 : (m : ℚ) / 2 ^ (200 : Nat) ≤ 1 / 2 ^ (120 : Nat) := by
        rw [div_le_iff₀ (by positivity)]
        refine le_trans hmle ?_
        norm_num
      have h5 : (|(a : ℚ) + c| * (m : ℚ) + |(B : ℚ)|) / 2 ^ (53 : Nat)
          ≤ ((2 : ℚ) ^ (53 : Nat) - 1 + 1 / 2 ^ (120 : Nat)) / 2 ^ (53 : Nat) := by
        apply div_le_div_of_nonneg_right _ (by positivity)
        linarith
      have h6 : ((2 : ℚ) ^ (53 : Nat) - 1 + 1 / 2 ^ (120 : Nat)) / 2 ^ (53 : Nat)
          + 2 * (1 / 2 ^ (120 : Nat)) < 1 := by norm_num
      have h7 : 2 * (m : ℚ) / 2 ^ (200 : Nat) = 2 * ((m : ℚ) / 2 ^ (200 : Nat)) := by ring
      rw [h7]
      linarith
    rw [lt_div_iff₀ hmq]
    calc |binary64.roundQ ((a : ℚ) + c) - ((a : ℚ) + (B : ℚ) / (m : ℚ))| * (m : ℚ)
        ≤ (|(a : ℚ) + c| / 2 ^ (53 : Nat) + 1 / 2 ^ (200 : Nat)
          + (q / 2 ^ (53 : Nat) + 1 / 2 ^ (200 : Nat))) * (m : ℚ) :=
          mul_le_mul_of_nonneg_right (by linarith) (le_of_lt hmq)
      _ < 1 := key
  · intro hd
    have hdB : m ∣ B := by
      have h1 : m ∣ a * m := dvd_mul_left m a
      exact (Int.dvd_add_right h1).mp hd
    obtain ⟨c0, rfl⟩ := hdB
    have hc0 : c = (c0 : ℚ) := by
      rw [hc2 (dvd_mul_right m c0)]
      push_cast; field_simp
    have hc0abs : |c0| ≤ |m * c0| := by
      rw [abs_mul, abs_of_pos hm]
      have := abs_nonneg c0
      nlinarith
    have hn : |a + c0| ≤ 2 ^ 53 := by
      have h1 := abs_add a c0
      have h2 : |a| ≤ |a| * m := by nlinarith
      omega
    rw [hX, hc0]
    have e : (((m * c0 : Int)) : ℚ) / (m : ℚ) = (c0 : ℚ) := by
      push_cast; field_simp
    rw [e, ← Int.cast_add, binary64.roundQ_intCast (a + c0) hn]

/-- C5 (amended): for `a` of type `FixedPoint<T,P>` and `b` of type `FixedPoint<Y,Z>`
with `P < Z` the right-hand raw value is divided by `10^(Z-P)` in `double` and is not
truncated: with `y` the `double` nearest to `b.getRaw() / 10^(Z-P)`, raw values of
magnitude below `2^53` and `Z - P ≤ 22`, `a OP b` has the raw value
`round_toward_zero(a.getRaw() OP y)`, where `OP` is the `double` operation (rounding to
nearest), whenever that value is representable in `T` (and `b.getRaw() != 0` for the
division); the compound forms store the same values. For `+` and `-` this is
`trunc((a.getRaw() * 10^k ± b.getRaw()) / 10^k)` with `k = Z - P`, provided
`|a.getRaw()| * 10^k + 2 * |b.getRaw()| + 2 ≤ 2^53`. -/
theorem crossType_arith_lower {T Y : IntTy} {P Z : Int} (a : FixedPoint T P)
    (b : FixedPoint Y Z) (hPZ : P < Z) (h22 : Z - P ≤ 22) (ha : |a.getRaw| < 2 ^ 53)
    (hb : |b.getRaw| < 2 ^ 53) (y : ℚ)
    (hy : y = binary64.roundQ ((b.getRaw : ℚ) / (((10 : Int) ^ (Z - P).toNat : Int) : ℚ))) :
    (T.inRange (truncQ (binary64.roundQ ((a.getRaw : ℚ) + y))) →
      (addFixed a b).getRaw = truncQ (binary64.roundQ ((a.getRaw : ℚ) + y)) ∧
      (addAssignFixed a b).getRaw = truncQ (binary64.roundQ ((a.getRaw : ℚ) + y))) ∧
    (T.inRange (truncQ (binary64.roundQ ((a.getRaw : ℚ) - y))) →
      (subFixed a b).getRaw = truncQ (binary64.roundQ ((a.getRaw : ℚ) - y)) ∧
      (subAssignFixed a b).getRaw = truncQ (binary64.roundQ ((a.getRaw : ℚ) - y))) ∧
    (T.inRange (truncQ (binary64.roundQ ((a.getRaw : ℚ) * y))) →
      (mulFixed a b).getRaw = truncQ (binary64.roundQ ((a.getRaw : ℚ) * y)) ∧
      (mulAssignFixed a b).getRaw = truncQ (binary64.roundQ ((a.getRaw : ℚ) * y))) ∧
    (b.getRaw ≠ 0 → T.inRange (truncQ (binary64.roundQ ((a.getRaw : ℚ) / y))) →
      (divFixed a b).getRaw = truncQ (binary64.roundQ ((a.getRaw : ℚ) / y)) ∧
      (divAssignFixed a b).getRaw = truncQ (binary64.roundQ ((a.getRaw : ℚ) / y))) ∧
    (|a.getRaw| * 10 ^ (Z - P).toNat + 2 * |b.getRaw| + 2 ≤ 2 ^ 53 →
      (T.inRange ((a.getRaw * 10 ^ (Z - P).toNat + b.getRaw).tdiv (10 ^ (Z - P).toNat)) →
        (addFixed a b).getRaw
          = (a.getRaw * 10 ^ (Z - P).toNat + b.getRaw).tdiv (10 ^ (Z - P).toNat)) ∧
      (T.inRange ((a.getRaw * 10 ^ (Z - P).toNat - b.getRaw).tdiv (10 ^ (Z - P).toNat)) →
        (subFixed a b).getRaw
          = (a.getRaw * 10 ^ (Z - P).toNat - b.getRaw).tdiv (10 ^ (Z - P).toNat))) := by
  unfold getRaw at *
  have hs : scaledDown T P b = Fp.fin y := by
    rw [hy]; exact scaledDown_eq T b hPZ h22 (le_of_lt hb)
  have ha' := FpFormat.ofInt_b64 (le_of_lt ha)
  have hk : (Z - P).toNat ≤ 22 := by omega
  have hm22 : (10 : Int) ^ (Z - P).toNat ≤ 10 ^ 22 := pow_le_pow_right₀ (by norm_num) hk
  have hadd : T.inRange (truncQ (binary64.roundQ ((a.value : ℚ) + y))) →
      (addAssignFixed a b).value = truncQ (binary64.roundQ ((a.value : ℚ) + y)) := by
    intro h
    rw [addAssignFixed_of_lt a b hPZ, hs, ha', Fp.add_fin,
      FpFormat.round_b64_of_abs_le (abs_le_of_truncQ_roundQ h), IntTy.ofFp_fin,
      IntTy.wrap_of_inRange h]
  have hsub : T.inRange (truncQ (binary64.roundQ ((a.value : ℚ) - y))) →
      (subAssignFixed a b).value = truncQ (binary64.roundQ ((a.value : ℚ) - y)) := by
    intro h
    rw [subAssignFixed_of_lt a b hPZ, hs, ha', Fp.sub_fin,
      FpFormat.round_b64_of_abs_le (abs_le_of_truncQ_roundQ h), IntTy.ofFp_fin,
      IntTy.wrap_of_inRange h]
  have herr := FpFormat.abs_roundQ_sub_le_b64
    ((b.value : ℚ) / (((10 : Int) ^ (Z - P).toNat : Int) : ℚ))
  rw [← hy] at herr
  have hexact : (10 : Int) ^ (Z - P).toNat ∣ b.value →
      y = (b.value : ℚ) / (((10 : Int) ^ (Z - P).toNat : Int) : ℚ) := by
    rintro ⟨c0, hc0⟩
    have hpos : (((10 : Int) ^ (Z - P).toNat : Int) : ℚ) ≠ 0 := by
      exact_mod_cast ne_of_gt (pow_ten_pos (Z - P).toNat)
    have e : (b.value : ℚ) / (((10 : Int) ^ (Z - P).toNat : Int) : ℚ) = (c0 : ℚ) := by
      rw [hc0]; push_cast; field_simp
    have hc : |c0| ≤ 2 ^ 53 := by
      have h1 : |c0| ≤ |10 ^ (Z - P).toNat * c0| := by
        rw [abs_mul, abs_of_pos (pow_ten_pos _)]
        have := abs_nonneg c0
        have := pow_ten_pos (Z - P).toNat
        nlinarith
      rw [← hc0] at h1
      omega
    rw [hy, e, binary64.roundQ_intCast c0 hc]
  refine ⟨fun h => ⟨hadd h, hadd h⟩, fun h => ⟨hsub h, hsub h⟩, fun h => ?_,
    fun hb0 h => ?_,
    fun hbound => ⟨fun h => ?_, fun h => ?_⟩⟩
  · have e : (mulAssignFixed a b).value = truncQ (binary64.roundQ ((a.value : ℚ) * y)) := by
      rw [mulAssignFixed_of_lt a b hPZ, hs, ha', Fp.mul_fin,
        FpFormat.round_b64_of_abs_le (abs_le_of_truncQ_roundQ h), IntTy.ofFp_fin,
        IntTy.wrap_of_inRange h]
    exact ⟨e, e⟩
  · have hy0 : y ≠ 0 := by rw [hy]; exact roundQ_div_pow_ne_zero hb0 hk
    have e : (divAssignFixed a b).value = truncQ (binary64.roundQ ((a.value : ℚ) / y)) := by
      rw [divAssignFixed_of_lt a b hPZ, hs, ha', Fp.div_fin _ _ hy0,
        FpFormat.round_b64_of_abs_le (abs_le_of_truncQ_roundQ h), IntTy.ofFp_fin,
        IntTy.wrap_of_inRange h]
    exact ⟨e, e⟩
  · have hc := truncQ_roundQ_add_close (a := a.value) (pow_ten_pos (Z - P).toNat) hm22
      herr hexact hbound
    show (addAssignFixed a b).value = _
    rw [hadd (by rw [hc]; exact h), hc]
  · have herr' : |(-y) - ((-b.value : Int) : ℚ) / (((10 : Int) ^ (Z - P).toNat : Int) : ℚ)|
        ≤ |((-b.value : Int) : ℚ) / (((10 : Int) ^ (Z - P).toNat : Int) : ℚ)| / 2 ^ (53 : Nat)
          + 1 / 2 ^ (200 : Nat) := by
      have e1 : (-y) - ((-b.value : Int) : ℚ) / (((10 : Int) ^ (Z - P).toNat : Int) : ℚ)
          = -(y - (b.value : ℚ) / (((10 : Int) ^ (Z - P).toNat : Int) : ℚ)) := by
        push_cast; ring
      have e2 : ((-b.value : Int) : ℚ) / (((10 : Int) ^ (Z - P).toNat : Int) : ℚ)
          = -((b.value : ℚ) / (((10 : Int) ^ (Z - P).toNat : Int) : ℚ)) := by
        push_cast; ring
      rw [e1, e2, abs_neg, abs_neg]
      exact herr
    have hexact' : (10 : Int) ^ (Z - P).toNat ∣ -b.value →
        -y = ((-b.value : Int) : ℚ) / (((10 : Int) ^ (Z - P).toNat : Int) : ℚ) := by
      intro hd
      rw [hexact ((Int.dvd_neg).mp hd)]
      push_cast; ring
    have hc := truncQ_roundQ_add_close (a := a.value) (B := -b.value)
      (pow_ten_pos (Z - P).toNat) hm22 herr' hexact' (by rw [abs_neg]; exact hbound)
    have e3 : (a.value : ℚ) + -y = (a.value : ℚ) - y := by ring
    have e4 : a.value * 10 ^ (Z - P).toNat + -b.value
        = a.value * 10 ^ (Z - P).toNat - b.value := by ring
    rw [e3, e4] at hc
    show (subAssignFixed a b).value = _
    rw [hsub (by rw [hc]; exact h), hc]

/-- Instance of the rule for a left operand at the lower precision, at precisions 1 and
2 on 32 bit signed bases: raw 15 times raw 82 is `15 * 8.2` in `double`,
122.99999999999998579, and raw 122 is stored; raw 2 plus raw -5 gives raw 1. -/
theorem crossType_arith_lower_witness :
    (1 : Int) < 2 ∧ (2 : Int) - 1 ≤ 22 ∧
    |(⟨15⟩ : FixedPoint int32_t 1).getRaw| < 2 ^ 53 ∧
    |(⟨82⟩ : FixedPoint int32_t 2).getRaw| < 2 ^ 53 ∧
    (2308094809027379 / 281474976710656 : ℚ)
      = binary64.roundQ ((((⟨82⟩ : FixedPoint int32_t 2).getRaw : Int) : ℚ)
        / (((10 : Int) ^ ((2 : Int) - 1).toNat : Int) : ℚ)) ∧
    (mulFixed (⟨15⟩ : FixedPoint int32_t 1) (⟨82⟩ : FixedPoint int32_t 2)).getRaw = 122 ∧
    (addFixed (⟨2⟩ : FixedPoint int32_t 1) (⟨-5⟩ : FixedPoint int32_t 2)).getRaw = 1 :=
  have hy : (2308094809027379 / 281474976710656 : ℚ)
      = binary64.roundQ ((((⟨82⟩ : FixedPoint int32_t 2).getRaw : Int) : ℚ)
        / (((10 : Int) ^ ((2 : Int) - 1).toNat : Int) : ℚ)) := by
    have h := binary64.roundQ_eq_of_close
      (q := (((⟨82⟩ : FixedPoint int32_t 2).getRaw : Int) : ℚ)
        / (((10 : Int) ^ ((2 : Int) - 1).toNat : Int) : ℚ))
      3 4616189618054758 (by norm_num [getRaw, abs_of_pos]) (by norm_num [getRaw, abs_of_pos])
      (by norm_num [binary64]) (by norm_num [getRaw, binary64, abs_lt])
    rw [h]; norm_num [binary64]
  have hp : truncQ (binary64.roundQ
      ((((⟨15⟩ : FixedPoint int32_t 1).getRaw : Int) : ℚ)
        * (2308094809027379 / 281474976710656))) = 122 := by
    have h := binary64.roundQ_eq_of_close
      (q := (((⟨15⟩ : FixedPoint int32_t 1).getRaw : Int) : ℚ)
        * (2308094809027379 / 281474976710656))
      6 8655355533852671 (by norm_num [getRaw, abs_of_pos]) (by norm_num [getRaw, abs_of_pos])
      (by norm_num [binary64]) (by norm_num [getRaw, binary64, abs_lt])
    rw [h]
    exact truncQ_eq_of_bounds (n := 122) (by decide) (by norm_num [binary64])
      (by norm_num [binary64])
  have hw := (crossType_arith_lower (⟨15⟩ : FixedPoint int32_t 1)
    (⟨82⟩ : FixedPoint int32_t 2) (by decide) (by decide) (by decide) (by decide) _ hy).2.2.1
    (by rw [hp]; decide)
  have hw2 := ((crossType_arith_lower (⟨2⟩ : FixedPoint int32_t 1)
    (⟨-5⟩ : FixedPoint int32_t 2) (by decide) (by decide) (by decide) (by decide) _ rfl).2.2.2.2
    (by decide)).1 (by decide)
  ⟨by decide, by decide, by decide, by decide, hy, hw.1.trans hp, hw2.trans (by decide)⟩

/-! ## Converting constructor and assignment from another precision -/

/-- C6 fails on the code: the converting constructor initialises `value` through the
conversion operator of its argument, which divides the raw value by the argument's
multiplier, so the argument is decoded to an integer and that integer is stored as the
raw value. From a `FixedPoint<int32_t,1>` with raw value 30 (the number 3.0) the
constructor of `FixedPoint<int32_t,2>` stores raw 3 (the number 0.03), neither the raw
value 30 of the claim nor the raw value 300 that the assignment operator stores for the
same operands. -/
theorem ofFixed_getRaw_decoded :
    (ofFixed int32_t 2 (⟨30⟩ : FixedPoint int32_t 1)).getRaw = 3 ∧
    int32_t.wrap (⟨30⟩ : FixedPoint int32_t 1).getRaw = 30 ∧
    (assignFixed (⟨0⟩ : FixedPoint int32_t 2) (⟨30⟩ : FixedPoint int32_t 1)).getRaw
      = 300 := by
  have hm : getPrecisionMultiplier int32_t 1 = 10 :=
    getPrecisionMultiplier_eq (by decide) (by decide)
  refine ⟨?_, by decide, ?_⟩
  · unfold getRaw ofFixed toInt arith
    simp only
    rw [hm]
    decide
  · rw [getRaw_eq, assignFixed_of_gt _ _ (by decide),
      scaledUp_eq _ _ (by decide) (by decide) (by decide), IntTy.ofFp_fin, truncQ_intCast]
    decide

/-- C7, as stated, fails: the raw value is converted to `double` and rescaled there, so
a 64 bit raw value above `2^53` is rounded. Assigning a `FixedPoint<int64_t,0>` with raw
value `2^53 + 1` to a `FixedPoint<int64_t,1>` stores 90071992547409920, not
`(2^53 + 1) * 10`; assigning a `FixedPoint<int64_t,9>` with raw value `10^17 - 1` to a
`FixedPoint<int32_t,0>` stores 100000000, not the truncated quotient 99999999. -/
theorem assignFixed_getRaw_counterexample :
    ((assignFixed (⟨0⟩ : FixedPoint int64_t 1)
        (⟨9007199254740993⟩ : FixedPoint int64_t 0)).getRaw = 90071992547409920 ∧
      (⟨9007199254740993⟩ : FixedPoint int64_t 0).getRaw * 10 ^ ((1 : Int) - 0).toNat
        = 90071992547409930 ∧
      int64_t.inRange 90071992547409930) ∧
    ((assignFixed (⟨0⟩ : FixedPoint int32_t 0)
        (⟨99999999999999999⟩ : FixedPoint int64_t 9)).getRaw = 100000000 ∧
      (⟨99999999999999999⟩ : FixedPoint int64_t 9).getRaw.tdiv (10 ^ ((9 : Int) - 0).toNat)
        = 99999999 ∧
      int32_t.inRange 99999999) := by
  have hk9 : ((9 : Int) - 0).toNat = 9 := by decide
  refine ⟨⟨?_, by norm_num [getRaw], by decide⟩,
    ⟨?_, by rw [getRaw_eq, hk9]; decide, by decide⟩⟩
  · have h10 : binary64.round 90071992547409920 = Fp.fin 90071992547409920 :=
      binary64.round_eq_self 5 54 (by norm_num) (by norm_num [binary64])
        (by norm_num [binary64]) (by norm_num [binary64, abs_of_pos])
    have hb : binary64.ofInt (9007199254740993 : Int) = Fp.fin 9007199254740992 := by
      unfold FpFormat.ofInt
      exact binary64.round_eq_of_tie 53 4503599627370496 (by norm_num) (by norm_num)
        (by norm_num [binary64]) (by norm_num [binary64]) (by norm_num [binary64])
        (by norm_num [binary64])
    rw [getRaw_eq, assignFixed_of_gt _ _ (by decide), scaledUp_def]
    dsimp only
    rw [hb, stdPow_ten (by decide) (by decide), Fp.mul_fin]
    have e : (9007199254740992 : ℚ) * (((10 : Int) ^ ((1 : Int) - 0).toNat : Int) : ℚ)
        = 90071992547409920 := by norm_num
    have e2 : (90071992547409920 : ℚ) = ((90071992547409920 : Int) : ℚ) := by norm_num
    rw [e, h10, IntTy.ofFp_fin, e2, truncQ_intCast]
    decide
  · have hb : binary64.ofInt (99999999999999999 : Int) = Fp.fin 100000000000000000 := by
      unfold FpFormat.ofInt
      exact binary64.round_eq_of_close 56 6250000000000000 (by norm_num) (by norm_num)
        (by norm_num [binary64]) (by norm_num [binary64]) (by norm_num [binary64])
        (by norm_num [binary64, abs_lt])
    rw [getRaw_eq, assignFixed_of_lt _ _ (by decide), scaledDown_def]
    dsimp only
    rw [hb, stdPow_ten (by decide) (by decide), Fp.div_fin _ _ (by norm_num)]
    have e : (100000000000000000 : ℚ) / (((10 : Int) ^ ((9 : Int) - 0).toNat : Int) : ℚ)
        = ((100000000 : Int) : ℚ) := by rw [hk9]; norm_num
    rw [e, ofFp_intCast (by decide) (by decide)]

/-- C7 (amended): assignment from a `FixedPoint<Y,Z>` to a `FixedPoint<T,P>` rescales the
raw value in `double` and does not depend on the previous value of the target: the stored
raw value is `b.getRaw() * 10^(P-Z)` when `P > Z` and that product has a magnitude below
`2^53`, `b.getRaw() / 10^(Z-P)` truncated toward zero when `P < Z` and `b.getRaw()` has a
magnitude below `2^53`, and `b.getRaw()` when `P = Z`, whenever that value is
representable in `T`. -/
theorem assignFixed_getRaw {T Y : IntTy} {P Z : Int} (a : FixedPoint T P)
    (b : FixedPoint Y Z) (h255 : |P - Z| ≤ 255) :
    (Z < P → |b.getRaw * 10 ^ (P - Z).toNat| < 2 ^ 53 →
      T.inRange (b.getRaw * 10 ^ (P - Z).toNat) →
      (assignFixed a b).getRaw = b.getRaw * 10 ^ (P - Z).toNat) ∧
    (P < Z → |b.getRaw| < 2 ^ 53 → T.inRange (b.getRaw.tdiv (10 ^ (Z - P).toNat)) →
      (assignFixed a b).getRaw = b.getRaw.tdiv (10 ^ (Z - P).toNat)) ∧
    (P = Z → T.inRange b.getRaw → (assignFixed a b).getRaw = b.getRaw) := by
  unfold getRaw at *
  rw [abs_le] at h255
  refine ⟨fun hlt hb h => ?_, fun hlt hb h => ?_, fun heq h => ?_⟩
  · rw [assignFixed_of_gt a b hlt, scaledUp_eq T b hlt (by omega) (le_of_lt hb),
      IntTy.ofFp_fin, truncQ_intCast, IntTy.wrap_of_inRange h]
  · obtain ⟨y, hy, hty⟩ := truncQ_scaledDown T b hlt (by omega) hb
    rw [assignFixed_of_lt a b hlt, hy, IntTy.ofFp_fin, hty, IntTy.wrap_of_inRange h]
  · rw [assignFixed_of_eq a b heq, IntTy.wrap_of_inRange h]

/-- Instance of the assignment rule: assigning raw 30 at precision 1 to a precision 2
value stores 300, assigning raw -37 at precision 2 to a precision 1 value stores -3, and
assigning raw 7 of a 16 bit base to a 32 bit base of the same precision stores 7. -/
theorem assignFixed_getRaw_witness :
    (|(2 : Int) - 1| ≤ 255 ∧ |(1 : Int) - 2| ≤ 255 ∧ |(1 : Int) - 1| ≤ 255) ∧
    (|(⟨30⟩ : FixedPoint int32_t 1).getRaw * 10 ^ ((2 : Int) - 1).toNat| < 2 ^ 53 ∧
      |(⟨-37⟩ : FixedPoint int32_t 2).getRaw| < 2 ^ 53) ∧
    (assignFixed (⟨999⟩ : FixedPoint int32_t 2) (⟨30⟩ : FixedPoint int32_t 1)).getRaw
      = 300 ∧
    (assignFixed (⟨999⟩ : FixedPoint int32_t 1) (⟨-37⟩ : FixedPoint int32_t 2)).getRaw
      = -3 ∧
    (assignFixed (⟨999⟩ : FixedPoint int32_t 1) (⟨7⟩ : FixedPoint int16_t 1)).getRaw = 7 :=
  ⟨⟨by decide, by decide, by decide⟩, ⟨by decide, by decide⟩,
    (assignFixed_getRaw (⟨999⟩ : FixedPoint int32_t 2) (⟨30⟩ : FixedPoint int32_t 1)
      (by decide)).1 (by decide) (by decide) (by decide),
    (assignFixed_getRaw (⟨999⟩ : FixedPoint int32_t 1) (⟨-37⟩ : FixedPoint int32_t 2)
      (by decide)).2.1 (by decide) (by decide) (by decide),
    (assignFixed_getRaw (⟨999⟩ : FixedPoint int32_t 1) (⟨7⟩ : FixedPoint int16_t 1)
      (by decide)).2.2 (by decide) (by decide)⟩

/-! ## Arithmetic with a plain integer scalar -/

theorem arith_mul_modEq (T A B : IntTy) (h : T.bits ≤ (commonTy A B).bits) (a b : Int) :
    arith (· * ·) A B a b ≡ a * b [ZMOD T.modulus] := by
  unfold arith
  exact (wrap_modEq h _).trans ((wrap_modEq h a).mul (wrap_modEq h b))

theorem scaled_modEq (T Y : IntTy) {P : Int} (hP : 0 ≤ P) (hM : T.inRange (10 ^ P.toNat))
    (s : Int) :
    arith (· * ·) Y T s (getPrecisionMultiplier T P) ≡ s * 10 ^ P.toNat [ZMOD T.modulus] := by
  rw [getPrecisionMultiplier_eq hP hM]
  exact arith_mul_modEq T Y T (le_bits_commonTy_right Y T) _ _

/-- C8: for a `FixedPoint<Base,P>` value `x` with `P ≥ 0` and an integer scalar `s`,
addition, subtraction and assignment scale the scalar by `10^P` first: with no overflow
(the multiplier `10^P` and the result are representable in Base),
`(x + s).getRaw() == x.getRaw() + s * 10^P`, `(x - s).getRaw() == x.getRaw() - s * 10^P`
(also for `+=` and `-=`) and after `x = s` the raw value is `s * 10^P`. -/
theorem scalar_add_sub_assign_getRaw {T : IntTy} {P : Int} (x : FixedPoint T P)
    (Y : IntTy) (s : Int) (hP : 0 ≤ P) (hM : T.inRange (10 ^ P.toNat)) :
    (T.inRange (x.getRaw + s * 10 ^ P.toNat) →
      (addScalar x Y s).getRaw = x.getRaw + s * 10 ^ P.toNat ∧
      (addAssignScalar x Y s).getRaw = x.getRaw + s * 10 ^ P.toNat) ∧
    (T.inRange (x.getRaw - s * 10 ^ P.toNat) →
      (subScalar x Y s).getRaw = x.getRaw - s * 10 ^ P.toNat ∧
      (subAssignScalar x Y s).getRaw = x.getRaw - s * 10 ^ P.toNat) ∧
    (T.inRange (s * 10 ^ P.toNat) → (assignScalar x Y s).getRaw = s * 10 ^ P.toNat) := by
  unfold getRaw at *
  refine ⟨fun h => ?_, fun h => ?_, fun h => ?_⟩
  · have e : (addAssignScalar x Y s).value = x.value + s * 10 ^ P.toNat := by
      unfold addAssignScalar
      simp only
      rw [arith_self_add, ← IntTy.wrap_of_inRange h]
      apply wrap_eq_of_modEq
      exact (Int.ModEq.refl _).add ((wrap_modEq (le_refl _) _).trans (scaled_modEq T Y hP hM s))
    exact ⟨e, e⟩
  · have e : (subAssignScalar x Y s).value = x.value - s * 10 ^ P.toNat := by
      unfold subAssignScalar
      simp only
      rw [← IntTy.wrap_of_inRange h]
      apply wrap_eq_of_modEq
      have hb := le_bits_commonTy_left T (commonTy Y T)
      unfold arith
      exact (wrap_modEq hb _).trans
        (((wrap_modEq hb _).sub (wrap_modEq hb _)).trans
          ((Int.ModEq.refl _).sub (scaled_modEq T Y hP hM s)))
    exact ⟨e, e⟩
  · unfold assignScalar
    simp only
    rw [← IntTy.wrap_of_inRange h]
    exact wrap_eq_of_modEq (scaled_modEq T Y hP hM s)

/-- Instance of the scalar addition, subtraction and assignment rule at a 32 bit signed
base, precision 2, raw value 150 and the scalar 3. -/
theorem scalar_add_sub_assign_getRaw_witness :
    (0 : Int) ≤ 2 ∧ int32_t.inRange (10 ^ (2 : Int).toNat) ∧
    (addScalar (⟨150⟩ : FixedPoint int32_t 2) int32_t 3).getRaw = 450 ∧
    (subScalar (⟨150⟩ : FixedPoint int32_t 2) int32_t 3).getRaw = -150 ∧
    (assignScalar (⟨150⟩ : FixedPoint int32_t 2) int32_t 3).getRaw = 300 :=
  have h := scalar_add_sub_assign_getRaw (⟨150⟩ : FixedPoint int32_t 2) int32_t 3
    (by decide) (by decide)
  ⟨by decide, by decide, (h.1 (by decide)).1, (h.2.1 (by decide)).1, h.2.2 (by decide)⟩

theorem nonneg_of_inRange_unsigned {C : IntTy} {x : Int} (hs : C.signed = false)
    (h : C.inRange x) : 0 ≤ x := by
  unfold IntTy.inRange IntTy.minVal at h
  rw [hs] at h
  simpa using h.1

/-- C9, as stated, fails for the division: the operands are first converted to their
common type. With a 32 bit signed base holding raw -6 and the unsigned 32 bit scalar 2
nothing overflows (-6, 2 and the quotient -3 are representable in their types), yet
`x / s` stores raw 2147483645 and not -3. -/
theorem scalar_div_counterexample :
    (divScalar (⟨-6⟩ : FixedPoint int32_t 1) uint32_t 2).getRaw = 2147483645 ∧
    (⟨-6⟩ : FixedPoint int32_t 1).getRaw.tdiv 2 = -3 ∧
    int32_t.inRange (⟨-6⟩ : FixedPoint int32_t 1).getRaw ∧ uint32_t.inRange 2 ∧
    int32_t.inRange (-3) := by
  decide

/-- C9 (amended): multiplication and division of a `FixedPoint<Base,P>` value `x` by an
integer scalar `s` act on the raw value without any factor `10^P`: `(x * s).getRaw() ==
x.getRaw() * s` whenever the product is representable in Base, and for `s != 0`
`(x / s).getRaw()` is the truncating quotient `x.getRaw() / s` whenever both operands
are representable in the common type the division is evaluated in and the quotient is
representable in Base; the compound forms store the same values. -/
theorem scalar_mul_div_getRaw {T : IntTy} {P : Int} (x : FixedPoint T P) (Y : IntTy)
    (s : Int) :
    (T.inRange (x.getRaw * s) →
      (mulScalar x Y s).getRaw = x.getRaw * s ∧
      (mulAssignScalar x Y s).getRaw = x.getRaw * s) ∧
    (s ≠ 0 → (commonTy T Y).inRange x.getRaw → (commonTy T Y).inRange s →
      T.inRange (x.getRaw.tdiv s) →
      (divScalar x Y s).getRaw = x.getRaw.tdiv s ∧
      (divAssignScalar x Y s).getRaw = x.getRaw.tdiv s) := by
  unfold getRaw at *
  refine ⟨fun h => ?_, fun _ hx hs h => ?_⟩
  · have e : (mulAssignScalar x Y s).value = x.value * s := by
      unfold mulAssignScalar
      simp only
      rw [arith_mul T T Y (le_bits_commonTy_left T Y), IntTy.wrap_of_inRange h]
    exact ⟨e, e⟩
  · have hq : (commonTy T Y).inRange (x.value.tdiv s) := by
      cases hsg : (commonTy T Y).signed
      · have h0 := nonneg_of_inRange_unsigned hsg hs
        exact inRange_tdiv hx h0
      · exact inRange_commonTy_left_of_signed hsg h
    have e : (divAssignScalar x Y s).value = x.value.tdiv s := by
      unfold divAssignScalar
      simp only
      rw [arith_tdiv hx hs hq, IntTy.wrap_of_inRange h]
    exact ⟨e, e⟩

/-- Instance of the scalar multiplication and division rule at a 32 bit signed base,
precision 2, raw value -150 and the scalar 4: the product is -600 and the quotient -37. -/
theorem scalar_mul_div_getRaw_witness :
    (commonTy int32_t int32_t).inRange (⟨-150⟩ : FixedPoint int32_t 2).getRaw ∧
    (commonTy int32_t int32_t).inRange 4 ∧
    (mulScalar (⟨-150⟩ : FixedPoint int32_t 2) int32_t 4).getRaw = -600 ∧
    (divScalar (⟨-150⟩ : FixedPoint int32_t 2) int32_t 4).getRaw = -37 :=
  have h := scalar_mul_div_getRaw (⟨-150⟩ : FixedPoint int32_t 2) int32_t 4
  ⟨by decide, by decide, (h.1 (by decide)).1,
    (h.2 (by decide) (by decide) (by decide) (by decide)).1⟩

/-! ## Comparison with a value of another type -/

theorem cmp_self_of_inRange (r : Int → Int → Bool) {T : IntTy} {a b : Int}
    (ha : T.inRange a) (hb : T.inRange b) : cmp r T T a b = r a b := by
  unfold cmp
  rw [commonTy_self, IntTy.wrap_of_inRange (IntTy.inRange_promote ha),
    IntTy.wrap_of_inRange (IntTy.inRange_promote hb)]

theorem cmp_ne_of_inRange {T Y : IntTy} {a b : Int} (ha : T.inRange a)
    (hb : T.inRange b) :
    cmp (fun u v => decide (u ≠ v)) T Y a b = decide (a ≠ b) := by
  unfold cmp
  by_cases h : a = b
  · subst h; simp
  · have hne : (commonTy T Y).wrap a ≠ (commonTy T Y).wrap b :=
      fun hw => h (wrap_inj_of_inRange (le_bits_commonTy_left T Y) ha hb hw)
    simp [h, hne]

/-- C10, as stated, fails: the right-hand raw value is cast to `T` before it is compared.
For `a` of type `FixedPoint<int8_t,0>` with raw value 1 and `b` of type
`FixedPoint<int32_t,0>` with raw value 257, `a == b` returns true although the raw
values 1 and 257 differ, and `a != b` returns true as well. -/
theorem crossType_compare_counterexample :
    eqFixed (⟨1⟩ : FixedPoint int8_t 0) (⟨257⟩ : FixedPoint int32_t 0) = true ∧
    decide ((⟨1⟩ : FixedPoint int8_t 0).getRaw = (⟨257⟩ : FixedPoint int32_t 0).getRaw)
      = false ∧
    neFixed (⟨1⟩ : FixedPoint int8_t 0) (⟨257⟩ : FixedPoint int32_t 0) = true := by
  refine ⟨?_, by decide, ?_⟩
  · unfold eqFixed
    rw [if_neg (by decide), if_neg (by decide)]
    decide
  · unfold neFixed
    rw [if_neg (by decide), if_neg (by decide)]
    decide

/-- C10 (amended): for `a` of type `FixedPoint<T,P>` and `b` of type `FixedPoint<Y,Z>`
let `r` be `b.getRaw() * 10^(P-Z)` if `P > Z`, `b.getRaw() / 10^(Z-P)` truncated toward
zero if `P < Z`, and `b.getRaw()` if `P == Z`. The comparison operators rescale in
`double` and cast the rescaled value to `T`; whenever `r` is representable in `T` (and
`a.getRaw()` is a value of `T`), and the rescaled product (for `P > Z`) or `b.getRaw()`
(for `P < Z`) has a magnitude below `2^53`, each of `a == b`, `a != b`, `a < b`, `a > b`,
`a <= b`, `a >= b` equals the corresponding comparison of `a.getRaw()` with `r`. -/
theorem crossType_compare {T Y : IntTy} {P Z : Int} (a : FixedPoint T P)
    (b : FixedPoint Y Z) (r : Int) (h255 : |P - Z| ≤ 255) (ha : T.inRange a.getRaw)
    (hr : T.inRange r)
    (hrule : (Z < P ∧ r = b.getRaw * 10 ^ (P - Z).toNat ∧ |r| < 2 ^ 53) ∨
      (P < Z ∧ r = b.getRaw.tdiv (10 ^ (Z - P).toNat) ∧ |b.getRaw| < 2 ^ 53) ∨
      (P = Z ∧ r = b.getRaw)) :
    eqFixed a b = decide (a.getRaw = r) ∧ neFixed a b = decide (a.getRaw ≠ r) ∧
    ltFixed a b = decide (a.getRaw < r) ∧ gtFixed a b = decide (a.getRaw > r) ∧
    leFixed a b = decide (a.getRaw ≤ r) ∧ geFixed a b = decide (a.getRaw ≥ r) := by
  unfold getRaw at *
  rw [abs_le] at h255
  rcases hrule with ⟨hlt, rfl, h53⟩ | ⟨hlt, rfl, h53⟩ | ⟨heq, rfl⟩
  · have hgt : P > Z := hlt
    have e : T.ofFp (scaledUp T P b) = b.value * 10 ^ (P - Z).toNat := by
      rw [scaledUp_eq T b hlt (by omega) (le_of_lt h53), IntTy.ofFp_fin, truncQ_intCast,
        IntTy.wrap_of_inRange hr]
    unfold eqFixed neFixed ltFixed gtFixed leFixed geFixed
    simp only [if_pos hgt, e]
    exact ⟨cmp_self_of_inRange _ ha hr, cmp_self_of_inRange _ ha hr,
      cmp_self_of_inRange _ ha hr, cmp_self_of_inRange _ ha hr,
      cmp_self_of_inRange _ ha hr, cmp_self_of_inRange _ ha hr⟩
  · have hgt : ¬ (P > Z) := by omega
    have e : T.ofFp (scaledDown T P b) = b.value.tdiv (10 ^ (Z - P).toNat) := by
      obtain ⟨y, hy, hty⟩ := truncQ_scaledDown T b hlt (by omega) h53
      rw [hy, IntTy.ofFp_fin, hty, IntTy.wrap_of_inRange hr]
    unfold eqFixed neFixed ltFixed gtFixed leFixed geFixed
    simp only [if_neg hgt, if_pos hlt, e]
    exact ⟨cmp_self_of_inRange _ ha hr, cmp_self_of_inRange _ ha hr,
      cmp_self_of_inRange _ ha hr, cmp_self_of_inRange _ ha hr,
      cmp_self_of_inRange _ ha hr, cmp_self_of_inRange _ ha hr⟩
  · have hgt : ¬ (P > Z) := by omega
    have hlt : ¬ (P < Z) := by omega
    unfold eqFixed neFixed ltFixed gtFixed leFixed geFixed getRaw
    simp only [if_neg hgt, if_neg hlt, IntTy.wrap_of_inRange hr]
    exact ⟨cmp_self_of_inRange _ ha hr, cmp_ne_of_inRange ha hr,
      cmp_self_of_inRange _ ha hr, cmp_self_of_inRange _ ha hr,
      cmp_self_of_inRange _ ha hr, cmp_self_of_inRange _ ha hr⟩

/-- Instance of the comparison rule in its three branches: raw 450 at precision 2
against raw 45 at precision 1, which rescales to 450; raw 4 at precision 1 against raw
-37 at precision 2, which rescales to -3; and raw 7 against raw 9 at the same
precision. -/
theorem crossType_compare_witness :
    (|(2 : Int) - 1| ≤ 255 ∧ |(1 : Int) - 2| ≤ 255 ∧ |(1 : Int) - 1| ≤ 255) ∧
    (int32_t.inRange (⟨450⟩ : FixedPoint int32_t 2).getRaw ∧ int32_t.inRange 450 ∧
      |(450 : Int)| < 2 ^ 53 ∧ int32_t.inRange (⟨4⟩ : FixedPoint int32_t 1).getRaw ∧
      int32_t.inRange (-3) ∧ |(⟨-37⟩ : FixedPoint int32_t 2).getRaw| < 2 ^ 53 ∧
      int32_t.inRange (⟨7⟩ : FixedPoint int32_t 1).getRaw ∧ int32_t.inRange 9) ∧
    (eqFixed (⟨450⟩ : FixedPoint int32_t 2) (⟨45⟩ : FixedPoint int32_t 1)
        = decide ((⟨450⟩ : FixedPoint int32_t 2).getRaw = 450) ∧
      ltFixed (⟨450⟩ : FixedPoint int32_t 2) (⟨45⟩ : FixedPoint int32_t 1)
        = decide ((⟨450⟩ : FixedPoint int32_t 2).getRaw < 450)) ∧
    (eqFixed (⟨4⟩ : FixedPoint int32_t 1) (⟨-37⟩ : FixedPoint int32_t 2)
        = decide ((⟨4⟩ : FixedPoint int32_t 1).getRaw = -3) ∧
      gtFixed (⟨4⟩ : FixedPoint int32_t 1) (⟨-37⟩ : FixedPoint int32_t 2)
        = decide ((⟨4⟩ : FixedPoint int32_t 1).getRaw > -3)) ∧
    (neFixed (⟨7⟩ : FixedPoint int32_t 1) (⟨9⟩ : FixedPoint int16_t 1)
        = decide ((⟨7⟩ : FixedPoint int32_t 1).getRaw ≠ 9) ∧
      leFixed (⟨7⟩ : FixedPoint int32_t 1) (⟨9⟩ : FixedPoint int16_t 1)
        = decide ((⟨7⟩ : FixedPoint int32_t 1).getRaw ≤ 9)) :=
  have h1 := crossType_compare (⟨450⟩ : FixedPoint int32_t 2) (⟨45⟩ : FixedPoint int32_t 1)
    450 (by decide) (by decide) (by decide) (Or.inl ⟨by decide, by decide, by decide⟩)
  have h2 := crossType_compare (⟨4⟩ : FixedPoint int32_t 1) (⟨-37⟩ : FixedPoint int32_t 2)
    (-3) (by decide) (by decide) (by decide)
    (Or.inr (Or.inl ⟨by decide, by decide, by decide⟩))
  have h3 := crossType_compare (⟨7⟩ : FixedPoint int32_t 1) (⟨9⟩ : FixedPoint int16_t 1)
    9 (by decide) (by decide) (by decide) (Or.inr (Or.inr ⟨by decide, by decide⟩))
  ⟨⟨by decide, by decide, by decide⟩,
    ⟨by decide, by decide, by decide, by decide, by decide, by decide, by decide, by decide⟩,
    ⟨h1.1, h1.2.2.1⟩, ⟨h2.1, h2.2.2.2.1⟩, ⟨h3.2.1, h3.2.2.2.2.1⟩⟩

/-! ## Multiplication and the represented number -/

theorem inRange_of_between {T : IntTy} {x y : Int} (hy : T.inRange y)
    (h : (0 ≤ x ∧ x ≤ y) ∨ (y ≤ x ∧ x ≤ 0)) : T.inRange x := by
  have h0 := T.minVal_nonpos
  have h1 := T.maxVal_nonneg
  unfold IntTy.inRange at hy ⊢
  rcases h with h | h <;> omega

theorem inRange_of_mul_pow {T : IntTy} {x : Int} (k : Nat) (h : T.inRange (x * 10 ^ k)) :
    T.inRange x := by
  have hp : (1 : Int) ≤ 10 ^ k := by have := pow_ten_pos k; omega
  apply inRange_of_between h
  rcases le_total 0 x with hx | hx
  · left
    refine ⟨hx, ?_⟩
    nlinarith
  · right
    refine ⟨?_, hx⟩
    nlinarith

/-- C11, as stated, fails: the raw values are multiplied without a rescale, so the
product of two constructed values carries the factor `10^P` twice. At precision 1 on a
32 bit signed base, `FixedPoint(2) * FixedPoint(3)` has raw value 600 while
`FixedPoint(6)` has raw value 60. -/
theorem mul_ofInt_counterexample :
    (mul (ofInt int32_t 1 int32_t 2) (ofInt int32_t 1 int32_t 3)).getRaw = 600 ∧
    (ofInt int32_t 1 int32_t (2 * 3)).getRaw = 60 := by
  have hm : getPrecisionMultiplier int32_t 1 = 10 :=
    getPrecisionMultiplier_eq (by decide) (by decide)
  unfold mul mulAssign getRaw ofInt
  simp only
  rw [hm]
  decide

/-- C11 (amended): for `a` and `b` of the same type `FixedPoint<Base,P>` (`P ≥ 0`, the
multiplier `10^P` representable in Base) constructed from integers `v` and `w`, the
product `a * b` has the raw value of `FixedPoint(v * w)` multiplied once more by `10^P`,
provided that product is representable in Base; it equals
`FixedPoint(v * w).getRaw()` when `P = 0`. -/
theorem mul_ofInt_getRaw (T : IntTy) (P : Int) (Y : IntTy) (v w : Int) (hP : 0 ≤ P)
    (hM : T.inRange (10 ^ P.toNat))
    (hvw : T.inRange (v * 10 ^ P.toNat * (w * 10 ^ P.toNat))) :
    (mul (ofInt T P Y v) (ofInt T P Y w)).getRaw
      = (ofInt T P Y (v * w)).getRaw * 10 ^ P.toNat ∧
    (P = 0 → (mul (ofInt T P Y v) (ofInt T P Y w)).getRaw = (ofInt T P Y (v * w)).getRaw) := by
  have val : ∀ u : Int, (ofInt T P Y u).value = T.wrap (u * 10 ^ P.toNat) := by
    intro u
    unfold ofInt
    simp only
    rw [arith_mul T Y T (le_bits_commonTy_right Y T), getPrecisionMultiplier_eq hP hM]
  have e1 : v * 10 ^ P.toNat * (w * 10 ^ P.toNat) = v * w * 10 ^ P.toNat * 10 ^ P.toNat := by
    ring
  have hprod : T.inRange (v * w * 10 ^ P.toNat) := by
    rw [e1] at hvw
    exact inRange_of_mul_pow P.toNat hvw
  have hvwr : (ofInt T P Y (v * w)).value = v * w * 10 ^ P.toNat := by
    rw [val, IntTy.wrap_of_inRange hprod]
  have key : (mul (ofInt T P Y v) (ofInt T P Y w)).getRaw
      = (ofInt T P Y (v * w)).getRaw * 10 ^ P.toNat := by
    unfold getRaw
    rw [hvwr, ← e1, ← IntTy.wrap_of_inRange hvw]
    unfold mul mulAssign
    simp only
    rw [arith_mul T T T (le_bits_commonTy_left T T)]
    apply wrap_eq_of_modEq
    rw [val, val]
    exact (wrap_modEq (le_refl _) _).mul (wrap_modEq (le_refl _) _)
  refine ⟨key, fun h0 => ?_⟩
  have hz : P.toNat = 0 := by omega
  rw [key, hz]
  simp

/-- Instance of the multiplication rule at a 32 bit signed base, precision 2 and the
integers 2 and 3: the product has raw value 60000, a hundred times the raw value 600 of
`FixedPoint(6)`. -/
theorem mul_ofInt_getRaw_witness :
    (0 : Int) ≤ 2 ∧ int32_t.inRange (10 ^ (2 : Int).toNat) ∧
    int32_t.inRange (2 * 10 ^ (2 : Int).toNat * (3 * 10 ^ (2 : Int).toNat)) ∧
    (mul (ofInt int32_t 2 int32_t 2) (ofInt int32_t 2 int32_t 3)).getRaw
      = (ofInt int32_t 2 int32_t (2 * 3)).getRaw * 10 ^ (2 : Int).toNat :=
  ⟨by decide, by decide, by decide,
    (mul_ofInt_getRaw int32_t 2 int32_t 2 3 (by decide) (by decide) (by decide)).1⟩

/-! ## The precision multiplier, `max` and the conversion to a scalar -/

theorem inRange_of_bits_32 {T : IntTy} (h : T.bits = 32) {x : Int} (h0 : 0 ≤ x)
    (h1 : x ≤ 2147483647) : T.inRange x := by
  unfold IntTy.inRange IntTy.minVal IntTy.maxVal IntTy.half IntTy.modulus
  rw [h]
  norm_num
  cases T.signed <;> simp <;> omega

/-- C12, as stated, fails: the multiplier is returned as a value of the integer base
type, so at a negative precision the conversion of `10^P < 1` gives 0. On a 32 bit signed
base at precision -1 the multiplier is 0, not `10^-1`. -/
theorem getPrecisionMultiplier_counterexample :
    getPrecisionMultiplier int32_t (-1) = 0 ∧
    ((getPrecisionMultiplier int32_t (-1) : Int) : ℚ) ≠ (10 : ℚ) ^ (-1 : Int) := by
  have h := getPrecisionMultiplier_of_neg int32_t (show (-1 : Int) < 0 by decide)
  refine ⟨h, ?_⟩
  rw [h]
  norm_num

/-- C12 (amended): for a 32 bit base, signed or unsigned, and every precision `P` in the
range 0..9, `getPrecisionMultiplier()` equals `10^P` exactly. -/
theorem getPrecisionMultiplier_exact (T : IntTy) (P : Int) (hT : T.bits = 32)
    (h0 : 0 ≤ P) (h9 : P ≤ 9) :
    ((getPrecisionMultiplier T P : Int) : ℚ) = (10 : ℚ) ^ P := by
  have hM : T.inRange (10 ^ P.toNat) := by
    apply inRange_of_bits_32 hT (le_of_lt (pow_ten_pos _))
    have hk : P.toNat ≤ 9 := by omega
    calc (10 : Int) ^ P.toNat ≤ 10 ^ 9 := pow_le_pow_right₀ (by norm_num) hk
      _ ≤ 2147483647 := by norm_num
  rw [getPrecisionMultiplier_eq h0 hM, zpow_ten_of_nonneg h0]

/-- Instance of the multiplier rule: on a 32 bit unsigned base at precision 9 the
multiplier is `10^9`. -/
theorem getPrecisionMultiplier_exact_witness :
    uint32_t.bits = 32 ∧ (0 : Int) ≤ 9 ∧ (9 : Int) ≤ 9 ∧
    ((getPrecisionMultiplier uint32_t 9 : Int) : ℚ) = (10 : ℚ) ^ (9 : Int) :=
  ⟨rfl, by decide, by decide,
    getPrecisionMultiplier_exact uint32_t 9 rfl (by decide) (by decide)⟩

/-- C13 fails on the code: `max()` divides `numeric_limits<T>::max()` by the multiplier
as integers and only then converts to `double`. For a 32 bit unsigned base at precision
1 it returns 429496729, not the exact quotient 429496729.5, and the greatest raw value
decodes to 429496729.5, a number greater than `max()`; for a 32 bit signed base it returns
214748364, not 214748364.7. -/
theorem max_integer_quotient :
    max uint32_t 1 = Fp.fin 429496729 ∧
    ((uint32_t.maxVal : Int) : ℚ) / (10 : ℚ) ^ (1 : Int) = 4294967295 / 10 ∧
    toDouble (⟨uint32_t.maxVal⟩ : FixedPoint uint32_t 1) = Fp.fin (4294967295 / 10) ∧
    Fp.lt (max uint32_t 1) (toDouble (⟨uint32_t.maxVal⟩ : FixedPoint uint32_t 1)) = true ∧
    max int32_t 1 = Fp.fin 214748364 ∧
    ((int32_t.maxVal : Int) : ℚ) / (10 : ℚ) ^ (1 : Int) = 2147483647 / 10 := by
  have hu : getPrecisionMultiplier uint32_t 1 = 10 :=
    getPrecisionMultiplier_eq (by decide) (by decide)
  have hi : getPrecisionMultiplier int32_t 1 = 10 :=
    getPrecisionMultiplier_eq (by decide) (by decide)
  have mu : arith Int.tdiv uint32_t uint32_t uint32_t.maxVal 10 = 429496729 := by decide
  have mi : arith Int.tdiv int32_t int32_t int32_t.maxVal 10 = 214748364 := by decide
  have vu : uint32_t.maxVal = 4294967295 := by decide
  have vi : int32_t.maxVal = 2147483647 := by decide
  have hmaxu : max uint32_t 1 = Fp.fin 429496729 := by
    unfold max
    rw [hu, mu, FpFormat.ofInt_b64 (by decide)]
    norm_num
  have hmaxi : max int32_t 1 = Fp.fin 214748364 := by
    unfold max
    rw [hi, mi, FpFormat.ofInt_b64 (by decide)]
    norm_num
  have hdec : toDouble (⟨uint32_t.maxVal⟩ : FixedPoint uint32_t 1)
      = Fp.fin (4294967295 / 10) := by
    rw [vu, toDouble_value (by decide) (by decide) _ (by decide)]
    dsimp only
    congr 1
    have e : ((4294967295 : Int) : ℚ) / (10 : ℚ) ^ (1 : Int)
        = ((858993459 : Int) : ℚ) * (2 : ℚ) ^ (-1 : Int) := by norm_num
    rw [e, binary64.roundQ_eq_self 858993459 (-1) (by norm_num [binary64])
      (by norm_num [binary64])]
    norm_num
  refine ⟨hmaxu, ?_, hdec, ?_, hmaxi, ?_⟩
  · rw [vu]; norm_num
  · rw [hmaxu, hdec, Fp.lt_fin, decide_eq_true_iff]
    norm_num
  · rw [vi]; norm_num

/-- C14, as stated, fails. The conversion to an integer type `Y` casts the raw value to
`Y` first and divides afterwards: a `FixedPoint<int32_t,2>` built from 127 has raw value
12700 and converts to the `int8_t` value -1, although the quotient 127 is representable
in `int8_t`. The conversion to a floating type returns the quotient rounded to that type,
not the exact quotient: raw 1 at precision 1 converts to the `double` nearest to 1/10,
raw `2^53 + 1` at precision 0 converts to the `double` `2^53`, and raw 16777217 at
precision 0 converts to the `float` 16777216. -/
theorem toInt_counterexample :
    ((ofInt int32_t 2 int32_t 127).getRaw = 12700 ∧
      toInt int8_t (ofInt int32_t 2 int32_t 127) = -1 ∧
      int8_t.wrap ((12700 : Int).tdiv (10 ^ (2 : Int).toNat)) = 127) ∧
    (toDouble (⟨1⟩ : FixedPoint int32_t 1)
        = Fp.fin (3602879701896397 / 36028797018963968) ∧
      (3602879701896397 / 36028797018963968 : ℚ) ≠ 1 / 10) ∧
    toDouble (⟨9007199254740993⟩ : FixedPoint int64_t 0) = Fp.fin 9007199254740992 ∧
    toFloat (⟨16777217⟩ : FixedPoint int32_t 0) = Fp.fin 16777216 := by
  have hm : getPrecisionMultiplier int32_t 2 = 100 :=
    getPrecisionMultiplier_eq (by decide) (by decide)
  have hv : (ofInt int32_t 2 int32_t 127).value = 12700 := by
    unfold ofInt
    simp only
    rw [hm]; decide
  refine ⟨⟨hv, ?_, by decide⟩, ⟨?_, by norm_num⟩, ?_, ?_⟩
  · unfold toInt
    rw [hv, hm]
    decide
  · rw [toDouble_value (by decide) (by decide) _ (by decide)]
    dsimp only
    congr 1
    have h := binary64.roundQ_eq_of_close (q := ((1 : Int) : ℚ) / (10 : ℚ) ^ (1 : Int))
      (-4) 7205759403792794 (by norm_num [abs_of_pos]) (by norm_num [abs_of_pos])
      (by norm_num [binary64]) (by norm_num [binary64, abs_lt])
    rw [h]; norm_num [binary64]
  · have hm0 : getPrecisionMultiplier int64_t 0 = 1 :=
      getPrecisionMultiplier_eq (by decide) (by decide)
    have hb : binary64.ofInt (9007199254740993 : Int) = Fp.fin 9007199254740992 := by
      unfold FpFormat.ofInt
      exact binary64.round_eq_of_tie 53 4503599627370496 (by norm_num) (by norm_num)
        (by norm_num [binary64]) (by norm_num [binary64]) (by norm_num [binary64])
        (by norm_num [binary64])
    unfold toDouble toFloating
    rw [hm0]
    dsimp only
    rw [hb, FpFormat.ofInt_b64 (by decide), Fp.div_fin _ _ (by norm_num)]
    have e : (9007199254740992 : ℚ) / ((1 : Int) : ℚ) = ((9007199254740992 : Int) : ℚ) := by
      norm_num
    rw [e, binary64.round_intCast _ (by norm_num [binary64])]
    norm_num
  · have hm0 : getPrecisionMultiplier int32_t 0 = 1 :=
      getPrecisionMultiplier_eq (by decide) (by decide)
    have hb : binary32.ofInt (16777217 : Int) = Fp.fin 16777216 := by
      unfold FpFormat.ofInt
      exact binary32.round_eq_of_tie 24 8388608 (by norm_num) (by norm_num)
        (by norm_num [binary32]) (by norm_num [binary32]) (by norm_num [binary32])
        (by norm_num [binary32])
    unfold toFloat toFloating
    rw [hm0]
    dsimp only
    rw [hb, binary32.ofInt_eq (by norm_num [binary32]), Fp.div_fin _ _ (by norm_num)]
    have e : (16777216 : ℚ) / ((1 : Int) : ℚ) = ((16777216 : Int) : ℚ) := by norm_num
    rw [e, binary32.round_intCast _ (by norm_num [binary32])]
    norm_num

/-- C14 (amended): for a `FixedPoint<Base,P>` value `x` with `P ≥ 0` and `10^P`
representable in Base, the conversion to a floating type `Y` returns the quotient
`x.getRaw() / 10^P` rounded to `Y`, provided the raw value and the multiplier convert to
`Y` exactly; for `Y = double` and a raw value of magnitude at most `2^53` that is the
`double` nearest to the quotient, within the relative error `2^-53`. The conversion to an
integer type `Y` casts the raw value to `Y` and then divides, so it returns
`x.getRaw() / 10^P` truncated toward zero whenever `x.getRaw()` itself is representable
in `Y`; in particular converting `FixedPoint(v)` back to `Y` returns `v` whenever
`v * 10^P` is representable in Base and in `Y`. -/
theorem conversion_to_scalar {T : IntTy} {P : Int} (x : FixedPoint T P) (hP : 0 ≤ P)
    (hM : T.inRange (10 ^ P.toNat)) :
    (∀ F : FpFormat, F.ofInt x.getRaw = Fp.fin (x.getRaw : ℚ) →
      F.ofInt (10 ^ P.toNat) = Fp.fin (((10 : Int) ^ P.toNat : Int) : ℚ) →
      toFloating F x = F.round ((x.getRaw : ℚ) / (10 : ℚ) ^ P)) ∧
    (|x.getRaw| ≤ 2 ^ 53 →
      toDouble x = Fp.fin (binary64.roundQ ((x.getRaw : ℚ) / (10 : ℚ) ^ P)) ∧
      |binary64.roundQ ((x.getRaw : ℚ) / (10 : ℚ) ^ P) - (x.getRaw : ℚ) / (10 : ℚ) ^ P|
        ≤ |(x.getRaw : ℚ) / (10 : ℚ) ^ P| / 2 ^ (53 : Nat)) ∧
    (∀ Y : IntTy, T.inRange x.getRaw → Y.inRange x.getRaw →
      toInt Y x = x.getRaw.tdiv (10 ^ P.toNat)) ∧
    (∀ (Y S : IntTy) (v : Int), T.inRange (v * 10 ^ P.toNat) →
      Y.inRange (v * 10 ^ P.toNat) → toInt Y (ofInt T P S v) = v) := by
  have hpos := pow_ten_pos P.toNat
  have hposq : (0 : ℚ) < (((10 : Int) ^ P.toNat : Int) : ℚ) := by exact_mod_cast hpos
  have hk := IntTy.exponent_le_of_inRange hM
  have hint : ∀ (Y : IntTy) (y : FixedPoint T P), T.inRange y.value → Y.inRange y.value →
      toInt Y y = y.value.tdiv (10 ^ P.toNat) := by
    intro Y y hT hY
    unfold toInt
    rw [IntTy.wrap_of_inRange hY, getPrecisionMultiplier_eq hP hM]
    have hC := inRange_commonTy_of_both hY hT
    rw [arith_tdiv hC (inRange_commonTy_right_of_nonneg hM (le_of_lt hpos))
      (inRange_tdiv hC (le_of_lt hpos))]
    exact IntTy.wrap_of_inRange (inRange_tdiv hY (le_of_lt hpos))
  refine ⟨fun F h1 h2 => ?_, fun h53 => ⟨toDouble_value hP hM x h53, ?_⟩,
    fun Y hT hY => hint Y x hT hY, fun Y S v hT hY => ?_⟩
  · unfold toFloating getRaw at *
    rw [getPrecisionMultiplier_eq hP hM, h1, h2, Fp.div_fin _ _ (ne_of_gt hposq),
      zpow_ten_of_nonneg hP]
  · unfold getRaw
    rw [zpow_ten_of_nonneg hP]
    by_cases hx0 : x.value = 0
    · rw [hx0]
      simp [FpFormat.roundQ_zero]
    · have hnorm : (2 : ℚ) ^ (1 - (binary64.emax : Int))
          ≤ |(x.value : ℚ) / (((10 : Int) ^ P.toNat : Int) : ℚ)| := by
        have h1 : (1 : ℚ) ≤ |(x.value : ℚ)| := by exact_mod_cast Int.one_le_abs hx0
        have h2 : (((10 : Int) ^ P.toNat : Int) : ℚ) ≤ (10 : ℚ) ^ (19 : Nat) := by
          exact_mod_cast pow_le_pow_right₀ (by norm_num : (1 : Int) ≤ 10) hk
        rw [abs_div, abs_of_pos hposq, le_div_iff₀ hposq]
        have h3 : (2 : ℚ) ^ (1 - (binary64.emax : Int)) ≤ 1 / (10 : ℚ) ^ (19 : Nat) := by
          have : (2 : ℚ) ^ (1 - (binary64.emax : Int)) ≤ (2 : ℚ) ^ (-(64 : Int)) :=
            zpow_le_zpow_right₀ (by norm_num) (by simp [binary64])
          refine le_trans this ?_
          rw [zpow_neg]
          norm_num
        have h4 : (2 : ℚ) ^ (1 - (binary64.emax : Int)) * (((10 : Int) ^ P.toNat : Int) : ℚ)
            ≤ 1 / (10 : ℚ) ^ (19 : Nat) * (10 : ℚ) ^ (19 : Nat) :=
          mul_le_mul h3 h2 (le_of_lt hposq) (by positivity)
        have h5 : (1 : ℚ) / (10 : ℚ) ^ (19 : Nat) * (10 : ℚ) ^ (19 : Nat) = 1 := by norm_num
        linarith
      have h := binary64.abs_roundQ_sub_le_of_normal hnorm
      have e : (2 : ℚ) ^ (-(binary64.prec : Int)) = 1 / 2 ^ (53 : Nat) := by
        norm_num [binary64]
      rw [e] at h
      rw [div_eq_mul_one_div (|(x.value : ℚ) / (((10 : Int) ^ P.toNat : Int) : ℚ)|)]
      exact h
  · have hv : (ofInt T P S v).value = v * 10 ^ P.toNat := by
      rw [ofInt_value_of_inRange hP hM, IntTy.wrap_of_inRange hT]
    rw [hint Y (ofInt T P S v) (by rw [hv]; exact hT) (by rw [hv]; exact hY), hv]
    exact Int.mul_tdiv_cancel v (ne_of_gt hpos)

/-- Instance of the conversion rule: a `FixedPoint<int32_t,2>` with raw value -12345
converts to the `double` nearest to -123.45 and to the `int16_t` value -123, and
`FixedPoint<int32_t,2>(127)` converts back to the `int16_t` value 127. -/
theorem conversion_to_scalar_witness :
    (0 : Int) ≤ 2 ∧ int32_t.inRange (10 ^ (2 : Int).toNat) ∧
    |(⟨-12345⟩ : FixedPoint int32_t 2).getRaw| ≤ 2 ^ 53 ∧
    toDouble (⟨-12345⟩ : FixedPoint int32_t 2)
      = Fp.fin (binary64.roundQ
        ((((⟨-12345⟩ : FixedPoint int32_t 2).getRaw : Int) : ℚ) / (10 : ℚ) ^ (2 : Int))) ∧
    toInt int16_t (⟨-12345⟩ : FixedPoint int32_t 2) = -123 ∧
    toInt int16_t (ofInt int32_t 2 int32_t 127) = 127 :=
  have h := conversion_to_scalar (⟨-12345⟩ : FixedPoint int32_t 2) (by decide) (by decide)
  ⟨by decide, by decide, by decide, (h.2.1 (by decide)).1,
    h.2.2.1 int16_t (by decide) (by decide),
    h.2.2.2 int16_t int32_t 127 (by decide) (by decide)⟩

end FixedPoint

/-! ## Loops over the slots of a set -/

theorem forLoop_update_apply {α : Type} {n : Nat} (f : Fin n → α → α) (s : Fin n → α)
    (k : Nat) (hk : k ≤ n) (t : Fin n) :
    forLoop (fun i (u : Fin n → α) => Function.update u i (f i (u i))) k hk s t
      = if t.val < k then f t (s t) else s t := by
  induction k with
  | zero => simp [forLoop]
  | succ k ih =>
    have ihk := ih (Nat.le_of_succ_le hk)
    simp only [forLoop]
    by_cases htk : t = ⟨k, hk⟩
    · subst htk
      simp only [Function.update_same]
      have h1 : forLoop (fun i (u : Fin n → α) => Function.update u i (f i (u i))) k
          (Nat.le_of_succ_le hk) s ⟨k, hk⟩ = s ⟨k, hk⟩ := by
        rw [ih (Nat.le_of_succ_le hk)]; simp
      rw [h1]; simp
    · rw [Function.update_noteq htk, ihk]
      have hne : t.val ≠ k := fun h => htk (Fin.ext h)
      by_cases hlt : t.val < k
      · have : t.val < k + 1 := by omega
        simp [hlt, this]
      · have : ¬ t.val < k + 1 := by omega
        simp [hlt, this]

theorem forLoop_update_full {α : Type} {n : Nat} (f : Fin n → α → α) (s : Fin n → α)
    (t : Fin n) :
    forLoop (fun i (u : Fin n → α) => Function.update u i (f i (u i))) n (le_refl n) s t
      = f t (s t) := by
  rw [forLoop_update_apply, if_pos t.isLt]

namespace EnumeratedScalarSet

variable {T Y : ScalarTy} {NumValues : Nat}

theorem index_compoundSet (op : BinOp) (a : EnumeratedScalarSet T NumValues)
    (b : EnumeratedScalarSet Y NumValues) (t : Fin NumValues) :
    (compoundSet op a b).index t = ScalarTy.compound op T Y (a.index t) (b.index t) := by
  unfold compoundSet index
  exact forLoop_update_full (fun i v => ScalarTy.compound op T Y v (b.stats i)) a.stats t

theorem index_compoundScalar (op : BinOp) (a : EnumeratedScalarSet T NumValues)
    (Y : ScalarTy) (s : Y.Val) (t : Fin NumValues) :
    (compoundScalar op a Y s).index t = ScalarTy.compound op T Y (a.index t) s := by
  unfold compoundScalar index
  exact forLoop_update_full (fun _ v => ScalarTy.compound op T Y v s) a.stats t

theorem ofInt_b32 {n : Int} (h : |n| ≤ 2 ^ 24) : binary32.ofInt n = Fp.fin (n : ℚ) :=
  binary32.ofInt_eq h

theorem ofInt_b32_tie : binary32.ofInt (16777217 : Int) = Fp.fin 16777216 := by
  unfold FpFormat.ofInt
  exact binary32.round_eq_of_tie 24 8388608 (by norm_num) (by norm_num)
    (by norm_num [binary32]) (by norm_num [binary32]) (by norm_num [binary32])
    (by norm_num [binary32])

theorem compound_mul_int_float {A : IntTy} (x : Int) (q x1 p : ℚ) (r : Int)
    (hx : binary32.ofInt x = Fp.fin x1) (h : binary32.round (x1 * q) = Fp.fin p)
    (hp : truncQ p = r) (hr : A.inRange r) :
    ScalarTy.compound BinOp.mul (ScalarTy.int A) ScalarTy.float x (Fp.fin q) = r := by
  unfold ScalarTy.compound ScalarTy.binop ScalarTy.convert ScalarTy.common BinOp.onFloat
  simp only
  rw [hx, Fp.mul_fin, h, IntTy.ofFp_fin, hp]
  exact IntTy.wrap_of_inRange hr

theorem compound_mul_tie :
    ScalarTy.compound BinOp.mul (ScalarTy.int int32_t) ScalarTy.float (16777217 : Int)
      (Fp.fin 1) = (16777216 : Int) :=
  compound_mul_int_float 16777217 1 16777216 16777216 16777216 ofInt_b32_tie
    (by
      have e : (16777216 : ℚ) * 1 = ((16777216 : Int) : ℚ) := by norm_num
      rw [e, binary32.round_intCast _ (by norm_num [binary32])]
      norm_num)
    (by exact_mod_cast truncQ_intCast 16777216) (by decide)

theorem round_b32_mul_half : binary32.round (3 * (5 / 2)) = Fp.fin (15 / 2) := by
  have e : (3 : ℚ) * (5 / 2) = 15 / 2 := by norm_num
  rw [e]
  exact binary32.round_eq_self 15 (-1) (by norm_num) (by norm_num [binary32])
    (by norm_num [binary32]) (by norm_num [binary32, abs_of_pos])

theorem compound_mul_half :
    ScalarTy.compound BinOp.mul (ScalarTy.int int32_t) ScalarTy.float (3 : Int)
      (Fp.fin (5 / 2)) = (7 : Int) :=
  compound_mul_int_float 3 (5 / 2) 3 (15 / 2) 7
    (by exact_mod_cast ofInt_b32 (n := 3) (by decide))
    round_b32_mul_half
    (by
      have e : (15 / 2 : ℚ) = ((15 : Int) : ℚ) / ((2 : Int) : ℚ) := by norm_num
      rw [e, truncQ_div]
      decide)
    (by decide)

/-! ## Element-wise arithmetic -/

/-- C15: for two sets `a` and `b` over the same tag and count and every tag value `t`,
slot `t` of `a OP b` is `a[t] OP b[t]`, evaluated in the common type of the two scalar
types and converted to the scalar type of the left operand, for `OP` in `+ - *` and,
with every divisor slot non-zero, for `/`; the compound forms `+= -= *= /=` leave the
same values in `a`. -/
theorem setArith_index (a : EnumeratedScalarSet T NumValues)
    (b : EnumeratedScalarSet Y NumValues) (t : Fin NumValues) :
    ((add a b).index t = ScalarTy.convert (ScalarTy.common T Y) T
        (ScalarTy.binop BinOp.add T Y (a.index t) (b.index t)) ∧
      (addAssign a b).index t = (add a b).index t) ∧
    ((sub a b).index t = ScalarTy.convert (ScalarTy.common T Y) T
        (ScalarTy.binop BinOp.sub T Y (a.index t) (b.index t)) ∧
      (subAssign a b).index t = (sub a b).index t) ∧
    ((mul a b).index t = ScalarTy.convert (ScalarTy.common T Y) T
        (ScalarTy.binop BinOp.mul T Y (a.index t) (b.index t)) ∧
      (mulAssign a b).index t = (mul a b).index t) ∧
    ((∀ i : Fin NumValues, b.index i ≠ Y.zero) →
      (div a b).index t = ScalarTy.convert (ScalarTy.common T Y) T
        (ScalarTy.binop BinOp.div T Y (a.index t) (b.index t)) ∧
      (divAssign a b).index t = (div a b).index t) := by
  refine ⟨⟨?_, rfl⟩, ⟨?_, rfl⟩, ⟨?_, rfl⟩, fun _ => ⟨?_, rfl⟩⟩
  · exact index_compoundSet BinOp.add a b t
  · exact index_compoundSet BinOp.sub a b t
  · exact index_compoundSet BinOp.mul a b t
  · exact index_compoundSet BinOp.div a b t

/-- Instance of the element-wise rule on two `int32_t` sets of two slots, `a = (7, -9)`
and `b = (2, 4)`: the second slot of `a + b`, `a - b`, `a * b` and `a / b` is -5, -13, -36
and -2. For the `int32_t` set `c = (16777217, 3)` and the `float` set `d = (1.0, 2.5)`
the slots of `c * d` are 16777216 and 7: a slot of `c` is converted to `float`, which
rounds it, before the multiplication, and the product is truncated when it is stored. -/
theorem setArith_index_witness :
    (∀ i : Fin 2, (⟨![2, 4]⟩ : EnumeratedScalarSet (ScalarTy.int int32_t) 2).index i
      ≠ (ScalarTy.int int32_t).zero) ∧
    (add (⟨![7, -9]⟩ : EnumeratedScalarSet (ScalarTy.int int32_t) 2)
      (⟨![2, 4]⟩ : EnumeratedScalarSet (ScalarTy.int int32_t) 2)).index 1 = (-5 : Int) ∧
    (sub (⟨![7, -9]⟩ : EnumeratedScalarSet (ScalarTy.int int32_t) 2)
      (⟨![2, 4]⟩ : EnumeratedScalarSet (ScalarTy.int int32_t) 2)).index 1 = (-13 : Int) ∧
    (mul (⟨![7, -9]⟩ : EnumeratedScalarSet (ScalarTy.int int32_t) 2)
      (⟨![2, 4]⟩ : EnumeratedScalarSet (ScalarTy.int int32_t) 2)).index 1 = (-36 : Int) ∧
    (div (⟨![7, -9]⟩ : EnumeratedScalarSet (ScalarTy.int int32_t) 2)
      (⟨![2, 4]⟩ : EnumeratedScalarSet (ScalarTy.int int32_t) 2)).index 1 = (-2 : Int) ∧
    (mul (⟨![16777217, 3]⟩ : EnumeratedScalarSet (ScalarTy.int int32_t) 2)
      (⟨![Fp.fin 1, Fp.fin (5 / 2)]⟩ : EnumeratedScalarSet ScalarTy.float 2)).index 0
        = (16777216 : Int) ∧
    (mul (⟨![16777217, 3]⟩ : EnumeratedScalarSet (ScalarTy.int int32_t) 2)
      (⟨![Fp.fin 1, Fp.fin (5 / 2)]⟩ : EnumeratedScalarSet ScalarTy.float 2)).index 1
        = (7 : Int) :=
  have hb : ∀ i : Fin 2, (⟨![2, 4]⟩ : EnumeratedScalarSet (ScalarTy.int int32_t) 2).index i
      ≠ (ScalarTy.int int32_t).zero := by
    intro i; fin_cases i <;> decide
  have h := setArith_index (⟨![7, -9]⟩ : EnumeratedScalarSet (ScalarTy.int int32_t) 2)
    (⟨![2, 4]⟩ : EnumeratedScalarSet (ScalarTy.int int32_t) 2) 1
  have h0 := setArith_index
    (⟨![16777217, 3]⟩ : EnumeratedScalarSet (ScalarTy.int int32_t) 2)
    (⟨![Fp.fin 1, Fp.fin (5 / 2)]⟩ : EnumeratedScalarSet ScalarTy.float 2) 0
  have h1 := setArith_index
    (⟨![16777217, 3]⟩ : EnumeratedScalarSet (ScalarTy.int int32_t) 2)
    (⟨![Fp.fin 1, Fp.fin (5 / 2)]⟩ : EnumeratedScalarSet ScalarTy.float 2) 1
  ⟨hb, h.1.1.trans (by decide), h.2.1.1.trans (by decide), h.2.2.1.1.trans (by decide),
    (h.2.2.2 hb).1.trans (by decide), h0.2.2.1.1.trans compound_mul_tie,
    h1.2.2.1.1.trans compound_mul_half⟩

/-- C16, as stated, fails: the value `a[t] OP s` is converted to the scalar type of the
set when it is stored. For the `int32_t` set `a = (3, 4)` and the floating scalar 2.5 the
first slot of `a * s` is 7, while `a[0] * s` is 7.5, and the two compare unequal. -/
theorem scalarArith_counterexample :
    (mulScalar (⟨![3, 4]⟩ : EnumeratedScalarSet (ScalarTy.int int32_t) 2)
      ScalarTy.float (Fp.fin (5 / 2))).index 0 = (7 : Int) ∧
    ScalarTy.binop BinOp.mul (ScalarTy.int int32_t) ScalarTy.float
      ((⟨![3, 4]⟩ : EnumeratedScalarSet (ScalarTy.int int32_t) 2).index 0) (Fp.fin (5 / 2))
      = Fp.fin (15 / 2) ∧
    ScalarTy.ne (ScalarTy.int int32_t) ScalarTy.float (7 : Int) (Fp.fin (15 / 2)) = true := by
  have h3 : binary32.ofInt (3 : Int) = Fp.fin 3 := by
    exact_mod_cast ofInt_b32 (n := 3) (by decide)
  have h7 : binary32.ofInt (7 : Int) = Fp.fin 7 := by
    exact_mod_cast ofInt_b32 (n := 7) (by decide)
  refine ⟨?_, ?_, ?_⟩
  · unfold mulScalar mulAssignScalar
    rw [index_compoundScalar]
    exact compound_mul_half
  · unfold ScalarTy.binop BinOp.onFloat index
    simp only [Matrix.cons_val_zero]
    rw [h3, Fp.mul_fin]
    exact round_b32_mul_half
  · unfold ScalarTy.ne
    simp only
    rw [h7]
    unfold Fp.ne Fp.eq
    simp only
    norm_num

/-- C16 (amended): for a set `a`, a scalar `s` and every tag value `t`, slot `t` of
`a OP s` is `a[t] OP s`, evaluated in the common type of the two scalar types and
converted to the scalar type of the set, for `OP` in `+ - *` and, with `s` non-zero, for
`/`; the compound forms `+= -= *= /=` leave the same values in `a`. -/
theorem scalarArith_index (a : EnumeratedScalarSet T NumValues) (Y : ScalarTy)
    (s : Y.Val) (t : Fin NumValues) :
    ((addScalar a Y s).index t = ScalarTy.convert (ScalarTy.common T Y) T
        (ScalarTy.binop BinOp.add T Y (a.index t) s) ∧
      (addAssignScalar a Y s).index t = (addScalar a Y s).index t) ∧
    ((subScalar a Y s).index t = ScalarTy.convert (ScalarTy.common T Y) T
        (ScalarTy.binop BinOp.sub T Y (a.index t) s) ∧
      (subAssignScalar a Y s).index t = (subScalar a Y s).index t) ∧
    ((mulScalar a Y s).index t = ScalarTy.convert (ScalarTy.common T Y) T
        (ScalarTy.binop BinOp.mul T Y (a.index t) s) ∧
      (mulAssignScalar a Y s).index t = (mulScalar a Y s).index t) ∧
    (s ≠ Y.zero →
      (divScalar a Y s).index t = ScalarTy.convert (ScalarTy.common T Y) T
        (ScalarTy.binop BinOp.div T Y (a.index t) s) ∧
      (divAssignScalar a Y s).index t = (divScalar a Y s).index t) := by
  refine ⟨⟨?_, rfl⟩, ⟨?_, rfl⟩, ⟨?_, rfl⟩, fun _ => ⟨?_, rfl⟩⟩
  · exact index_compoundScalar BinOp.add a Y s t
  · exact index_compoundScalar BinOp.sub a Y s t
  · exact index_compoundScalar BinOp.mul a Y s t
  · exact index_compoundScalar BinOp.div a Y s t

/-- Instance of the scalar rule on the `int32_t` set `a = (7, -9)` and the `int32_t`
scalar 2: the second slot of `a + 2`, `a - 2`, `a * 2` and `a / 2` is -7, -11, -18
and -4. For the `int32_t` set `c = (16777217, 3)` and the `float` scalar 1.0 the first
slot of `c * 1.0f` is 16777216, the slot being rounded when it is converted to `float`. -/
theorem scalarArith_index_witness :
    (2 : Int) ≠ (ScalarTy.int int32_t).zero ∧
    (addScalar (⟨![7, -9]⟩ : EnumeratedScalarSet (ScalarTy.int int32_t) 2)
      (ScalarTy.int int32_t) (2 : Int)).index 1 = (-7 : Int) ∧
    (subScalar (⟨![7, -9]⟩ : EnumeratedScalarSet (ScalarTy.int int32_t) 2)
      (ScalarTy.int int32_t) (2 : Int)).index 1 = (-11 : Int) ∧
    (mulScalar (⟨![7, -9]⟩ : EnumeratedScalarSet (ScalarTy.int int32_t) 2)
      (ScalarTy.int int32_t) (2 : Int)).index 1 = (-18 : Int) ∧
    (divScalar (⟨![7, -9]⟩ : EnumeratedScalarSet (ScalarTy.int int32_t) 2)
      (ScalarTy.int int32_t) (2 : Int)).index 1 = (-4 : Int) ∧
    (mulScalar (⟨![16777217, 3]⟩ : EnumeratedScalarSet (ScalarTy.int int32_t) 2)
      ScalarTy.float (Fp.fin 1)).index 0 = (16777216 : Int) :=
  have h := scalarArith_index (⟨![7, -9]⟩ : EnumeratedScalarSet (ScalarTy.int int32_t) 2)
    (ScalarTy.int int32_t) (2 : Int) 1
  have h0 := scalarArith_index
    (⟨![16777217, 3]⟩ : EnumeratedScalarSet (ScalarTy.int int32_t) 2)
    ScalarTy.float (Fp.fin 1) 0
  ⟨by decide, h.1.1.trans (by decide), h.2.1.1.trans (by decide),
    h.2.2.1.1.trans (by decide), (h.2.2.2 (by decide)).1.trans (by decide),
    h0.2.2.1.1.trans compound_mul_tie⟩

/-! ## Construction and slot access -/

theorem forLoop_fill_apply {α : Type} {n : Nat} (v : α) (s : Fin n → α) (t : Fin n) :
    forLoop (fun i (u : Fin n → α) => Function.update u i v) n (le_refl n) s t = v :=
  forLoop_update_full (fun _ _ => v) s t

theorem index_ofInitial (T : ScalarTy) (NumValues : Nat) (v : T.Val) (t : Fin NumValues) :
    (ofInitial T NumValues v).index t = v := by
  unfold ofInitial index
  exact forLoop_fill_apply v _ t

theorem index_assignAt (x : EnumeratedScalarSet T NumValues) (r t : Fin NumValues)
    (v : T.Val) : (x.assignAt r v).index t = if t = r then v else x.index t := by
  unfold assignAt index
  by_cases h : t = r
  · subst h; simp
  · simp [h]

end EnumeratedScalarSet

namespace Demo

open EnumeratedScalarSet

/-! ## The demonstration scenario -/

theorem multiplier_index (t : Fin cNumSpecial) :
    multiplier.index t
      = if t = Special.Charisma.toIndex then Fp.fin (5 / 2) else Fp.fin 1 := by
  unfold multiplier
  rw [index_assignAt, index_ofInitial]

theorem result_index (t : Fin cNumSpecial) (x r : Int) (q : ℚ)
    (hx : (add (add base perks) modifiers).index t = x)
    (hq : multiplier.index t = Fp.fin q) (hx24 : |x| ≤ 2 ^ 24) (hr24 : |r| ≤ 2 ^ 24)
    (h : ((x : Int) : ℚ) * q = ((r : Int) : ℚ)) (hr : int8_t.inRange r) :
    result.index t = r := by
  unfold result mul mulAssign
  rw [index_compoundSet, hx, hq]
  exact compound_mul_int_float x q x r r (ofInt_b32 hx24)
    (by rw [h]; exact binary32.round_intCast r hr24) (truncQ_intCast r) hr

/-- C17: in the demonstration scenario (base all 5 except Intelligence 8 and Charisma 2,
perks all 0 except Perception -2 and Strength 1, modifiers all 0 except Luck 4, all
`int8_t` sets over the seven members of `Special`, and a `float` multiplier of all 1.0
except Charisma 2.5) the set `(base + perks + modifiers) * multiplier` has Strength 6,
Perception 3, Endurance 5, Charisma 5, Intelligence 8, Agility 5 and Luck 9. -/
theorem demo_result :
    result.index Special.Strength.toIndex = (6 : Int) ∧
    result.index Special.Perception.toIndex = (3 : Int) ∧
    result.index Special.Endurance.toIndex = (5 : Int) ∧
    result.index Special.Charisma.toIndex = (5 : Int) ∧
    result.index Special.Intelligence.toIndex = (8 : Int) ∧
    result.index Special.Agility.toIndex = (5 : Int) ∧
    result.index Special.Luck.toIndex = (9 : Int) := by
  refine ⟨?_, ?_, ?_, ?_, ?_, ?_, ?_⟩
  · exact result_index _ 6 6 1 (by decide) (by rw [multiplier_index]; decide)
      (by decide) (by decide) (by norm_num) (by decide)
  · exact result_index _ 3 3 1 (by decide) (by rw [multiplier_index]; decide)
      (by decide) (by decide) (by norm_num) (by decide)
  · exact result_index _ 5 5 1 (by decide) (by rw [multiplier_index]; decide)
      (by decide) (by decide) (by norm_num) (by decide)
  · exact result_index _ 2 5 (5 / 2) (by decide) (by rw [multiplier_index, if_pos rfl])
      (by decide) (by decide) (by norm_num) (by decide)
  · exact result_index _ 8 8 1 (by decide) (by rw [multiplier_index]; decide)
      (by decide) (by decide) (by norm_num) (by decide)
  · exact result_index _ 5 5 1 (by decide) (by rw [multiplier_index]; decide)
      (by decide) (by decide) (by norm_num) (by decide)
  · exact result_index _ 9 9 1 (by decide) (by rw [multiplier_index]; decide)
      (by decide) (by decide) (by norm_num) (by decide)

end Demo

/-! ## Comparison of scalars and of sets -/

theorem IntTy.eq_of_fields {a b : IntTy} (hb : a.bits = b.bits) (hs : a.signed = b.signed) :
    a = b := by
  cases a; cases b
  simp only at hb hs
  subst hb; subst hs
  rfl

theorem commonTy_comm (A B : IntTy) : commonTy A B = commonTy B A := by
  unfold commonTy
  simp only
  generalize A.promote = a
  generalize B.promote = b
  cases hsa : a.signed <;> cases hsb : b.signed <;>
    simp only [reduceCtorEq, if_true, if_false, Bool.false_eq_true] <;>
    split_ifs with h1 h2 <;>
    first
      | rfl
      | exact IntTy.eq_of_fields (by omega) (by rw [hsa, hsb])

namespace Fp

theorem eq_swap (x y : Fp) : eq x y = eq y x := by
  cases x <;> cases y <;> simp [eq, eq_comm]

theorem eq_self_of_not_isNaN {x : Fp} (h : isNaN x = false) : eq x x = true := by
  cases x <;> simp_all [eq, isNaN]

theorem ofInt_ne_nan (F : FpFormat) (n : Int) : F.ofInt n ≠ nan := by
  unfold FpFormat.ofInt FpFormat.round
  split_ifs <;> simp

end Fp

namespace ScalarTy

theorem ne_eq_false_iff (A B : ScalarTy) (x : A.Val) (y : B.Val) :
    ne A B x y = false
      ↔ eqv (common A B) (convert A (common A B) x) (convert B (common A B) y) = true := by
  cases A <;> cases B <;> simp [ne, eqv, convert, common, cmp, Fp.ne]

theorem ne_self (A : ScalarTy) (x : A.Val) (h : A.isNaN x = false) : ne A A x x = false := by
  cases A
  · simp [ne, cmp]
  · simp only [ne, Fp.ne]
    rw [Fp.eq_self_of_not_isNaN h]
    rfl

theorem ne_swap (A B : ScalarTy) (x : A.Val) (y : B.Val) : ne A B x y = ne B A y x := by
  cases A <;> cases B
  · simp only [ne, cmp]
    rw [commonTy_comm]
    simp only [ne_comm]
  · simp only [ne, Fp.ne, Fp.eq_swap]
  · simp only [ne, Fp.ne, Fp.eq_swap]
  · simp only [ne, Fp.ne, Fp.eq_swap]

end ScalarTy

/-- The loop of `operator==` has returned nothing after `k` iterations exactly when none
of the first `k` slots differs. -/
theorem eqLoop_eq_none_iff {n : Nat} (p : Fin n → Bool) (k : Nat) (hk : k ≤ n) :
    forLoop (fun i (r : Option Bool) =>
        match r with
        | some b => some b
        | none => if p i then some false else none) k hk none = none
      ↔ ∀ i : Fin n, i.val < k → p i = false := by
  induction k with
  | zero => simp [forLoop]
  | succ k ih =>
    have ihk := ih (Nat.le_of_succ_le hk)
    simp only [forLoop]
    constructor
    · intro h i hi
      cases hl : forLoop (fun i (r : Option Bool) =>
          match r with
          | some b => some b
          | none => if p i then some false else none) k (Nat.le_of_succ_le hk) none with
      | some b => rw [hl] at h; simp at h
      | none =>
        rw [hl] at h
        by_cases hik : i.val < k
        · exact ihk.mp hl i hik
        · have hik2 : i = ⟨k, hk⟩ := Fin.ext (by simp; omega)
          subst hik2
          cases hp : p ⟨k, hk⟩
          · rfl
          · simp [hp] at h
    · intro h
      have hl := ihk.mpr (fun i hi => h i (by omega))
      rw [hl]
      have hp := h ⟨k, hk⟩ (by simp)
      simp [hp]

/-- The loop of `operator==` never returns `true`. -/
theorem eqLoop_ne_some_true {n : Nat} (p : Fin n → Bool) (k : Nat) (hk : k ≤ n) :
    forLoop (fun i (r : Option Bool) =>
        match r with
        | some b => some b
        | none => if p i then some false else none) k hk none ≠ some true := by
  induction k with
  | zero => simp [forLoop]
  | succ k ih =>
    have ihk := ih (Nat.le_of_succ_le hk)
    simp only [forLoop]
    cases hl : forLoop (fun i (r : Option Bool) =>
        match r with
        | some b => some b
        | none => if p i then some false else none) k (Nat.le_of_succ_le hk) none with
    | some b =>
      rw [hl] at ihk
      simpa using ihk
    | none =>
      cases hp : p ⟨k, hk⟩ <;> simp [hp]

namespace EnumeratedScalarSet

variable {T Y : ScalarTy} {NumValues : Nat}

theorem eq_eq_true_iff (a : EnumeratedScalarSet T NumValues)
    (b : EnumeratedScalarSet Y NumValues) :
    eq a b = true ↔ ∀ t : Fin NumValues, ScalarTy.ne T Y (a.index t) (b.index t) = false := by
  have hnone := eqLoop_eq_none_iff (fun i => ScalarTy.ne T Y (a.stats i) (b.index i))
    NumValues (le_refl _)
  have htrue := eqLoop_ne_some_true (fun i => ScalarTy.ne T Y (a.stats i) (b.index i))
    NumValues (le_refl _)
  unfold eq
  cases hl : forLoop (fun i (r : Option Bool) =>
      match r with
      | some b => some b
      | none => if ScalarTy.ne T Y (a.stats i) (b.index i) then some false else none)
    NumValues (le_refl _) none with
  | some r =>
    rw [hl] at hnone htrue
    have hr : r = false := by
      cases r
      · rfl
      · exact absurd rfl htrue
    subst hr
    simp only [Bool.false_eq_true, false_iff]
    intro hall
    have := hnone.mpr (fun i _ => hall i)
    simp at this
  | none =>
    rw [hl] at hnone
    simp only [true_iff]
    intro t
    exact hnone.mp rfl t t.isLt

/-- The default constructed `float` set divided by the scalar 0.0 holds NaN in every
slot. -/
theorem index_divScalar_zero (n : Nat) (t : Fin n) :
    (divScalar (ofDefault ScalarTy.float n) ScalarTy.float (Fp.fin 0)).index t = Fp.nan := by
  unfold divScalar divAssignScalar ofDefault
  rw [index_compoundScalar, index_ofInitial]
  simp [ScalarTy.compound, ScalarTy.binop, ScalarTy.convert, BinOp.onFloat, Fp.div,
    ScalarTy.zero, ScalarTy.common]

/-- C18: for sets `a` and `b` over the same tag and count, of the same or of different
scalar types, `a == b` returns true if and only if for every tag value `t` the slots
`a[t]` and `b[t]`, converted to the common type by the usual arithmetic conversions (an
integer slot compared with a `float` slot is rounded to `float`), compare equal with
`==`, and `a != b` returns the negation of `a == b`. -/
theorem setEq_iff_slots (a : EnumeratedScalarSet T NumValues)
    (b : EnumeratedScalarSet Y NumValues) :
    (eq a b = true ↔ ∀ t : Fin NumValues,
      ScalarTy.eqv (ScalarTy.common T Y)
        (ScalarTy.convert T (ScalarTy.common T Y) (a.index t))
        (ScalarTy.convert Y (ScalarTy.common T Y) (b.index t)) = true) ∧
    ne a b = !(eq a b) := by
  refine ⟨?_, rfl⟩
  rw [eq_eq_true_iff]
  constructor
  · intro h t
    exact (ScalarTy.ne_eq_false_iff T Y _ _).mp (h t)
  · intro h t
    exact (ScalarTy.ne_eq_false_iff T Y _ _).mpr (h t)

/-- Instance of the comparison rule: the `int32_t` set `(16777217, -16777217)` and the
`float` set `(16777216.0, -16777216.0)` compare equal, since both integer slots round to
the `float` slots when they are converted, and `!=` returns false for them. -/
theorem setEq_iff_slots_witness :
    eq (⟨![16777217, -16777217]⟩ : EnumeratedScalarSet (ScalarTy.int int32_t) 2)
      (⟨![Fp.fin 16777216, Fp.fin (-16777216)]⟩ : EnumeratedScalarSet ScalarTy.float 2)
      = true ∧
    ne (⟨![16777217, -16777217]⟩ : EnumeratedScalarSet (ScalarTy.int int32_t) 2)
      (⟨![Fp.fin 16777216, Fp.fin (-16777216)]⟩ : EnumeratedScalarSet ScalarTy.float 2)
      = false := by
  have h := setEq_iff_slots
    (⟨![16777217, -16777217]⟩ : EnumeratedScalarSet (ScalarTy.int int32_t) 2)
    (⟨![Fp.fin 16777216, Fp.fin (-16777216)]⟩ : EnumeratedScalarSet ScalarTy.float 2)
  have hn : binary32.ofInt (-16777217 : Int) = Fp.fin (-16777216) := by
    unfold FpFormat.ofInt FpFormat.round
    have hq : binary32.roundQ (((-16777217 : Int) : ℚ)) = -16777216 := by
      have hh := binary32.roundQ_eq_of_tie (q := ((-16777217 : Int) : ℚ)) 24 (-8388609)
        (by norm_num [abs_of_neg]) (by norm_num [abs_of_neg]) (by norm_num [binary32])
        (by norm_num [binary32])
      rw [hh]
      norm_num [binary32]
    rw [hq, if_neg]
    norm_num [FpFormat.maxFinite, binary32]
  have he : eq (⟨![16777217, -16777217]⟩ : EnumeratedScalarSet (ScalarTy.int int32_t) 2)
      (⟨![Fp.fin 16777216, Fp.fin (-16777216)]⟩ : EnumeratedScalarSet ScalarTy.float 2)
      = true := by
    rw [h.1]
    intro t
    fin_cases t
    · show Fp.eq (binary32.ofInt (16777217 : Int)) (Fp.fin 16777216) = true
      rw [ofInt_b32_tie, Fp.eq_fin]
      exact decide_eq_true rfl
    · show Fp.eq (binary32.ofInt (-16777217 : Int)) (Fp.fin (-16777216)) = true
      rw [hn, Fp.eq_fin]
      exact decide_eq_true rfl
  refine ⟨he, ?_⟩
  rw [h.2, he]
  rfl

/-- C19, as stated, fails: a `float` set with a NaN slot is not equal to itself. The
default constructed `float` set divided by the scalar 0.0 holds NaN in every slot, and
`==` on it and itself returns false while `!=` returns true. -/
theorem setEq_counterexample :
    (∀ t : Fin 2,
      (divScalar (ofDefault ScalarTy.float 2) ScalarTy.float (Fp.fin 0)).index t = Fp.nan) ∧
    eq (divScalar (ofDefault ScalarTy.float 2) ScalarTy.float (Fp.fin 0))
      (divScalar (ofDefault ScalarTy.float 2) ScalarTy.float (Fp.fin 0)) = false ∧
    ne (divScalar (ofDefault ScalarTy.float 2) ScalarTy.float (Fp.fin 0))
      (divScalar (ofDefault ScalarTy.float 2) ScalarTy.float (Fp.fin 0)) = true := by
  have hidx : ∀ t : Fin 2,
      (divScalar (ofDefault ScalarTy.float 2) ScalarTy.float (Fp.fin 0)).index t
        = Fp.nan := index_divScalar_zero 2
  have hz : ∀ z : EnumeratedScalarSet ScalarTy.float 2, (∀ t, z.index t = Fp.nan) →
      eq z z = false := by
    intro z h
    cases hc : eq z z
    · rfl
    · rw [eq_eq_true_iff] at hc
      have h0 := hc 0
      rw [h 0] at h0
      simp [ScalarTy.ne, Fp.ne, Fp.eq] at h0
  have he := hz _ hidx
  refine ⟨hidx, he, ?_⟩
  unfold ne
  rw [he]
  rfl

/-- C19 (amended): set equality is reflexive on every set none of whose slots is a NaN
(so on every integer set) and symmetric on all sets, also between sets of different
scalar types; an integer-backed set and a float-backed set holding the same numeric
value in every slot, a value that `float` represents, are equal in both directions. -/
theorem setEq_refl_symm (a : EnumeratedScalarSet T NumValues)
    (b : EnumeratedScalarSet Y NumValues) :
    ((∀ t : Fin NumValues, T.isNaN (a.index t) = false) → eq a a = true) ∧
    eq a b = eq b a ∧
    (∀ (A : IntTy) (c : EnumeratedScalarSet (ScalarTy.int A) NumValues)
      (d : EnumeratedScalarSet ScalarTy.float NumValues),
      (∀ t : Fin NumValues, d.index t = Fp.fin ((c.index t : Int) : ℚ)) →
      (∀ t : Fin NumValues, binary32.ofInt (c.index t) = Fp.fin ((c.index t : Int) : ℚ)) →
      eq c d = true ∧ eq d c = true) := by
  have hsymm : ∀ {U V : ScalarTy} (u : EnumeratedScalarSet U NumValues)
      (v : EnumeratedScalarSet V NumValues), eq u v = true → eq v u = true := by
    intro U V u v h
    rw [eq_eq_true_iff] at h ⊢
    intro t
    rw [ScalarTy.ne_swap]
    exact h t
  refine ⟨?_, ?_, ?_⟩
  · intro hn
    rw [eq_eq_true_iff]
    intro t
    exact ScalarTy.ne_self T _ (hn t)
  · cases hab : eq a b
    · cases hba : eq b a
      · rfl
      · rw [hsymm b a hba] at hab
        exact absurd hab (by decide)
    · exact (hsymm a b hab).symm
  · intro A c d h hr
    have hcd : eq c d = true := by
      rw [eq_eq_true_iff]
      intro t
      simp only [ScalarTy.ne, Fp.ne]
      rw [h t, hr t, Fp.eq_fin]
      simp
    exact ⟨hcd, hsymm c d hcd⟩

/-- Instance of the equality rules: the `int8_t` set of three slots all 5 has no NaN slot
and equals itself, and it and the `float` set of three slots all 5.0 are equal in both
directions. -/
theorem setEq_refl_symm_witness :
    (∀ t : Fin 3, (ScalarTy.int int8_t).isNaN
      ((ofInitial (ScalarTy.int int8_t) 3 (5 : Int)).index t) = false) ∧
    eq (ofInitial (ScalarTy.int int8_t) 3 (5 : Int))
      (ofInitial (ScalarTy.int int8_t) 3 (5 : Int)) = true ∧
    (∀ t : Fin 3, (ofInitial ScalarTy.float 3 (Fp.fin 5)).index t
      = Fp.fin (((ofInitial (ScalarTy.int int8_t) 3 (5 : Int)).index t : Int) : ℚ)) ∧
    (∀ t : Fin 3, binary32.ofInt ((ofInitial (ScalarTy.int int8_t) 3 (5 : Int)).index t)
      = Fp.fin (((ofInitial (ScalarTy.int int8_t) 3 (5 : Int)).index t : Int) : ℚ)) ∧
    eq (ofInitial (ScalarTy.int int8_t) 3 (5 : Int)) (ofInitial ScalarTy.float 3 (Fp.fin 5))
      = true ∧
    eq (ofInitial ScalarTy.float 3 (Fp.fin 5)) (ofInitial (ScalarTy.int int8_t) 3 (5 : Int))
      = true :=
  have hn : ∀ t : Fin 3, (ScalarTy.int int8_t).isNaN
      ((ofInitial (ScalarTy.int int8_t) 3 (5 : Int)).index t) = false := fun _ => rfl
  have h : ∀ t : Fin 3, (ofInitial ScalarTy.float 3 (Fp.fin 5)).index t
      = Fp.fin (((ofInitial (ScalarTy.int int8_t) 3 (5 : Int)).index t : Int) : ℚ) := by
    intro t
    rw [index_ofInitial, index_ofInitial]
    norm_num
  have hr : ∀ t : Fin 3,
      binary32.ofInt ((ofInitial (ScalarTy.int int8_t) 3 (5 : Int)).index t)
        = Fp.fin (((ofInitial (ScalarTy.int int8_t) 3 (5 : Int)).index t : Int) : ℚ) := by
    intro t
    rw [index_ofInitial]
    exact ofInt_b32 (by decide)
  have hw := setEq_refl_symm (ofInitial (ScalarTy.int int8_t) 3 (5 : Int))
    (ofInitial ScalarTy.float 3 (Fp.fin 5))
  ⟨hn, hw.1 hn, h, hr, (hw.2.2 int8_t _ _ h hr).1, (hw.2.2 int8_t _ _ h hr).2⟩

end EnumeratedScalarSet

namespace Fp

/-! ## Clamping -/

theorem lt_self (x : Fp) : lt x x = false := by
  cases x <;> simp [lt]

theorem le_of_not_lt {x y : Fp} (hx : isNaN x = false) (hy : isNaN y = false)
    (h : lt x y = false) : le y x = true := by
  cases x <;> cases y <;> simp_all [lt, le, isNaN]
  rename_i s t
  cases s <;> cases t <;> simp_all

theorem le_of_lt_fp {x y : Fp} (h : lt x y = true) : le x y = true := by
  cases x <;> cases y <;> simp_all [lt, le]
  exact LT.lt.le h

theorem not_lt_of_le {x y : Fp} (h : le x y = true) : lt y x = false := by
  cases x <;> cases y <;> simp_all [lt, le]
  rename_i s t
  cases s <;> cases t <;> simp_all

theorem le_self {x : Fp} (h : isNaN x = false) : le x x = true := by
  cases x <;> simp_all [le, isNaN]

theorem not_nan_of_le_left {x y : Fp} (h : le x y = true) : isNaN x = false := by
  cases x <;> cases y <;> simp_all [le, isNaN]

theorem not_nan_of_le_right {x y : Fp} (h : le x y = true) : isNaN y = false := by
  cases x <;> cases y <;> simp_all [le, isNaN]

theorem le_of_le {x y z : Fp} (h1 : le x y = true) (h2 : le y z = true) :
    le x z = true := by
  cases x <;> cases y <;> cases z <;> simp_all [le]
  · exact LE.le.trans h1 h2
  · rename_i s t
    cases s <;> cases t <;> simp_all

end Fp

namespace ScalarTy

theorem lt_false_of_self (T : ScalarTy) (x : T.Val) : T.lt x x = false := by
  cases T
  · simp [lt]
  · exact Fp.lt_self x

theorem le_of_lt_false (T : ScalarTy) {x y : T.Val} (hx : T.isNaN x = false)
    (hy : T.isNaN y = false) (h : T.lt x y = false) : T.le y x = true := by
  cases T
  · simp only [lt, le, decide_eq_false_iff_not, decide_eq_true_iff] at *
    exact not_lt.mp h
  · exact Fp.le_of_not_lt hx hy h

theorem le_of_lt_true (T : ScalarTy) {x y : T.Val} (h : T.lt x y = true) :
    T.le x y = true := by
  cases T
  · simp only [lt, le, decide_eq_true_iff] at *
    exact LT.lt.le h
  · exact Fp.le_of_lt_fp h

theorem lt_false_of_le (T : ScalarTy) {x y : T.Val} (h : T.le x y = true) :
    T.lt y x = false := by
  cases T
  · simp only [lt, le, decide_eq_false_iff_not, decide_eq_true_iff] at *
    exact not_lt.mpr h
  · exact Fp.not_lt_of_le h

theorem le_self_of_not_isNaN (T : ScalarTy) {x : T.Val} (h : T.isNaN x = false) :
    T.le x x = true := by
  cases T
  · simp [le]
  · exact Fp.le_self h

theorem not_isNaN_of_le_left (T : ScalarTy) {x y : T.Val} (h : T.le x y = true) :
    T.isNaN x = false := by
  cases T
  · rfl
  · exact Fp.not_nan_of_le_left h

theorem not_isNaN_of_le_right (T : ScalarTy) {x y : T.Val} (h : T.le x y = true) :
    T.isNaN y = false := by
  cases T
  · rfl
  · exact Fp.not_nan_of_le_right h

theorem le_of_le_of_le (T : ScalarTy) {x y z : T.Val} (h1 : T.le x y = true)
    (h2 : T.le y z = true) : T.le x z = true := by
  cases T
  · simp only [le, decide_eq_true_iff] at *
    exact LE.le.trans h1 h2
  · exact Fp.le_of_le h1 h2

theorem stdMax_of_lt (T : ScalarTy) {a b : T.Val} (h : T.lt a b = true) :
    T.stdMax a b = b := by
  unfold stdMax
  rw [if_pos h]

theorem stdMax_of_not_lt (T : ScalarTy) {a b : T.Val} (h : T.lt a b = false) :
    T.stdMax a b = a := by
  unfold stdMax
  rw [h]
  rfl

theorem stdMin_of_lt (T : ScalarTy) {a b : T.Val} (h : T.lt b a = true) :
    T.stdMin a b = b := by
  unfold stdMin
  rw [if_pos h]

theorem stdMin_of_not_lt (T : ScalarTy) {a b : T.Val} (h : T.lt b a = false) :
    T.stdMin a b = a := by
  unfold stdMin
  rw [h]
  rfl

theorem stdMax_int (A : IntTy) (a b : Int) : (int A).stdMax a b = max a b := by
  unfold stdMax lt
  by_cases h : a < b
  · simp [h, max_eq_right (LT.lt.le h)]
  · simp [h, max_eq_left (not_lt.mp h)]

theorem stdMin_int (A : IntTy) (a b : Int) : (int A).stdMin a b = min a b := by
  unfold stdMin lt
  by_cases h : b < a
  · simp [h, min_eq_right (LT.lt.le h)]
  · simp [h, min_eq_left (not_lt.mp h)]

theorem stdMax_fin (x y : ℚ) : float.stdMax (Fp.fin x) (Fp.fin y) = Fp.fin (max x y) := by
  unfold stdMax lt
  by_cases h : x < y
  · simp [Fp.lt, h, max_eq_right (LT.lt.le h)]
  · simp [Fp.lt, h, max_eq_left (not_lt.mp h)]

theorem stdMin_fin (x y : ℚ) : float.stdMin (Fp.fin x) (Fp.fin y) = Fp.fin (min x y) := by
  unfold stdMin lt
  by_cases h : y < x
  · simp [Fp.lt, h, min_eq_right (LT.lt.le h)]
  · simp [Fp.lt, h, min_eq_left (not_lt.mp h)]

/-- The value `std::max(x, m)` of two values that are not NaN is an upper bound of both
and one of them. -/
theorem stdMax_spec (T : ScalarTy) {x m : T.Val} (hx : T.isNaN x = false)
    (hm : T.isNaN m = false) :
    T.le x (T.stdMax x m) = true ∧ T.le m (T.stdMax x m) = true ∧
      (T.stdMax x m = x ∨ T.stdMax x m = m) := by
  cases h : T.lt x m
  · rw [T.stdMax_of_not_lt h]
    exact ⟨T.le_self_of_not_isNaN hx, T.le_of_lt_false hx hm h, Or.inl rfl⟩
  · rw [T.stdMax_of_lt h]
    exact ⟨T.le_of_lt_true h, T.le_self_of_not_isNaN hm, Or.inr rfl⟩

/-- The value `std::min(x, m)` of two values that are not NaN is a lower bound of both
and one of them. -/
theorem stdMin_spec (T : ScalarTy) {x m : T.Val} (hx : T.isNaN x = false)
    (hm : T.isNaN m = false) :
    T.le (T.stdMin x m) x = true ∧ T.le (T.stdMin x m) m = true ∧
      (T.stdMin x m = x ∨ T.stdMin x m = m) := by
  cases h : T.lt m x
  · rw [T.stdMin_of_not_lt h]
    exact ⟨T.le_self_of_not_isNaN hx, T.le_of_lt_false hm hx h, Or.inl rfl⟩
  · rw [T.stdMin_of_lt h]
    exact ⟨T.le_of_lt_true h, T.le_self_of_not_isNaN hm, Or.inr rfl⟩

theorem stdMax_stdMax (T : ScalarTy) (x m : T.Val) :
    T.stdMax (T.stdMax x m) m = T.stdMax x m := by
  cases h : T.lt x m
  · rw [T.stdMax_of_not_lt h, T.stdMax_of_not_lt h]
  · rw [T.stdMax_of_lt h, T.stdMax_of_not_lt (T.lt_false_of_self m)]

theorem stdMin_stdMin (T : ScalarTy) (x m : T.Val) :
    T.stdMin (T.stdMin x m) m = T.stdMin x m := by
  cases h : T.lt m x
  · rw [T.stdMin_of_not_lt h, T.stdMin_of_not_lt h]
  · rw [T.stdMin_of_lt h, T.stdMin_of_not_lt (T.lt_false_of_self m)]

theorem lt_of_lt_of_le (T : ScalarTy) {x y z : T.Val} (h1 : T.lt x y = true)
    (h2 : T.le y z = true) : T.lt x z = true := by
  cases hc : T.lt x z
  · have hx : T.isNaN x = false := T.not_isNaN_of_le_left (T.le_of_lt_true h1)
    have hz : T.isNaN z = false := T.not_isNaN_of_le_right h2
    have h3 := T.le_of_le_of_le h2 (T.le_of_lt_false hx hz hc)
    rw [T.lt_false_of_le h3] at h1
    exact h1
  · rfl

theorem lt_of_le_of_lt (T : ScalarTy) {x y z : T.Val} (h1 : T.le x y = true)
    (h2 : T.lt y z = true) : T.lt x z = true := by
  cases hc : T.lt x z
  · have hx : T.isNaN x = false := T.not_isNaN_of_le_left h1
    have hz : T.isNaN z = false := T.not_isNaN_of_le_right (T.le_of_lt_true h2)
    have h3 := T.le_of_le_of_le (T.le_of_lt_false hx hz hc) h1
    rw [T.lt_false_of_le h3] at h2
    exact h2
  · rfl

theorem stdMin_stdMax_comm (T : ScalarTy) (x : T.Val) {m M : T.Val}
    (h : T.le m M = true) :
    T.stdMin (T.stdMax x m) M = T.stdMax (T.stdMin x M) m := by
  have hMm : T.lt M m = false := T.lt_false_of_le h
  cases h1 : T.lt x m
  · rw [T.stdMax_of_not_lt h1]
    cases h2 : T.lt M x
    · rw [T.stdMin_of_not_lt h2, T.stdMax_of_not_lt h1]
    · rw [T.stdMin_of_lt h2, T.stdMax_of_not_lt hMm]
  · rw [T.stdMax_of_lt h1, T.stdMin_of_not_lt hMm]
    have h2 : T.lt M x = false := by
      cases hc : T.lt M x
      · rfl
      · have := T.lt_of_lt_of_le h1 h
        have h3 := T.le_of_lt_true this
        rw [T.lt_false_of_le h3] at hc
        exact hc.symm
    rw [T.stdMin_of_not_lt h2, T.stdMax_of_lt h1]

theorem stdMin_stdMax_bounds (T : ScalarTy) {x m M : T.Val} (h : T.le m M = true)
    (hx : T.isNaN x = false) :
    T.le m (T.stdMin (T.stdMax x m) M) = true ∧
      T.le (T.stdMin (T.stdMax x m) M) M = true := by
  have hm := T.not_isNaN_of_le_left h
  have hM := T.not_isNaN_of_le_right h
  have h1 := T.stdMax_spec hx hm
  have hy : T.isNaN (T.stdMax x m) = false := T.not_isNaN_of_le_right h1.1
  have h2 := T.stdMin_spec hy hM
  refine ⟨?_, h2.2.1⟩
  rcases h2.2.2 with e | e
  · rw [e]; exact h1.2.1
  · rw [e]; exact h

end ScalarTy

namespace EnumeratedScalarSet

variable {T Y : ScalarTy} {NumValues : Nat}

theorem index_clampMin (a : EnumeratedScalarSet T NumValues) (m : T.Val)
    (t : Fin NumValues) : (clampMin a m).index t = T.stdMax (a.index t) m := by
  unfold clampMin index
  exact forLoop_update_full (fun _ v => T.stdMax v m) a.stats t

theorem index_clampMax (a : EnumeratedScalarSet T NumValues) (m : T.Val)
    (t : Fin NumValues) : (clampMax a m).index t = T.stdMin (a.index t) m := by
  unfold clampMax index
  exact forLoop_update_full (fun _ v => T.stdMin v m) a.stats t

/-- C20: `clampMin` and `clampMax` are the slot-wise maximum and minimum: after
`a.clampMin(m)` every slot `t` holds `max(old a[t], m)` and after `a.clampMax(M)` every
slot `t` holds `min(old a[t], M)`; a slot that is already `>= m` (respectively `<= M`) is
unchanged. The slot is `std::max(old a[t], m)`, respectively `std::min(old a[t], M)`; on
an integer set that is the maximum and the minimum of the two integers, on a `float`
set with a finite slot and a finite bound the maximum and the minimum of the two
numbers, and whenever neither the slot nor the bound is a NaN it is one of the two values
and an upper, respectively lower, bound of both. -/
theorem clamp_index (a : EnumeratedScalarSet T NumValues) (m M : T.Val)
    (t : Fin NumValues) :
    ((clampMin a m).index t = T.stdMax (a.index t) m ∧
      (T.isNaN (a.index t) = false → T.isNaN m = false →
        T.le (a.index t) ((clampMin a m).index t) = true ∧
        T.le m ((clampMin a m).index t) = true ∧
        ((clampMin a m).index t = a.index t ∨ (clampMin a m).index t = m)) ∧
      (T.le m (a.index t) = true → (clampMin a m).index t = a.index t)) ∧
    ((clampMax a M).index t = T.stdMin (a.index t) M ∧
      (T.isNaN (a.index t) = false → T.isNaN M = false →
        T.le ((clampMax a M).index t) (a.index t) = true ∧
        T.le ((clampMax a M).index t) M = true ∧
        ((clampMax a M).index t = a.index t ∨ (clampMax a M).index t = M)) ∧
      (T.le (a.index t) M = true → (clampMax a M).index t = a.index t)) ∧
    (∀ (A : IntTy) (c : EnumeratedScalarSet (ScalarTy.int A) NumValues) (l u : Int),
      (clampMin c l).index t = max (c.index t : Int) l ∧
      (l ≤ (c.index t : Int) → (clampMin c l).index t = c.index t) ∧
      (clampMax c u).index t = min (c.index t : Int) u ∧
      ((c.index t : Int) ≤ u → (clampMax c u).index t = c.index t)) ∧
    (∀ (d : EnumeratedScalarSet ScalarTy.float NumValues) (x l u : ℚ),
      d.index t = Fp.fin x →
      (clampMin d (Fp.fin l)).index t = Fp.fin (max x l) ∧
      (l ≤ x → (clampMin d (Fp.fin l)).index t = d.index t) ∧
      (clampMax d (Fp.fin u)).index t = Fp.fin (min x u) ∧
      (x ≤ u → (clampMax d (Fp.fin u)).index t = d.index t)) := by
  refine ⟨⟨index_clampMin a m t, fun hx hm => ?_, fun h => ?_⟩,
    ⟨index_clampMax a M t, fun hx hM => ?_, fun h => ?_⟩, fun A c l u => ?_,
    fun d x l u hd => ?_⟩
  · rw [index_clampMin]
    exact T.stdMax_spec hx hm
  · rw [index_clampMin]
    exact T.stdMax_of_not_lt (T.lt_false_of_le h)
  · rw [index_clampMax]
    exact T.stdMin_spec hx hM
  · rw [index_clampMax]
    exact T.stdMin_of_not_lt (T.lt_false_of_le h)
  · rw [index_clampMin, index_clampMax, ScalarTy.stdMax_int, ScalarTy.stdMin_int]
    exact ⟨rfl, fun h => max_eq_left h, rfl, fun h => min_eq_left h⟩
  · rw [index_clampMin, index_clampMax, hd, ScalarTy.stdMax_fin, ScalarTy.stdMin_fin]
    exact ⟨rfl, fun h => by rw [max_eq_left h], rfl, fun h => by rw [min_eq_left h]⟩

/-- Instance of the clamping rule on the `int8_t` set `(7, -9)`: clamping the first slot
from below at 3 and from above at 10 leaves 7, and the second slot becomes 3 under
`clampMin(3)` and stays -9 under `clampMax(10)`; on the `float` set `(7.5, -9.0)` the
second slot becomes 0.5 under `clampMin(0.5)`. -/
theorem clamp_index_witness :
    (3 : Int) ≤ (⟨![7, -9]⟩ : EnumeratedScalarSet (ScalarTy.int int8_t) 2).index 0 ∧
    (⟨![7, -9]⟩ : EnumeratedScalarSet (ScalarTy.int int8_t) 2).index 1 ≤ (10 : Int) ∧
    (clampMin (⟨![7, -9]⟩ : EnumeratedScalarSet (ScalarTy.int int8_t) 2) (3 : Int)).index 0
      = (⟨![7, -9]⟩ : EnumeratedScalarSet (ScalarTy.int int8_t) 2).index 0 ∧
    (clampMin (⟨![7, -9]⟩ : EnumeratedScalarSet (ScalarTy.int int8_t) 2) (3 : Int)).index 1
      = max ((⟨![7, -9]⟩ : EnumeratedScalarSet (ScalarTy.int int8_t) 2).index 1 : Int)
        (3 : Int) ∧
    (clampMax (⟨![7, -9]⟩ : EnumeratedScalarSet (ScalarTy.int int8_t) 2) (10 : Int)).index 1
      = (⟨![7, -9]⟩ : EnumeratedScalarSet (ScalarTy.int int8_t) 2).index 1 ∧
    (⟨![Fp.fin (15 / 2), Fp.fin (-9)]⟩ : EnumeratedScalarSet ScalarTy.float 2).index 1
      = Fp.fin (-9) ∧
    (clampMin (⟨![Fp.fin (15 / 2), Fp.fin (-9)]⟩ : EnumeratedScalarSet ScalarTy.float 2)
      (Fp.fin (1 / 2))).index 1 = Fp.fin (max (-9) (1 / 2)) :=
  ⟨by decide, by decide,
    ((clamp_index (⟨![7, -9]⟩ : EnumeratedScalarSet (ScalarTy.int int8_t) 2)
      (3 : Int) (10 : Int) 0).2.2.1 int8_t _ 3 10).2.1 (by decide),
    ((clamp_index (⟨![7, -9]⟩ : EnumeratedScalarSet (ScalarTy.int int8_t) 2)
      (3 : Int) (10 : Int) 1).2.2.1 int8_t _ 3 10).1,
    ((clamp_index (⟨![7, -9]⟩ : EnumeratedScalarSet (ScalarTy.int int8_t) 2)
      (3 : Int) (10 : Int) 1).2.2.1 int8_t _ 3 10).2.2.2 (by decide),
    rfl,
    ((clamp_index (⟨![7, -9]⟩ : EnumeratedScalarSet (ScalarTy.int int8_t) 2)
      (3 : Int) (10 : Int) 1).2.2.2
      (⟨![Fp.fin (15 / 2), Fp.fin (-9)]⟩ : EnumeratedScalarSet ScalarTy.float 2)
      (-9) (1 / 2) (1 / 2) rfl).1⟩

/-! ## Clamping twice, construction -/

theorem ext_index {a b : EnumeratedScalarSet T NumValues}
    (h : ∀ t : Fin NumValues, a.index t = b.index t) : a = b := by
  cases a with
  | mk sa =>
    cases b with
    | mk sb =>
      have hs : sa = sb := funext h
      rw [hs]

/-- C21, as stated, fails: `std::max` and `std::min` return a NaN first argument
unchanged, so a NaN slot of a `float` set stays a NaN under both clamps and compares
neither `>=` the lower nor `<=` the upper bound. The default constructed `float` set
divided by the scalar 0.0 holds NaN in every slot, and after `clampMin(0.0)` and
`clampMax(1.0)` every slot is still a NaN. -/
theorem clampMin_clampMax_counterexample :
    ScalarTy.float.le (Fp.fin 0) (Fp.fin 1) = true ∧
    (∀ t : Fin 2, (clampMax (clampMin
      (divScalar (ofDefault ScalarTy.float 2) ScalarTy.float (Fp.fin 0)) (Fp.fin 0))
      (Fp.fin 1)).index t = Fp.nan) ∧
    (∀ t : Fin 2, ScalarTy.float.le (Fp.fin 0) ((clampMax (clampMin
      (divScalar (ofDefault ScalarTy.float 2) ScalarTy.float (Fp.fin 0)) (Fp.fin 0))
      (Fp.fin 1)).index t) = false) ∧
    (∀ t : Fin 2, ScalarTy.float.le ((clampMax (clampMin
      (divScalar (ofDefault ScalarTy.float 2) ScalarTy.float (Fp.fin 0)) (Fp.fin 0))
      (Fp.fin 1)).index t) (Fp.fin 1) = false) := by
  have h : ∀ t : Fin 2, (clampMax (clampMin
      (divScalar (ofDefault ScalarTy.float 2) ScalarTy.float (Fp.fin 0)) (Fp.fin 0))
      (Fp.fin 1)).index t = Fp.nan := by
    intro t
    rw [index_clampMax, index_clampMin, index_divScalar_zero]
    rfl
  refine ⟨by simp [ScalarTy.le, Fp.le], h, fun t => ?_, fun t => ?_⟩
  · rw [h t]; rfl
  · rw [h t]; rfl

/-- C21 (amended): for every set `a` and every pair of bounds `m <= M`, after
`a.clampMin(m)` followed by `a.clampMax(M)` every slot `t` whose old value is not a NaN
satisfies `m <= a[t] <= M`; on an integer set that is every slot. -/
theorem clampMin_clampMax_bounds (a : EnumeratedScalarSet T NumValues) (m M : T.Val)
    (t : Fin NumValues) :
    (T.le m M = true → T.isNaN (a.index t) = false →
      T.le m ((clampMax (clampMin a m) M).index t) = true ∧
      T.le ((clampMax (clampMin a m) M).index t) M = true) ∧
    (∀ (A : IntTy) (c : EnumeratedScalarSet (ScalarTy.int A) NumValues) (l u : Int),
      l ≤ u → l ≤ ((clampMax (clampMin c l) u).index t : Int) ∧
        ((clampMax (clampMin c l) u).index t : Int) ≤ u) := by
  refine ⟨fun h hx => ?_, fun A c l u h => ?_⟩
  · rw [index_clampMax, index_clampMin]
    exact T.stdMin_stdMax_bounds h hx
  · rw [index_clampMax, index_clampMin, ScalarTy.stdMax_int, ScalarTy.stdMin_int]
    exact ⟨le_min (le_max_right _ _) h, min_le_right _ _⟩

/-- Instance of the two-sided clamp on the `int8_t` set `(7, -9)` with the bounds 0 and
5, where the second slot ends between 0 and 5, and on the `float` set `(7.5, -9.0)` with
the bounds 0.5 and 5.0, where the first slot does. -/
theorem clampMin_clampMax_bounds_witness :
    (0 : Int) ≤ 5 ∧
    (0 : Int) ≤ ((clampMax (clampMin
      (⟨![7, -9]⟩ : EnumeratedScalarSet (ScalarTy.int int8_t) 2) (0 : Int))
      (5 : Int)).index 1 : Int) ∧
    ((clampMax (clampMin
      (⟨![7, -9]⟩ : EnumeratedScalarSet (ScalarTy.int int8_t) 2) (0 : Int))
      (5 : Int)).index 1 : Int) ≤ (5 : Int) ∧
    ScalarTy.float.le (Fp.fin (1 / 2)) (Fp.fin 5) = true ∧
    ScalarTy.float.isNaN
      ((⟨![Fp.fin (15 / 2), Fp.fin (-9)]⟩ : EnumeratedScalarSet ScalarTy.float 2).index 0)
      = false ∧
    ScalarTy.float.le (Fp.fin (1 / 2)) ((clampMax (clampMin
      (⟨![Fp.fin (15 / 2), Fp.fin (-9)]⟩ : EnumeratedScalarSet ScalarTy.float 2)
      (Fp.fin (1 / 2))) (Fp.fin 5)).index 0) = true ∧
    ScalarTy.float.le ((clampMax (clampMin
      (⟨![Fp.fin (15 / 2), Fp.fin (-9)]⟩ : EnumeratedScalarSet ScalarTy.float 2)
      (Fp.fin (1 / 2))) (Fp.fin 5)).index 0) (Fp.fin 5) = true :=
  have hle : ScalarTy.float.le (Fp.fin (1 / 2)) (Fp.fin 5) = true := by
    simp only [ScalarTy.le, Fp.le_fin, decide_eq_true_iff]
    norm_num
  have h := (clampMin_clampMax_bounds
    (⟨![7, -9]⟩ : EnumeratedScalarSet (ScalarTy.int int8_t) 2) (0 : Int) (5 : Int) 1).2
    int8_t (⟨![7, -9]⟩ : EnumeratedScalarSet (ScalarTy.int int8_t) 2) 0 5 (by decide)
  have hf := (clampMin_clampMax_bounds
    (⟨![Fp.fin (15 / 2), Fp.fin (-9)]⟩ : EnumeratedScalarSet ScalarTy.float 2)
    (Fp.fin (1 / 2)) (Fp.fin 5) 0).1 hle rfl
  ⟨by decide, h.1, h.2, hle, rfl, hf.1, hf.2⟩

/-- C22: `clampMin` and `clampMax` are idempotent: for every set `a` and bound `m`,
applying `clampMin(m)` twice leaves the same set as applying it once, and likewise for
`clampMax(m)`. -/
theorem clamp_idempotent (a : EnumeratedScalarSet T NumValues) (m : T.Val) :
    clampMin (clampMin a m) m = clampMin a m ∧ clampMax (clampMax a m) m = clampMax a m := by
  constructor
  · apply ext_index
    intro t
    rw [index_clampMin, index_clampMin]
    exact T.stdMax_stdMax _ _
  · apply ext_index
    intro t
    rw [index_clampMax, index_clampMax]
    exact T.stdMin_stdMin _ _

/-- C23: construction fills every slot: for every scalar `initial` and every tag value
`t`, slot `t` of `EnumeratedScalarSet(initial)` is `initial`, and a default-constructed
set, of an integer or of a floating scalar type, has 0 in every slot. -/
theorem construction_fills (T : ScalarTy) (NumValues : Nat) (initial : T.Val)
    (t : Fin NumValues) :
    (ofInitial T NumValues initial).index t = initial ∧
    (ofDefault T NumValues).index t = T.zero ∧
    (∀ A : IntTy, (ofDefault (ScalarTy.int A) NumValues).index t = (0 : Int)) ∧
    (ofDefault ScalarTy.float NumValues).index t = Fp.fin 0 :=
  ⟨index_ofInitial T NumValues initial t, index_ofInitial T NumValues T.zero t,
    fun A => index_ofInitial (ScalarTy.int A) NumValues (0 : Int) t,
    index_ofInitial ScalarTy.float NumValues (Fp.fin 0) t⟩

/-- C29: `clampMin` and `clampMax` commute when the bounds are ordered: for every set
`a` and bounds `m <= M`, `a.clampMin(m)` followed by `a.clampMax(M)` leaves the same set
as `a.clampMax(M)` followed by `a.clampMin(m)`. -/
theorem clamp_commute (a : EnumeratedScalarSet T NumValues) (m M : T.Val)
    (h : T.le m M = true) :
    clampMax (clampMin a m) M = clampMin (clampMax a M) m := by
  apply ext_index
  intro t
  rw [index_clampMax, index_clampMin, index_clampMin, index_clampMax]
  exact T.stdMin_stdMax_comm _ h

/-- Instance of the commutation on the `int8_t` set `(7, -9)` with the bounds 0 and 5:
both orders give the same set. -/
theorem clamp_commute_witness :
    (ScalarTy.int int8_t).le (0 : Int) (5 : Int) = true ∧
    clampMax (clampMin
      (⟨![7, -9]⟩ : EnumeratedScalarSet (ScalarTy.int int8_t) 2) (0 : Int)) (5 : Int)
      = clampMin (clampMax
      (⟨![7, -9]⟩ : EnumeratedScalarSet (ScalarTy.int int8_t) 2) (5 : Int)) (0 : Int) :=
  ⟨by decide, clamp_commute
    (⟨![7, -9]⟩ : EnumeratedScalarSet (ScalarTy.int int8_t) 2) (0 : Int) (5 : Int)
    (by decide)⟩

end EnumeratedScalarSet

namespace FixedPoint

/-! ## Scalar arithmetic and the represented number -/

/-- C24: scalar arithmetic on a `FixedPoint` agrees with arithmetic on the represented
numbers: for every precision `P ≥ 0` and integers `v`, `s`, with no overflow (the
multiplier `10^P` and the raw value of the result are representable in Base),
`FixedPoint(v) + s`, `FixedPoint(v) - s` and `FixedPoint(v) * s` have the raw value of
`FixedPoint(v + s)`, `FixedPoint(v - s)` and `FixedPoint(v * s)`, namely `(v + s) * 10^P`,
`(v - s) * 10^P` and `(v * s) * 10^P`. -/
theorem scalar_arith_represented (T : IntTy) (P : Int) (Y : IntTy) (v s : Int)
    (hP : 0 ≤ P) (hM : T.inRange (10 ^ P.toNat)) :
    (T.inRange ((v + s) * 10 ^ P.toNat) →
      (addScalar (ofInt T P Y v) Y s).getRaw = (ofInt T P Y (v + s)).getRaw ∧
      (ofInt T P Y (v + s)).getRaw = (v + s) * 10 ^ P.toNat) ∧
    (T.inRange ((v - s) * 10 ^ P.toNat) →
      (subScalar (ofInt T P Y v) Y s).getRaw = (ofInt T P Y (v - s)).getRaw ∧
      (ofInt T P Y (v - s)).getRaw = (v - s) * 10 ^ P.toNat) ∧
    (T.inRange (v * s * 10 ^ P.toNat) →
      (mulScalar (ofInt T P Y v) Y s).getRaw = (ofInt T P Y (v * s)).getRaw ∧
      (ofInt T P Y (v * s)).getRaw = v * s * 10 ^ P.toNat) := by
  have hv := ofInt_value_of_inRange hP hM Y v
  unfold getRaw
  refine ⟨fun h => ?_, fun h => ?_, fun h => ?_⟩
  · have hr : (ofInt T P Y (v + s)).value = (v + s) * 10 ^ P.toNat := by
      rw [ofInt_value_of_inRange hP hM, IntTy.wrap_of_inRange h]
    refine ⟨?_, hr⟩
    rw [hr, ← IntTy.wrap_of_inRange h]
    unfold addScalar addAssignScalar
    simp only
    rw [arith_self_add, hv]
    apply wrap_eq_of_modEq
    have e : (v + s) * 10 ^ P.toNat = v * 10 ^ P.toNat + s * 10 ^ P.toNat := by ring
    rw [e]
    exact (wrap_modEq (le_refl _) _).add
      ((wrap_modEq (le_refl _) _).trans (scaled_modEq T Y hP hM s))
  · have hr : (ofInt T P Y (v - s)).value = (v - s) * 10 ^ P.toNat := by
      rw [ofInt_value_of_inRange hP hM, IntTy.wrap_of_inRange h]
    refine ⟨?_, hr⟩
    rw [hr, ← IntTy.wrap_of_inRange h]
    unfold subScalar subAssignScalar
    simp only
    rw [hv]
    apply wrap_eq_of_modEq
    have hb := le_bits_commonTy_left T (commonTy Y T)
    have e : (v - s) * 10 ^ P.toNat = v * 10 ^ P.toNat - s * 10 ^ P.toNat := by ring
    rw [e]
    unfold arith
    exact (wrap_modEq hb _).trans
      (((wrap_modEq hb _).sub (wrap_modEq hb _)).trans
        ((wrap_modEq (le_refl _) _).sub (scaled_modEq T Y hP hM s)))
  · have hr : (ofInt T P Y (v * s)).value = v * s * 10 ^ P.toNat := by
      rw [ofInt_value_of_inRange hP hM, IntTy.wrap_of_inRange h]
    refine ⟨?_, hr⟩
    rw [hr, ← IntTy.wrap_of_inRange h]
    unfold mulScalar mulAssignScalar
    simp only
    rw [arith_mul T T Y (le_bits_commonTy_left T Y), hv]
    apply wrap_eq_of_modEq
    have e : v * s * 10 ^ P.toNat = v * 10 ^ P.toNat * s := by ring
    rw [e]
    exact (wrap_modEq (le_refl _) _).mul (Int.ModEq.refl s)

/-- Instance of the agreement at a 32 bit signed base, precision 2, `v = 7` and
`s = -3`. -/
theorem scalar_arith_represented_witness :
    (0 : Int) ≤ 2 ∧ int32_t.inRange (10 ^ (2 : Int).toNat) ∧
    (addScalar (ofInt int32_t 2 int32_t 7) int32_t (-3)).getRaw
      = (ofInt int32_t 2 int32_t (7 + -3)).getRaw ∧
    (subScalar (ofInt int32_t 2 int32_t 7) int32_t (-3)).getRaw
      = (ofInt int32_t 2 int32_t (7 - -3)).getRaw ∧
    (mulScalar (ofInt int32_t 2 int32_t 7) int32_t (-3)).getRaw
      = (ofInt int32_t 2 int32_t (7 * -3)).getRaw :=
  have h := scalar_arith_represented int32_t 2 int32_t 7 (-3) (by decide) (by decide)
  ⟨by decide, by decide, (h.1 (by decide)).1, (h.2.1 (by decide)).1,
    (h.2.2 (by decide)).1⟩

end FixedPoint

/-! ## Comparison with the scalar a value was built from -/

theorem IntTy.signed_of_neg {A : IntTy} {x : Int} (h : A.inRange x) (hx : x < 0) :
    A.signed = true := by
  cases hs : A.signed
  · unfold IntTy.inRange IntTy.minVal at h
    rw [hs] at h
    simp only [Bool.false_eq_true, if_false] at h
    omega
  · rfl

theorem IntTy.promote_signed {A : IntTy} (h : A.signed = true) : A.promote.signed = true := by
  unfold IntTy.promote
  split
  · rfl
  · exact h

theorem commonTy_signed {A B : IntTy} (ha : A.signed = true) (hb : B.signed = true) :
    (commonTy A B).signed = true := by
  have ha1 := IntTy.promote_signed ha
  have hb1 := IntTy.promote_signed hb
  unfold commonTy
  simp only
  rw [ha1, hb1]
  simp only [if_true]
  split <;> assumption

theorem inRange_commonTy_of_mul {Y T : IntTy} {v m : Int} (hv : Y.inRange v)
    (hm : 0 < m) (hx : T.inRange (v * m)) : (commonTy Y T).inRange (v * m) := by
  rcases le_or_lt 0 (v * m) with h0 | h0
  · exact inRange_commonTy_right_of_nonneg hx h0
  · have hvneg : v < 0 := by
      by_contra hc
      have : 0 ≤ v * m := mul_nonneg (not_lt.mp hc) (le_of_lt hm)
      omega
    have hs := commonTy_signed (IntTy.signed_of_neg hv hvneg) (IntTy.signed_of_neg hx h0)
    rw [commonTy_comm] at hs ⊢
    exact inRange_commonTy_left_of_signed hs hx

namespace FixedPoint

theorem arith_mul_of_inRange {A B : IntTy} {a b : Int} (h : (commonTy A B).inRange (a * b)) :
    arith (· * ·) A B a b = a * b := by
  have h1 := IntTy.wrap_mul_of_le (le_refl (commonTy A B).bits) a b
  rw [IntTy.wrap_wrap_of_le (le_refl _), IntTy.wrap_of_inRange h] at h1
  exact h1

/-- C25, as stated, fails for a fractional scalar: the constructor truncates `v * 10^P`
while `operator==` compares the stored value with the untruncated product. At precision
2 on a 32 bit signed base, for the `double` 0.125 the product 12.5 is exact,
`FixedPoint(0.125)` stores raw 12 and `12 == 12.5` is false, so `FixedPoint(0.125) == 0.125`
returns false and `!=` returns true. -/
theorem eqScalar_counterexample :
    binary64.round (1 / 8) = Fp.fin (1 / 8) ∧
    int32_t.inRangeQ ((1 / 8 : ℚ) * (10 : ℚ) ^ (2 : Int)) ∧
    (ofDouble int32_t 2 (Fp.fin (1 / 8))).getRaw = 12 ∧
    eqScalarDouble (ofDouble int32_t 2 (Fp.fin (1 / 8))) (Fp.fin (1 / 8)) = false ∧
    neScalarDouble (ofDouble int32_t 2 (Fp.fin (1 / 8))) (Fp.fin (1 / 8)) = true := by
  have hm : getPrecisionMultiplier int32_t 2 = 100 :=
    getPrecisionMultiplier_eq (by decide) (by decide)
  have h100 : binary64.ofInt (100 : Int) = Fp.fin 100 := by
    exact_mod_cast FpFormat.ofInt_b64 (n := 100) (by decide)
  have h12 : binary64.ofInt (12 : Int) = Fp.fin 12 := by
    exact_mod_cast FpFormat.ofInt_b64 (n := 12) (by decide)
  have hprod : Fp.mul binary64 (Fp.fin (1 / 8)) (Fp.fin 100) = Fp.fin (25 / 2) := by
    rw [Fp.mul_fin]
    have e : (1 / 8 : ℚ) * 100 = 25 / 2 := by norm_num
    rw [e]
    exact binary64.round_eq_self 25 (-1) (by norm_num) (by norm_num [binary64])
      (by norm_num [binary64]) (by norm_num [binary64, abs_of_pos])
  have hv : (ofDouble int32_t 2 (Fp.fin (1 / 8))).value = 12 := by
    unfold ofDouble ofFloating
    simp only
    rw [hm, h100, hprod, IntTy.ofFp_fin]
    have e : (25 / 2 : ℚ) = ((25 : Int) : ℚ) / ((2 : Int) : ℚ) := by norm_num
    rw [e, truncQ_div]; decide
  refine ⟨?_, ?_, hv, ?_, ?_⟩
  · exact binary64.round_eq_self 1 (-3) (by norm_num) (by norm_num [binary64])
      (by norm_num [binary64]) (by norm_num [binary64, abs_of_pos])
  · unfold IntTy.inRangeQ IntTy.minVal IntTy.maxVal IntTy.half IntTy.modulus int32_t
    norm_num
  · unfold eqScalarDouble
    rw [hv, hm, h100, hprod, h12, Fp.eq_fin, decide_eq_false_iff_not]
    norm_num
  · unfold neScalarDouble Fp.ne
    rw [hv, hm, h100, hprod, h12, Fp.eq_fin]
    norm_num

/-- C25 (amended): for every precision `P ≥ 0` with `10^P` representable in Base, a
`FixedPoint<Base,P>` built from an integer scalar `v` whose product `v * 10^P` is
representable in Base compares equal to `v` (`==` returns true and `!=` false). Built
from a `double` scalar `v` whose product `v * 10^P`, rounded to `double` and truncated,
is representable in Base, it compares equal to `v` exactly when that rounded product is
an integer, and `!=` returns the negation of `==`. -/
theorem eqScalar_of_constructed (T : IntTy) (P : Int) (hP : 0 ≤ P)
    (hM : T.inRange (10 ^ P.toNat)) :
    (∀ (Y : IntTy) (v : Int), Y.inRange v → T.inRange (v * 10 ^ P.toNat) →
      eqScalar (ofInt T P Y v) Y v = true ∧ neScalar (ofInt T P Y v) Y v = false) ∧
    (∀ v : ℚ, T.inRange (truncQ (binary64.roundQ (v * (10 : ℚ) ^ P))) →
      (eqScalarDouble (ofDouble T P (Fp.fin v)) (Fp.fin v) = true
        ↔ ∃ n : Int, binary64.roundQ (v * (10 : ℚ) ^ P) = (n : ℚ)) ∧
      neScalarDouble (ofDouble T P (Fp.fin v)) (Fp.fin v)
        = !(eqScalarDouble (ofDouble T P (Fp.fin v)) (Fp.fin v))) := by
  have hpos := pow_ten_pos P.toNat
  constructor
  · intro Y v hv hx
    have hC := inRange_commonTy_of_mul hv hpos hx
    have hp : arith (· * ·) Y T v (getPrecisionMultiplier T P) = v * 10 ^ P.toNat := by
      rw [getPrecisionMultiplier_eq hP hM]
      exact arith_mul_of_inRange hC
    have hval : (ofInt T P Y v).value = v * 10 ^ P.toNat := by
      unfold ofInt
      simp only
      rw [hp, IntTy.wrap_of_inRange hx]
    constructor
    · unfold eqScalar cmp
      rw [hval, hp]
      simp
    · unfold neScalar cmp
      rw [hval, hp]
      simp
  · intro v hv
    have hp66 := abs_le_of_truncQ_roundQ hv
    have hval : (ofDouble T P (Fp.fin v)).value
        = truncQ (binary64.roundQ (v * (10 : ℚ) ^ P)) := by
      rw [ofDouble_value hP hM v hp66, IntTy.wrap_of_inRange hv]
    have hr66 : |((truncQ (binary64.roundQ (v * (10 : ℚ) ^ P)) : Int) : ℚ)|
        ≤ (2 : ℚ) ^ (66 : Nat) := by
      have h1 : |((truncQ (binary64.roundQ (v * (10 : ℚ) ^ P)) : Int) : ℚ)|
          < (2 : ℚ) ^ (64 : Nat) := by exact_mod_cast IntTy.abs_lt_of_inRange hv
      have h2 : (2 : ℚ) ^ (64 : Nat) ≤ (2 : ℚ) ^ (66 : Nat) := by norm_num
      linarith
    constructor
    · unfold eqScalarDouble
      rw [hval, ofInt_multiplier hP hM, Fp.mul_fin, ← zpow_ten_of_nonneg hP,
        FpFormat.round_b64_of_abs_le hp66]
      unfold FpFormat.ofInt
      rw [FpFormat.round_b64_of_abs_le hr66, Fp.eq_fin, decide_eq_true_iff]
      constructor
      · intro h
        obtain ⟨k, hk⟩ := binary64.roundQ_intCast_int
          (truncQ (binary64.roundQ (v * (10 : ℚ) ^ P)))
        exact ⟨k, by rw [← h, hk]⟩
      · rintro ⟨n, hn⟩
        rw [hn, truncQ_intCast, ← hn, binary64.roundQ_roundQ]
    · unfold eqScalarDouble neScalarDouble Fp.ne
      rfl

/-- Instance of the comparison rule at a 32 bit signed base: at precision 2, built from
the integer 7 the value equals 7; at precision 1, built from the `double` 0.7 it equals
0.7, as the product of that `double` and 10 rounds to the integer 7. -/
theorem eqScalar_of_constructed_witness :
    (0 : Int) ≤ 2 ∧ int32_t.inRange (10 ^ (2 : Int).toNat) ∧ int32_t.inRange 7 ∧
    eqScalar (ofInt int32_t 2 int32_t 7) int32_t 7 = true ∧
    neScalar (ofInt int32_t 2 int32_t 7) int32_t 7 = false ∧
    binary64.roundQ ((3152519739159347 / 4503599627370496 : ℚ) * (10 : ℚ) ^ (1 : Int)) = 7 ∧
    eqScalarDouble (ofDouble int32_t 1 (Fp.fin (3152519739159347 / 4503599627370496)))
      (Fp.fin (3152519739159347 / 4503599627370496)) = true :=
  have h := eqScalar_of_constructed int32_t 2 (by decide) (by decide)
  have h1 := eqScalar_of_constructed int32_t 1 (by decide) (by decide)
  have hq : binary64.roundQ
      ((3152519739159347 / 4503599627370496 : ℚ) * (10 : ℚ) ^ (1 : Int)) = 7 := by
    have hh := binary64.roundQ_eq_of_tie
      (q := (3152519739159347 / 4503599627370496 : ℚ) * (10 : ℚ) ^ (1 : Int))
      2 7881299347898367 (by norm_num [abs_of_pos]) (by norm_num [abs_of_pos])
      (by norm_num [binary64]) (by norm_num [binary64])
    rw [hh]
    norm_num [binary64]
  have hr : int32_t.inRange (truncQ (binary64.roundQ
      ((3152519739159347 / 4503599627370496 : ℚ) * (10 : ℚ) ^ (1 : Int)))) := by
    rw [hq]
    have e : truncQ (7 : ℚ) = 7 := by exact_mod_cast truncQ_intCast 7
    rw [e]
    decide
  ⟨by decide, by decide, by decide,
    (h.1 int32_t 7 (by decide) (by decide)).1, (h.1 int32_t 7 (by decide) (by decide)).2,
    hq, ((h1.2 _ hr).1).mpr ⟨7, by rw [hq]; norm_num⟩⟩

/-! ## Subtraction of a scalar and addition of its negation -/

/-- For an integer scalar the subtraction and the addition of the negated scalar store
the same raw value. -/
theorem subScalar_eq_addScalar_neg {T : IntTy} {P : Int} (x : FixedPoint T P) (Y : IntTy)
    (s : Int) (hP : 0 ≤ P) (hM : T.inRange (10 ^ P.toNat)) :
    (subScalar x Y s).getRaw = (addScalar x Y (-s)).getRaw := by
  unfold getRaw subScalar subAssignScalar addScalar addAssignScalar
  simp only
  rw [arith_self_add]
  apply wrap_eq_of_modEq
  have hb := le_bits_commonTy_left T (commonTy Y T)
  have e : x.value - s * 10 ^ P.toNat = x.value + -s * 10 ^ P.toNat := by ring
  unfold arith
  refine ((wrap_modEq hb _).trans (((wrap_modEq hb _).sub (wrap_modEq hb _)).trans
    ((Int.ModEq.refl _).sub (scaled_modEq T Y hP hM s)))).trans ?_
  rw [e]
  exact (Int.ModEq.refl _).add
    ((wrap_modEq (le_refl _) _).trans (scaled_modEq T Y hP hM (-s))).symm

/-- C26 fails on the code for a fractional scalar: `operator+=` converts the scaled
scalar to the base type before adding, `operator-=` subtracts in `double` and converts
the difference. For a `FixedPoint<int32_t,1>` with raw value 10 and the scalar 0.25,
`x - s` stores 7 (the truncation of 7.5) while `x + (-s)` stores 8 (10 plus the truncation
of -2.5); the scaled scalar 2.5 and the difference 7.5 are exact in `double`. -/
theorem subScalarDouble_addScalarDouble_differ :
    (subScalarDouble (⟨10⟩ : FixedPoint int32_t 1) (Fp.fin (1 / 4))).getRaw = 7 ∧
    (addScalarDouble (⟨10⟩ : FixedPoint int32_t 1) (Fp.fin (-(1 / 4)))).getRaw = 8 ∧
    Fp.neg (Fp.fin (1 / 4)) = Fp.fin (-(1 / 4)) := by
  have hm : getPrecisionMultiplier int32_t 1 = 10 :=
    getPrecisionMultiplier_eq (by decide) (by decide)
  have h10 : binary64.ofInt (10 : Int) = Fp.fin 10 := by
    exact_mod_cast FpFormat.ofInt_b64 (n := 10) (by decide)
  have hpos : Fp.mul binary64 (Fp.fin (1 / 4)) (Fp.fin 10) = Fp.fin (5 / 2) := by
    rw [Fp.mul_fin]
    have e : (1 / 4 : ℚ) * 10 = 5 / 2 := by norm_num
    rw [e]
    exact binary64.round_eq_self 5 (-1) (by norm_num) (by norm_num [binary64])
      (by norm_num [binary64]) (by norm_num [binary64, abs_of_pos])
  have hneg : Fp.mul binary64 (Fp.fin (-(1 / 4))) (Fp.fin 10) = Fp.fin (-(5 / 2)) := by
    rw [Fp.mul_fin]
    have e : (-(1 / 4) : ℚ) * 10 = -(5 / 2) := by norm_num
    rw [e]
    exact binary64.round_eq_self (-5) (-1) (by norm_num) (by norm_num [binary64])
      (by norm_num [binary64]) (by norm_num [binary64, abs_of_pos])
  have hdiff : Fp.sub binary64 (Fp.fin 10) (Fp.fin (5 / 2)) = Fp.fin (15 / 2) := by
    rw [Fp.sub_fin]
    have e : (10 : ℚ) - 5 / 2 = 15 / 2 := by norm_num
    rw [e]
    exact binary64.round_eq_self 15 (-1) (by norm_num) (by norm_num [binary64])
      (by norm_num [binary64]) (by norm_num [binary64, abs_of_pos])
  refine ⟨?_, ?_, rfl⟩
  · rw [getRaw_eq]
    unfold subScalarDouble subAssignScalarDouble
    dsimp only
    rw [hm, h10, hpos, hdiff, IntTy.ofFp_fin]
    have e : (15 / 2 : ℚ) = ((15 : Int) : ℚ) / ((2 : Int) : ℚ) := by norm_num
    rw [e, truncQ_div]; decide
  · rw [getRaw_eq]
    unfold addScalarDouble addAssignScalarDouble
    dsimp only
    rw [hm, h10, hneg, IntTy.ofFp_fin]
    have e : (-(5 / 2) : ℚ) = ((-5 : Int) : ℚ) / ((2 : Int) : ℚ) := by norm_num
    rw [e, truncQ_div]; decide

/-! ## Symmetry of the cross-precision equality -/

theorem eqFixed_of_gt {T Y : IntTy} {P Z : Int} (a : FixedPoint T P) (b : FixedPoint Y Z)
    (hlt : Z < P) (h255 : P - Z ≤ 255) (ha : T.inRange a.value)
    (hr : T.inRange (b.value * 10 ^ (P - Z).toNat))
    (h53 : |b.value * 10 ^ (P - Z).toNat| < 2 ^ 53) :
    eqFixed a b = decide (a.value = b.value * 10 ^ (P - Z).toNat) := by
  have hgt : P > Z := hlt
  have e : T.ofFp (scaledUp T P b) = b.value * 10 ^ (P - Z).toNat := by
    rw [scaledUp_eq T b hlt h255 (le_of_lt h53), IntTy.ofFp_fin, truncQ_intCast,
      IntTy.wrap_of_inRange hr]
  unfold eqFixed
  simp only [if_pos hgt, e]
  exact cmp_self_of_inRange _ ha hr

theorem eqFixed_of_lt {T Y : IntTy} {P Z : Int} (a : FixedPoint T P) (b : FixedPoint Y Z)
    (hlt : P < Z) (h255 : Z - P ≤ 255) (ha : T.inRange a.value)
    (hr : T.inRange (b.value.tdiv (10 ^ (Z - P).toNat))) (h53 : |b.value| < 2 ^ 53) :
    eqFixed a b = decide (a.value = b.value.tdiv (10 ^ (Z - P).toNat)) := by
  have hgt : ¬ (P > Z) := by omega
  have e : T.ofFp (scaledDown T P b) = b.value.tdiv (10 ^ (Z - P).toNat) := by
    obtain ⟨y, hy, hty⟩ := truncQ_scaledDown T b hlt h255 h53
    rw [hy, IntTy.ofFp_fin, hty, IntTy.wrap_of_inRange hr]
  unfold eqFixed
  simp only [if_neg hgt, if_pos hlt, e]
  exact cmp_self_of_inRange _ ha hr

/-- C27, as stated, fails: each side compares at its own precision. With `a` of type
`FixedPoint<int32_t,2>` holding raw 15 and `b` of type `FixedPoint<int32_t,1>` holding
raw 1, `a == b` compares 15 with 10 and returns false, while `b == a` compares 1 with the
truncation of 1.5 and returns true; nothing overflows in either rescale. -/
theorem eqFixed_symm_counterexample :
    eqFixed (⟨15⟩ : FixedPoint int32_t 2) (⟨1⟩ : FixedPoint int32_t 1) = false ∧
    eqFixed (⟨1⟩ : FixedPoint int32_t 1) (⟨15⟩ : FixedPoint int32_t 2) = true ∧
    int32_t.inRange ((1 : Int) * 10 ^ ((2 : Int) - 1).toNat) ∧
    int32_t.inRange ((15 : Int).tdiv (10 ^ ((2 : Int) - 1).toNat)) := by
  refine ⟨?_, ?_, by decide, by decide⟩
  · rw [eqFixed_of_gt _ _ (by decide) (by decide) (by decide) (by decide) (by decide)]
    decide
  · rw [eqFixed_of_lt _ _ (by decide) (by decide) (by decide) (by decide) (by decide)]
    decide

/-- C27 (amended): for `a` of type `FixedPoint<T,P>` and `b` of type `FixedPoint<Y,Z>`
with `P > Z`, `P - Z <= 255`, no overflow in either rescale, and `a.getRaw()` and
`b.getRaw() * 10^(P-Z)` of magnitude below `2^53` (so that the rescaling in `double` is
exact), `a == b` compares `a.getRaw()` with `b.getRaw() * 10^(P-Z)` and `b == a` compares
`b.getRaw()` with `a.getRaw() / 10^(P-Z)` truncated toward zero. Hence `a == b` implies
`b == a`, and the two return the same result whenever `a.getRaw()` is a multiple of
`10^(P-Z)`. -/
theorem eqFixed_symm_of_multiple {T Y : IntTy} {P Z : Int} (a : FixedPoint T P)
    (b : FixedPoint Y Z) (hlt : Z < P) (h255 : P - Z ≤ 255) (ha : T.inRange a.getRaw)
    (hb : Y.inRange b.getRaw) (hr : T.inRange (b.getRaw * 10 ^ (P - Z).toNat))
    (hq : Y.inRange (a.getRaw.tdiv (10 ^ (P - Z).toNat))) (ha53 : |a.getRaw| < 2 ^ 53)
    (hb53 : |b.getRaw * 10 ^ (P - Z).toNat| < 2 ^ 53) :
    eqFixed a b = decide (a.getRaw = b.getRaw * 10 ^ (P - Z).toNat) ∧
    eqFixed b a = decide (b.getRaw = a.getRaw.tdiv (10 ^ (P - Z).toNat)) ∧
    (eqFixed a b = true → eqFixed b a = true) ∧
    ((10 : Int) ^ (P - Z).toNat ∣ a.getRaw → eqFixed a b = eqFixed b a) := by
  unfold getRaw at *
  have hpos := pow_ten_pos (P - Z).toNat
  have hab := eqFixed_of_gt a b hlt h255 ha hr hb53
  have hba := eqFixed_of_lt b a hlt h255 hb hq ha53
  have himp : eqFixed a b = true → eqFixed b a = true := by
    intro h
    rw [hab, decide_eq_true_iff] at h
    rw [hba, decide_eq_true_iff, h]
    exact (Int.mul_tdiv_cancel b.value (ne_of_gt hpos)).symm
  refine ⟨hab, hba, himp, fun hdvd => ?_⟩
  cases h1 : eqFixed a b
  · cases h2 : eqFixed b a
    · rfl
    · exfalso
      rw [hba, decide_eq_true_iff] at h2
      rw [hab, decide_eq_false_iff_not] at h1
      apply h1
      rw [h2]
      exact (Int.tdiv_mul_cancel hdvd).symm
  · exact (himp h1).symm

/-- Instance of the symmetry rule: raw 450 at precision 2 against raw 45 at precision 1;
450 is a multiple of 10 and both comparisons return the same result, true. -/
theorem eqFixed_symm_of_multiple_witness :
    (1 : Int) < 2 ∧ (2 : Int) - 1 ≤ 255 ∧
    int32_t.inRange (⟨450⟩ : FixedPoint int32_t 2).getRaw ∧
    int32_t.inRange (⟨45⟩ : FixedPoint int32_t 1).getRaw ∧
    |(⟨450⟩ : FixedPoint int32_t 2).getRaw| < 2 ^ 53 ∧
    |(⟨45⟩ : FixedPoint int32_t 1).getRaw * 10 ^ ((2 : Int) - 1).toNat| < 2 ^ 53 ∧
    (10 : Int) ^ ((2 : Int) - 1).toNat ∣ (⟨450⟩ : FixedPoint int32_t 2).getRaw ∧
    eqFixed (⟨450⟩ : FixedPoint int32_t 2) (⟨45⟩ : FixedPoint int32_t 1)
      = decide ((⟨450⟩ : FixedPoint int32_t 2).getRaw
        = (⟨45⟩ : FixedPoint int32_t 1).getRaw * 10 ^ ((2 : Int) - 1).toNat) ∧
    eqFixed (⟨450⟩ : FixedPoint int32_t 2) (⟨45⟩ : FixedPoint int32_t 1)
      = eqFixed (⟨45⟩ : FixedPoint int32_t 1) (⟨450⟩ : FixedPoint int32_t 2) :=
  have h := eqFixed_symm_of_multiple (⟨450⟩ : FixedPoint int32_t 2)
    (⟨45⟩ : FixedPoint int32_t 1) (by decide) (by decide) (by decide) (by decide)
    (by decide) (by decide) (by decide) (by decide)
  ⟨by decide, by decide, by decide, by decide, by decide, by decide, by decide,
    h.1, h.2.2.2 (by decide)⟩

/-! ## Inequality and equality of values of different types -/

/-- In the branches `Precision > Z` and `Precision < Z` the operator `!=` returns the
negation of `==`. -/
theorem neFixed_eq_not_eqFixed {T Y : IntTy} {P Z : Int} (a : FixedPoint T P)
    (b : FixedPoint Y Z) (h : P ≠ Z) : neFixed a b = !(eqFixed a b) := by
  unfold neFixed eqFixed cmp
  by_cases hgt : P > Z
  · simp only [if_pos hgt]
    simp
  · have hlt : P < Z := by omega
    simp only [if_neg hgt, if_pos hlt]
    simp

/-- C28 fails on the code in the branch `P == Z`: `operator==` compares with
`static_cast<T>(rhs.getRaw())`, `operator!=` compares with `rhs.getRaw()` without the
cast. For `a` of type `FixedPoint<int8_t,0>` with raw value 1 and `b` of type
`FixedPoint<int32_t,0>` with raw value 257, `a == b` and `a != b` both return true. -/
theorem neFixed_not_negation :
    eqFixed (⟨1⟩ : FixedPoint int8_t 0) (⟨257⟩ : FixedPoint int32_t 0) = true ∧
    neFixed (⟨1⟩ : FixedPoint int8_t 0) (⟨257⟩ : FixedPoint int32_t 0) = true ∧
    neFixed (⟨1⟩ : FixedPoint int8_t 0) (⟨257⟩ : FixedPoint int32_t 0)
      ≠ !(eqFixed (⟨1⟩ : FixedPoint int8_t 0) (⟨257⟩ : FixedPoint int32_t 0)) := by
  have he : eqFixed (⟨1⟩ : FixedPoint int8_t 0) (⟨257⟩ : FixedPoint int32_t 0) = true := by
    unfold eqFixed
    rw [if_neg (by decide), if_neg (by decide)]
    decide
  have hn : neFixed (⟨1⟩ : FixedPoint int8_t 0) (⟨257⟩ : FixedPoint int32_t 0) = true := by
    unfold neFixed
    rw [if_neg (by decide), if_neg (by decide)]
    decide
  refine ⟨he, hn, ?_⟩
  rw [he, hn]
  decide

end FixedPoint

end stec
